import Mathlib

/-!
Verification of the Kuhn–Munkres (Hungarian) assignment solver in
`hungarian.c`.  The solver is embedded shallowly: the padded square cost
matrix, the potentials `u`, `v`, the matching array `p`, the predecessor
array `way` and the per-iteration scratch data `minv`, `used`, `j0` are
carried in an explicit state record, the three loops of the C function
become fuel-indexed recursions (the fuel is generous; exhausting it models
a run of the C code that has not terminated within the modelled number of
steps, and every theorem below either proves the fuel sufficient or is
conditioned on a `some` result), and the `double` arithmetic of the source
is modelled by exact rational arithmetic.
-/

set_option maxRecDepth 10000

namespace Hungarian

/-- The literal `INF` of the source (`#define INF 1e18`). -/
def INF : ℚ := 10 ^ 18

/-- The padding cost written into cells outside the real `n × m` rectangle
(`1e9` in the source). -/
def PAD : ℚ := 10 ^ 9

/-- The padded `(N+1) × (N+1)` matrix `a` built at the top of `hungarian`:
`a[i][j] = cost[i-1][j-1]` when `0 < i ≤ n` and `0 < j ≤ m`, and the
padding cost otherwise.  Dimensions are `int`s in C, hence `ℤ` here. -/
def padA (n m : ℤ) (cost : ℕ → ℕ → ℚ) (i j : ℕ) : ℚ :=
  if 0 < i ∧ 0 < j ∧ (i : ℤ) ≤ n ∧ (j : ℤ) ≤ m then cost (i - 1) (j - 1) else PAD

/-- The working state of the solver: the arrays `u`, `v`, `p`, `way` that
live for the whole call, and the per-outer-iteration data `minv`, `used`
and the current column `j0`. -/
structure KMState where
  u : ℕ → ℚ
  v : ℕ → ℚ
  p : ℕ → ℕ
  way : ℕ → ℕ
  minv : ℕ → ℚ
  used : ℕ → Bool
  j0 : ℕ

instance : Inhabited KMState :=
  ⟨⟨fun _ => 0, fun _ => 0, fun _ => 0, fun _ => 0, fun _ => 0, fun _ => false, 0⟩⟩

/-- Intermediate data of the first inner `for` loop over `j = 1..N`:
the (partially updated) `minv` and `way` arrays together with the running
minimum `delta` and its column `j1`. -/
structure Scan where
  minv : ℕ → ℚ
  way : ℕ → ℕ
  delta : ℚ
  j1 : ℕ

/-- One step of the scan loop, for a single column `j`:
`if (!used[j]) { cur = a[i0][j]-u[i0]-v[j]; if (cur < minv[j]) {minv[j]=cur; way[j]=j0;} if (minv[j] < delta) {delta=minv[j]; j1=j;} }`. -/
def scanStep (a : ℕ → ℕ → ℚ) (u v : ℕ → ℚ) (used : ℕ → Bool) (i0 j0 : ℕ)
    (t : Scan) (j : ℕ) : Scan :=
  if used j then t else
    let cur := a i0 j - u i0 - v j
    let minv' := if cur < t.minv j then Function.update t.minv j cur else t.minv
    let way' := if cur < t.minv j then Function.update t.way j j0 else t.way
    if minv' j < t.delta then ⟨minv', way', minv' j, j⟩ else ⟨minv', way', t.delta, t.j1⟩

/-- Result of the second inner `for` loop over `j = 0..N` (the potential
update): the new `u`, `v` and `minv` arrays. -/
structure Upd where
  u : ℕ → ℚ
  v : ℕ → ℚ
  minv : ℕ → ℚ

/-- One step of the update loop, for a single column `j`:
`if (used[j]) { u[p[j]] += delta; v[j] -= delta; } else minv[j] -= delta;`. -/
def updStep (p : ℕ → ℕ) (used : ℕ → Bool) (delta : ℚ) (t : Upd) (j : ℕ) : Upd :=
  if used j then
    ⟨Function.update t.u (p j) (t.u (p j) + delta),
     Function.update t.v j (t.v j - delta), t.minv⟩
  else
    ⟨t.u, t.v, Function.update t.minv j (t.minv j - delta)⟩

/-- One execution of the body of the `do { ... } while (p[j0] != 0)` loop:
mark `j0` used, scan the columns `1..N`, update the potentials over the
columns `0..N`, and move to the new column `j1`. -/
def pass (N : ℕ) (a : ℕ → ℕ → ℚ) (s : KMState) : KMState :=
  let used : ℕ → Bool := Function.update s.used s.j0 true
  let i0 := s.p s.j0
  let sc := (List.range' 1 N).foldl (scanStep a s.u s.v used i0 s.j0)
    ⟨s.minv, s.way, INF, 0⟩
  let up := (List.range (N + 1)).foldl (updStep s.p used sc.delta)
    ⟨s.u, s.v, sc.minv⟩
  ⟨up.u, up.v, s.p, sc.way, up.minv, used, sc.j1⟩

/-- The relaxation loop `do { ... } while (p[j0] != 0)`, returning the list
of states observed at each evaluation of the loop condition (so the length
of the list is the number of executions of the loop body, and its last
element is the state in which the loop exits).  `none` models a run that
does not exit within `fuel` body executions. -/
def innerTraj (N : ℕ) (a : ℕ → ℕ → ℚ) : ℕ → KMState → Option (List KMState)
  | 0, _ => none
  | fuel + 1, s =>
    let s' := pass N a s
    if s'.p s'.j0 ≠ 0 then (innerTraj N a fuel s').map (s' :: ·) else some [s']

/-- The augmenting loop `do { j1 = way[j0]; p[j0] = p[j1]; j0 = j1; } while (j0 != 0)`.
`none` models a run that does not reach column `0` within `fuel` steps
(the C loop would then run forever, since `way` is not modified by it). -/
def augLoop : ℕ → KMState → Option KMState
  | 0, _ => none
  | fuel + 1, s =>
    let j1 := s.way s.j0
    let s' : KMState := { s with p := Function.update s.p s.j0 (s.p j1), j0 := j1 }
    if j1 ≠ 0 then augLoop fuel s' else some s'

/-- Preparation of an outer iteration for row `i`: `p[0] = i`, fresh
`minv[..] = INF` and `used[..] = 0` scratch arrays, and the search starts
at the virtual column `j0 = 0`. -/
def resetFor (i : ℕ) (s : KMState) : KMState :=
  ⟨s.u, s.v, Function.update s.p 0 i, s.way, fun _ => INF, fun _ => false, 0⟩

/-- The outer loop over the rows `i = 1..N`.  For each row it runs the
relaxation loop and then the augmenting loop; it returns the per-iteration
lists of relaxation states together with the final state. -/
def runAux (N : ℕ) (a : ℕ → ℕ → ℚ) : List ℕ → KMState → Option (List (List KMState) × KMState)
  | [], s => some ([], s)
  | i :: rest, s =>
    (innerTraj N a (2 * N + 8) (resetFor i s)).bind fun tr =>
    (augLoop (N + 2) (tr.getLastD (resetFor i s))).bind fun s2 =>
    (runAux N a rest s2).map fun q => (tr :: q.1, q.2)

/-- The state at the start of `hungarian`: all arrays are `calloc`ed to
zero. -/
def initState : KMState :=
  ⟨fun _ => 0, fun _ => 0, fun _ => 0, fun _ => 0, fun _ => 0, fun _ => false, 0⟩

/-- The complete run of the solver on an `n × m` matrix: `N = max n m`
outer iterations on the padded matrix starting from the zero state. -/
def hungarianRun (n m : ℤ) (cost : ℕ → ℕ → ℚ) : Option (List (List KMState) × KMState) :=
  let N := (max n m).toNat
  runAux N (padA n m cost) (List.range' 1 N) initState

/-- The returned total cost:
`for (j = 1..N) if (p[j] > 0 && p[j] <= n && j <= m) result += cost[p[j]-1][j-1]`. -/
def totalOf (n m : ℤ) (cost : ℕ → ℕ → ℚ) (N : ℕ) (p : ℕ → ℕ) : ℚ :=
  ((List.range' 1 N).map fun j =>
    if 0 < p j ∧ (p j : ℤ) ≤ n ∧ (j : ℤ) ≤ m then cost (p j - 1) (j - 1) else 0).sum

/-- The returned assignment array `match_out[0..m-1]`: position `j` holds
`p[j+1]-1` when `0 < p[j+1] ≤ n`, and the unassigned marker `-1`
otherwise. -/
def matchOf (n m : ℤ) (p : ℕ → ℕ) : List ℤ :=
  (List.range m.toNat).map fun j =>
    if 0 < p (j + 1) ∧ (p (j + 1) : ℤ) ≤ n then (p (j + 1) : ℤ) - 1 else -1

/-- The solver `hungarian(n, m, cost, match_out)`: the total cost together
with the assignment array, or `none` when the modelled run does not
terminate within the modelled fuel. -/
def hungarian (n m : ℤ) (cost : ℕ → ℕ → ℚ) : Option (ℚ × List ℤ) :=
  (hungarianRun n m cost).map fun q =>
    (totalOf n m cost (max n m).toNat q.2.p, matchOf n m q.2.p)

/-- The number of executions of the relaxation loop body in each outer
iteration. -/
def passCounts (n m : ℤ) (cost : ℕ → ℕ → ℚ) : Option (List ℕ) :=
  (hungarianRun n m cost).map fun q => q.1.map List.length

/-- All states of the run at which the relaxation loop evaluates its exit
condition, together with the initial state and the final state. -/
def allStates (n m : ℤ) (cost : ℕ → ℕ → ℚ) : Option (List KMState) :=
  (hungarianRun n m cost).map fun q => initState :: (q.1.flatten ++ [q.2])

/-- The cost matrix of the repository's own `main` driver. -/
def exCost : ℕ → ℕ → ℚ :=
  fun i j =>
    [[9, 5/2, 71/10, 83/10],
     [31/5, 24/5, 3, 79/10],
     [5, 81/10, 3/2, 87/10]].getD i [] |>.getD j 0

/-! ### Specification-level notions

The cost of a perfect matching (a permutation of `Fin n`), the optimum over
all perfect matchings, and permuted cost matrices. -/

/-- Total cost of the perfect matching that assigns worker `σ j` to job `j`
in an `n × n` matrix. -/
def permSum (n : ℕ) (cost : ℕ → ℕ → ℚ) (σ : Equiv.Perm (Fin n)) : ℚ :=
  ∑ j : Fin n, cost (σ j) j

/-- The minimum total cost over all perfect matchings of an `n × n`
matrix. -/
def minPermSum (n : ℕ) (cost : ℕ → ℕ → ℚ) : ℚ :=
  Finset.univ.inf' Finset.univ_nonempty (permSum n cost)

/-- The matrix obtained by relabeling workers with `σ` and jobs with `τ`:
entry `(i, j)` of the result is entry `(σ i, τ j)` of `cost`. -/
def permuteMat (σ τ : ℕ → ℕ) (cost : ℕ → ℕ → ℚ) : ℕ → ℕ → ℚ :=
  fun i j => cost (σ i) (τ j)

/-- The transposition of `0` and `1` on indices. -/
def swap01 : ℕ → ℕ := fun k => if k = 0 then 1 else if k = 1 then 0 else k

/-! ### Concrete instances used by individual theorems -/

/-- A `2 × 2` matrix whose first row exceeds the source's `INF` threshold:
`[[1.9e18, 1.2e18], [5, 5]]`. -/
def hugeSquare : ℕ → ℕ → ℚ :=
  fun i j => if i = 0 then (if j = 0 then 19 * 10 ^ 17 else 12 * 10 ^ 17) else 5

/-- The `1 × 1` matrix `[[2e18]]`, whose single cost exceeds `INF`. -/
def hugeOne : ℕ → ℕ → ℚ := fun _ _ => 2 * 10 ^ 18

/-- The `1 × 1` matrix `[[-1]]`. -/
def negOne : ℕ → ℕ → ℚ := fun _ _ => -1

/-- The all-zero cost matrix. -/
def zeroC : ℕ → ℕ → ℚ := fun _ _ => 0

/-! ### Invariants used in the proofs -/

/-- Structural invariant on the matching arrays after `k` completed outer
iterations: every entry of `p` is a row index at most `k`, distinct columns
hold distinct nonzero rows, every row `1..k` is matched to some column in
`1..N`, and `way` only ever points to column `0` or to a column currently
matched. -/
structure MatchInv (N k : ℕ) (s : KMState) : Prop where
  p_le : ∀ j, s.p j ≤ k
  p_inj : ∀ j j', 1 ≤ j → j ≤ N → 1 ≤ j' → j' ≤ N → s.p j ≠ 0 → s.p j = s.p j' → j = j'
  p_surj : ∀ r, 1 ≤ r → r ≤ k → ∃ j, 1 ≤ j ∧ j ≤ N ∧ s.p j = r
  way_le : ∀ j, s.way j ≤ N
  way_matched : ∀ j, s.way j = 0 ∨ s.p (s.way j) ≠ 0

/-- Structural invariant maintained by the relaxation loop of one outer
iteration: `p` is not modified, marked columns are the virtual column `0`
or matched real columns, and `way` keeps pointing to column `0` or to
matched columns. -/
structure StructInv (N : ℕ) (p0 : ℕ → ℕ) (s : KMState) : Prop where
  p_eq : s.p = p0
  used_ok : ∀ j, s.used j = true → j = 0 ∨ (1 ≤ j ∧ j ≤ N ∧ s.p j ≠ 0)
  way_le : ∀ j, s.way j ≤ N
  way_matched : ∀ j, s.way j = 0 ∨ s.p (s.way j) ≠ 0
  j0_le : s.j0 ≤ N

/-- The result of the scan loop of `pass` (first inner `for`), as a named
projection of the state. -/
def scanOf (N : ℕ) (a : ℕ → ℕ → ℚ) (s : KMState) : Scan :=
  (List.range' 1 N).foldl
    (scanStep a s.u s.v (Function.update s.used s.j0 true) (s.p s.j0) s.j0)
    ⟨s.minv, s.way, INF, 0⟩

/-- The result of the update loop of `pass` (second inner `for`), as a named
projection of the state. -/
def updOf (N : ℕ) (a : ℕ → ℕ → ℚ) (s : KMState) : Upd :=
  (List.range (N + 1)).foldl
    (updStep s.p (Function.update s.used s.j0 true) (scanOf N a s).delta)
    ⟨s.u, s.v, (scanOf N a s).minv⟩

/-- Boundedness hypothesis on the padded matrix used by the dual analysis:
all entries of the working square have absolute value at most `A`, and `A`
is small enough relative to the square size that every reduced cost
computed during the run stays strictly below the sentinel `INF`. -/
def Bounded (N : ℕ) (a : ℕ → ℕ → ℚ) (A : ℚ) : Prop :=
  0 ≤ A ∧ A * (2 * N + 1) < INF ∧
    ∀ i j, 1 ≤ i → i ≤ N → 1 ≤ j → j ≤ N → |a i j| ≤ A

/-- Weak per-state feasibility statement, recorded for every state of the
run: every row potential is feasible against every column potential unless
the row has not been processed yet (in which case its potential is still
the initial `0`); column potentials never become positive. -/
def Feas2 (N : ℕ) (a : ℕ → ℕ → ℚ) (s : KMState) : Prop :=
  (∀ i j, 1 ≤ i → i ≤ N → 1 ≤ j → j ≤ N → s.u i + s.v j ≤ a i j ∨ s.u i = 0) ∧
    ∀ j, 1 ≤ j → j ≤ N → s.v j ≤ 0

/-- Dual invariant between outer iterations, after `k` of them: feasibility
on the processed rows, zero potential on the unprocessed rows, tightness on
matched edges, zero potential on unmatched columns, nonpositive column
potentials with an explicit lower bound, and an untouched virtual
predecessor `way[0] = 0`. -/
structure DualInv (N : ℕ) (a : ℕ → ℕ → ℚ) (A : ℚ) (k : ℕ) (s : KMState) : Prop where
  dfeas : ∀ r j, 1 ≤ r → r ≤ k → 1 ≤ j → j ≤ N → s.u r + s.v j ≤ a r j
  tight : ∀ j, 1 ≤ j → j ≤ N → s.p j ≠ 0 → s.u (s.p j) + s.v j = a (s.p j) j
  u_hi : ∀ r, k < r → s.u r = 0
  v_un : ∀ j, 1 ≤ j → j ≤ N → s.p j = 0 → s.v j = 0
  v_np : ∀ j, 1 ≤ j → j ≤ N → s.v j ≤ 0
  v_lo : ∀ j, 1 ≤ j → j ≤ N → -(2 * A * k) ≤ s.v j
  way0 : s.way 0 = 0

/-- Dual invariant at every check point of the relaxation loop of the outer
iteration inserting row `k+1`, with `p0` the matching frozen for the
iteration and `v0` the column potentials at the start of the iteration. -/
structure InnerInv (N : ℕ) (a : ℕ → ℕ → ℚ) (A : ℚ) (k : ℕ) (p0 : ℕ → ℕ)
    (v0 : ℕ → ℚ) (s : KMState) : Prop where
  base : StructInv N p0 s
  used0 : s.used 0 = true
  way0 : s.way 0 = 0
  dfeas : ∀ r j, 1 ≤ r → r ≤ k + 1 → 1 ≤ j → j ≤ N → s.u r + s.v j ≤ a r j
  u_hi : ∀ r, k + 1 < r → s.u r = 0
  tight : ∀ j, 1 ≤ j → j ≤ N → p0 j ≠ 0 → s.u (p0 j) + s.v j = a (p0 j) j
  v_np : ∀ j, 1 ≤ j → j ≤ N → s.v j ≤ 0
  minv_nn : ∀ j, 1 ≤ j → j ≤ N → s.used j = false → 0 ≤ s.minv j
  minv_lb : ∀ j, 1 ≤ j → j ≤ N → s.used j = false → ∀ j', j' ≤ N →
    s.used j' = true → s.minv j ≤ a (p0 j') j - s.u (p0 j') - s.v j
  minv_way : ∀ j, 1 ≤ j → j ≤ N → s.used j = false →
    s.used (s.way j) = true ∧
      s.minv j = a (p0 (s.way j)) j - s.u (p0 (s.way j)) - s.v j
  tight_used : ∀ j, 1 ≤ j → j ≤ N → s.used j = true →
    s.used (s.way j) = true ∧
      a (p0 (s.way j)) j - s.u (p0 (s.way j)) - s.v j = 0
  j0_mem : 1 ≤ s.j0 ∧ s.j0 ≤ N ∧ s.used s.j0 = false ∧ s.minv s.j0 = 0
  u_cur_lo : -A ≤ s.u (k + 1)
  v_track : ∀ j, 1 ≤ j → j ≤ N → v0 j - (s.u (k + 1) + A) ≤ s.v j
  v_frozen : ∀ j, 1 ≤ j → j ≤ N → s.used j = false → s.v j = v0 j
  reach : ∀ j, j ≤ N → s.used j = true → ∃ t, s.way^[t] j = 0

/-- The number of matched but not yet frontier-absorbed columns: the
decreasing measure of the relaxation loop. -/
def unmatchedUnused (N : ℕ) (p0 : ℕ → ℕ) (s : KMState) : ℕ :=
  ((Finset.Icc 1 N).filter fun j => p0 j ≠ 0 ∧ s.used j = false).card

/-- Extension of a permutation of `Fin n` to all of `ℕ` (identity outside
`[0, n)`). -/
def permExt (n : ℕ) (σ : Equiv.Perm (Fin n)) : ℕ → ℕ :=
  fun i => if h : i < n then σ ⟨i, h⟩ else i

/-- The relabeling of the `1`-based padded indices induced by a permutation
of the `nn` real rows (or columns): indices `1..nn` are permuted, the
virtual index `0` and the padding indices above `nn` stay fixed. -/
def permPad (nn : ℕ) (σ : Equiv.Perm (Fin nn)) : ℕ → ℕ :=
  fun i => if h : 1 ≤ i ∧ i ≤ nn then (σ ⟨i - 1, by omega⟩ : ℕ) + 1 else i

/-- Profile of the working state between outer iterations when the padded
matrix is constantly `PAD` (the degenerate inputs `n ≤ 0` or `m ≤ 0`):
processed rows carry potential `PAD`, unprocessed rows `0`, all real column
potentials are `0` and all predecessor links point to column `0`. -/
structure PadProf (k : ℕ) (s : KMState) : Prop where
  u_lo : ∀ r, 1 ≤ r → r ≤ k → s.u r = PAD
  u_hi : ∀ r, k < r → s.u r = 0
  v_real : ∀ j, 1 ≤ j → s.v j = 0
  way_all : ∀ j, s.way j = 0

/-- Profile of the working state at the check points of the relaxation loop
when the padded matrix is constantly `PAD`: the current row has already
been lifted to potential `PAD` by the first pass, all later deltas are `0`,
and the best slack of every unabsorbed column is `0`. -/
structure PadInner (N k : ℕ) (p0 : ℕ → ℕ) (s : KMState) : Prop where
  base : StructInv N p0 s
  used0 : s.used 0 = true
  u_lo : ∀ r, 1 ≤ r → r ≤ k + 1 → s.u r = PAD
  u_hi : ∀ r, k + 1 < r → s.u r = 0
  v_real : ∀ j, 1 ≤ j → s.v j = 0
  way_all : ∀ j, s.way j = 0
  minv0 : ∀ j, 1 ≤ j → j ≤ N → s.used j = false → s.minv j = 0
  j0_mem : 1 ≤ s.j0 ∧ s.j0 ≤ N ∧ s.used s.j0 = false

end Hungarian

namespace Hungarian

/-! ### Helper lemmas -/

theorem permSum_two (cost : ℕ → ℕ → ℚ) (σ : Equiv.Perm (Fin 2)) :
    permSum 2 cost σ = cost (σ 0) 0 + cost (σ 1) 1 := by
  simp [permSum, Fin.sum_univ_two]

theorem perm_fin_two_cases (σ : Equiv.Perm (Fin 2)) :
    (σ 0 = 0 ∧ σ 1 = 1) ∨ (σ 0 = 1 ∧ σ 1 = 0) := by
  have hne : σ 0 ≠ σ 1 := fun h => absurd (σ.injective h) (by decide)
  have h0 := (σ 0).isLt
  have h1 := (σ 1).isLt
  rcases Fin.exists_fin_two.mp ⟨σ 0, rfl⟩ with ha | ha <;>
    rcases Fin.exists_fin_two.mp ⟨σ 1, rfl⟩ with hb | hb <;>
      simp_all

theorem minPermSum_two (cost : ℕ → ℕ → ℚ) :
    minPermSum 2 cost = min (cost 0 0 + cost 1 1) (cost 1 0 + cost 0 1) := by
  apply le_antisymm
  · apply le_min
    · calc minPermSum 2 cost ≤ permSum 2 cost 1 := Finset.inf'_le _ (Finset.mem_univ _)
        _ = cost 0 0 + cost 1 1 := by rw [permSum_two]; rfl
    · calc minPermSum 2 cost ≤ permSum 2 cost (Equiv.swap 0 1) :=
          Finset.inf'_le _ (Finset.mem_univ _)
        _ = cost 1 0 + cost 0 1 := by
          rw [permSum_two]
          norm_num [Equiv.swap_apply_left, Equiv.swap_apply_right]
  · apply Finset.le_inf'
    intro σ _
    rw [permSum_two]
    rcases perm_fin_two_cases σ with ⟨h0, h1⟩ | ⟨h0, h1⟩ <;> rw [h0, h1]
    · exact min_le_left _ _
    · exact min_le_right _ _

section StructuralScan

variable {a : ℕ → ℕ → ℚ} {u v : ℕ → ℚ} {used : ℕ → Bool} {i0 j0c : ℕ}

theorem update_self_or {α β : Type} [DecidableEq α] (f : α → β) (j : α) (b : β) (x : α) :
    Function.update f j b x = f x ∨ Function.update f j b x = b := by
  rcases eq_or_ne x j with rfl | h
  · exact Or.inr (Function.update_same _ _ _)
  · exact Or.inl (Function.update_noteq h _ _)

theorem scanStep_way (t : Scan) (j x : ℕ) :
    (scanStep a u v used i0 j0c t j).way x = t.way x ∨
      (scanStep a u v used i0 j0c t j).way x = j0c := by
  unfold scanStep
  dsimp only
  split_ifs <;> first
    | exact Or.inl rfl
    | exact update_self_or t.way j j0c x

theorem scanStep_j1 (t : Scan) (j : ℕ) :
    (scanStep a u v used i0 j0c t j).j1 = t.j1 ∨
      ((scanStep a u v used i0 j0c t j).j1 = j ∧ used j = false) := by
  unfold scanStep
  dsimp only
  split_ifs <;> first
    | exact Or.inl rfl
    | exact Or.inr ⟨rfl, by simp_all⟩

theorem scan_way (l : List ℕ) (t0 : Scan) (x : ℕ) :
    (l.foldl (scanStep a u v used i0 j0c) t0).way x = t0.way x ∨
      (l.foldl (scanStep a u v used i0 j0c) t0).way x = j0c := by
  induction l generalizing t0 with
  | nil => exact Or.inl rfl
  | cons y ys ih =>
    rw [List.foldl_cons]
    rcases ih (scanStep a u v used i0 j0c t0 y) with h | h
    · rw [h]; exact scanStep_way t0 y x
    · exact Or.inr h

theorem scan_j1 (l : List ℕ) (t0 : Scan) :
    (l.foldl (scanStep a u v used i0 j0c) t0).j1 = t0.j1 ∨
      ((l.foldl (scanStep a u v used i0 j0c) t0).j1 ∈ l ∧
        used ((l.foldl (scanStep a u v used i0 j0c) t0).j1) = false) := by
  induction l generalizing t0 with
  | nil => exact Or.inl rfl
  | cons y ys ih =>
    rw [List.foldl_cons]
    rcases ih (scanStep a u v used i0 j0c t0 y) with h | h
    · rcases scanStep_j1 t0 y with h' | h'
      · exact Or.inl (h.trans h')
      · have hxy := h.trans h'.1
        rw [hxy]
        exact Or.inr ⟨List.mem_cons_self y ys, h'.2⟩
    · exact Or.inr ⟨List.mem_cons_of_mem y h.1, h.2⟩

end StructuralScan

theorem pass_p (N : ℕ) (a : ℕ → ℕ → ℚ) (s : KMState) : (pass N a s).p = s.p := rfl

theorem pass_used (N : ℕ) (a : ℕ → ℕ → ℚ) (s : KMState) :
    (pass N a s).used = Function.update s.used s.j0 true := rfl

theorem pass_way (N : ℕ) (a : ℕ → ℕ → ℚ) (s : KMState) (x : ℕ) :
    (pass N a s).way x = s.way x ∨ (pass N a s).way x = s.j0 :=
  scan_way _ _ x

theorem pass_j0 (N : ℕ) (a : ℕ → ℕ → ℚ) (s : KMState) :
    (pass N a s).j0 = 0 ∨
      (1 ≤ (pass N a s).j0 ∧ (pass N a s).j0 ≤ N ∧
        Function.update s.used s.j0 true ((pass N a s).j0) = false) := by
  rcases @scan_j1 a s.u s.v
      (Function.update s.used s.j0 true) (s.p s.j0) s.j0
      (List.range' 1 N) ⟨s.minv, s.way, INF, 0⟩ with h | h
  · exact Or.inl h
  · obtain ⟨h1', h2'⟩ := List.mem_range'_1.mp h.1
    rw [Nat.add_comm] at h2'
    exact Or.inr ⟨h1', Nat.lt_succ_iff.mp h2', h.2⟩

theorem pass_struct {N : ℕ} {a : ℕ → ℕ → ℚ} {p0 : ℕ → ℕ} {s : KMState}
    (hs : StructInv N p0 s) (hj0 : s.j0 = 0 ∨ s.p s.j0 ≠ 0) :
    StructInv N p0 (pass N a s) := by
  refine ⟨pass_p N a s ▸ hs.p_eq, ?_, ?_, ?_, ?_⟩
  · intro j hj
    rw [pass_used] at hj
    rw [pass_p]
    rcases eq_or_ne j s.j0 with rfl | hne
    · rcases Nat.eq_zero_or_pos s.j0 with h0 | hpos
      · exact Or.inl h0
      · rcases hj0 with h | h
        · omega
        · exact Or.inr ⟨hpos, hs.j0_le, h⟩
    · rw [Function.update_apply, if_neg hne] at hj
      exact hs.used_ok j hj
  · intro j
    rcases pass_way N a s j with h | h
    · rw [h]; exact hs.way_le j
    · rw [h]; exact hs.j0_le
  · intro j
    rw [pass_p]
    rcases pass_way N a s j with h | h
    · rw [h]; exact hs.way_matched j
    · rw [h]
      rcases hj0 with h0 | h0
      · exact Or.inl h0
      · exact Or.inr h0
  · rcases pass_j0 N a s with h | h
    · rw [h]; exact Nat.zero_le N
    · exact h.2.1

/-! Analysis of the augmenting loop.  The loop follows the fixed function
`way` from the starting column; it terminates exactly when that iteration
reaches column `0`, and in that case the visited columns are pairwise
distinct and the matching is rewired along them. -/

theorem iterate_shift (f : ℕ → ℕ) (x : ℕ) {c d : ℕ} (h : f^[c] x = f^[d] x) :
    ∀ e, f^[c + e] x = f^[d + e] x := by
  intro e
  induction e with
  | zero => simpa using h
  | succ e ih =>
    rw [← Nat.add_assoc, ← Nat.add_assoc, Function.iterate_succ_apply',
      Function.iterate_succ_apply', ih]

theorem iterate_min_zero_nodup (f : ℕ → ℕ) (x T : ℕ) (hT : f^[T] x = 0)
    (hmin : ∀ t, t < T → f^[t] x ≠ 0) :
    ∀ c d, c < d → d ≤ T → f^[c] x ≠ f^[d] x := by
  intro c d hcd hdT heq
  have hTd : f^[c + (T - d)] x = f^[d + (T - d)] x := iterate_shift f x heq (T - d)
  rw [Nat.add_sub_cancel' hdT] at hTd
  have hlt : c + (T - d) < T := by omega
  exact hmin _ hlt (hTd.trans hT)

theorem augLoop_some_T : ∀ (fuel : ℕ) (s s' : KMState),
    augLoop fuel s = some s' → s.j0 ≠ 0 →
    ∃ T, 1 ≤ T ∧ T ≤ fuel ∧ s.way^[T] s.j0 = 0 ∧ ∀ t, t < T → s.way^[t] s.j0 ≠ 0 := by
  intro fuel
  induction fuel with
  | zero => intro s s' h; exact absurd h (by simp [augLoop])
  | succ fuel ih =>
    intro s s' h hj0
    rw [augLoop] at h
    by_cases h1 : s.way s.j0 ≠ 0
    · rw [if_pos h1] at h
      obtain ⟨T1, hT1, hTf, hT0, hTm⟩ := ih _ s' h h1
      refine ⟨T1 + 1, by omega, by omega, ?_, ?_⟩
      · rw [Function.iterate_succ_apply]
        exact hT0
      · intro t ht
        cases t with
        | zero => exact hj0
        | succ t =>
          rw [Function.iterate_succ_apply]
          exact hTm t (by omega)
    · rw [if_neg h1] at h
      push_neg at h1
      exact ⟨1, le_rfl, by omega, h1, fun t ht => by
        interval_cases t
        exact hj0⟩

theorem augLoop_run : ∀ (T fuel : ℕ) (s : KMState), s.j0 ≠ 0 → 1 ≤ T →
    s.way^[T] s.j0 = 0 → (∀ t, t < T → s.way^[t] s.j0 ≠ 0) → T ≤ fuel →
    ∃ s', augLoop fuel s = some s' ∧ s'.u = s.u ∧ s'.v = s.v ∧ s'.way = s.way ∧
      s'.minv = s.minv ∧ s'.used = s.used ∧ s'.j0 = 0 ∧
      (∀ j, (∀ t, t < T → s.way^[t] s.j0 ≠ j) → s'.p j = s.p j) ∧
      (∀ t, t < T → s'.p (s.way^[t] s.j0) = s.p (s.way^[t + 1] s.j0)) := by
  intro T
  induction T with
  | zero => omega
  | succ T ih =>
    intro fuel s hj0 hT1 hT0 hmin hfuel
    have hnd := iterate_min_zero_nodup s.way s.j0 (T + 1) hT0 hmin
    obtain ⟨fuel', rfl⟩ : ∃ fuel', fuel = fuel' + 1 := ⟨fuel - 1, by omega⟩
    rw [augLoop]
    rcases Nat.eq_zero_or_pos T with rfl | hTpos
    · -- single step: way j0 = 0
      have hw0 : s.way s.j0 = 0 := hT0
      rw [if_neg (by simpa using hw0)]
      refine ⟨_, rfl, rfl, rfl, rfl, rfl, rfl, hw0, ?_, ?_⟩
      · intro j hj
        have : s.j0 ≠ j := hj 0 Nat.zero_lt_one
        exact Function.update_noteq (Ne.symm this) _ _
      · intro t ht
        interval_cases t
        simpa using Function.update_same s.j0 (s.p (s.way s.j0)) s.p
    · -- way j0 ≠ 0, recurse
      have hw1 : s.way s.j0 ≠ 0 := hmin 1 (by omega)
      rw [if_pos (by simpa using hw1)]
      set s1 : KMState :=
        { s with p := Function.update s.p s.j0 (s.p (s.way s.j0)), j0 := s.way s.j0 }
        with hs1
      have hch : ∀ t, s1.way^[t] s1.j0 = s.way^[t + 1] s.j0 := by
        intro t
        show s.way^[t] (s.way s.j0) = s.way^[t + 1] s.j0
        rw [Function.iterate_succ_apply]
      obtain ⟨s', hrun, hu, hv, hw, hm, hus, hj0', hA, hB⟩ :=
        ih fuel' s1 (by simpa [hs1] using hw1) hTpos
          (by rw [hch]; exact hT0)
          (fun t ht => by rw [hch]; exact hmin (t + 1) (by omega))
          (by omega)
      refine ⟨s', hrun, hu, hv, hw, hm, hus, hj0', ?_, ?_⟩
      · intro j hj
        have h1 : s'.p j = s1.p j := hA j fun t ht => by
          rw [hch]; exact hj (t + 1) (by omega)
        rw [h1, hs1]
        exact Function.update_noteq (Ne.symm (hj 0 (by omega))) _ _
      · intro t ht
        cases t with
        | zero =>
          -- s'.p s.j0 = s.p (way s.j0): s.j0 is not on the tail chain
          have h1 : s'.p s.j0 = s1.p s.j0 := by
            apply hA
            intro t ht
            rw [hch]
            exact fun hc => hnd 0 (t + 1) (by omega) (by omega) hc.symm
          simp only [Function.iterate_zero_apply, Nat.zero_add, Function.iterate_one]
          rw [h1]
          show Function.update s.p s.j0 (s.p (s.way s.j0)) s.j0 = s.p (s.way s.j0)
          exact Function.update_same _ _ _
        | succ t =>
          have e1 : s.way^[t + 1] s.j0 = s1.way^[t] s1.j0 := (hch t).symm
          rw [e1, hB t (by omega), hch (t + 1)]
          show Function.update s.p s.j0 (s.p (s.way s.j0)) (s.way^[t + 1 + 1] s.j0) =
            s.p (s.way^[t + 1 + 1] s.j0)
          apply Function.update_noteq
          exact fun hc => hnd 0 (t + 2) (by omega) (by omega) hc.symm

theorem innerTraj_struct {N : ℕ} {a : ℕ → ℕ → ℚ} {p0 : ℕ → ℕ} (hp00 : p0 0 ≠ 0) :
    ∀ (fuel : ℕ) (s : KMState) (tr : List KMState),
    innerTraj N a fuel s = some tr → StructInv N p0 s → (s.j0 = 0 ∨ s.p s.j0 ≠ 0) →
    (∀ x ∈ tr, StructInv N p0 x) ∧
      ∃ sl, tr.getLast? = some sl ∧ StructInv N p0 sl ∧
        sl.p sl.j0 = 0 ∧ 1 ≤ sl.j0 := by
  intro fuel
  induction fuel with
  | zero => intro s tr h; exact absurd h (by simp [innerTraj])
  | succ fuel ih =>
    intro s tr h hs hj0
    rw [innerTraj] at h
    have hs' : StructInv N p0 (pass N a s) := pass_struct hs hj0
    by_cases hc : (pass N a s).p (pass N a s).j0 ≠ 0
    · rw [if_pos hc] at h
      cases htr' : innerTraj N a fuel (pass N a s) with
      | none => rw [htr'] at h; exact absurd h (by simp)
      | some tr' =>
        rw [htr'] at h
        simp only [Option.map_some'] at h
        obtain rfl : tr = pass N a s :: tr' := (Option.some.inj h).symm
        obtain ⟨hall, sl, hlast, hsl⟩ := ih (pass N a s) tr' htr' hs'
          (Or.inr (hs'.p_eq ▸ (hs.p_eq ▸ hc)))
        refine ⟨?_, sl, ?_, hsl⟩
        · intro x hx
          rcases List.mem_cons.mp hx with rfl | hx'
          · exact hs'
          · exact hall x hx'
        · rcases tr' with - | ⟨y, ys⟩
          · exact absurd hlast (by simp)
          · rw [List.getLast?_cons_cons]
            exact hlast
    · rw [if_neg hc] at h
      push_neg at hc
      have htr : tr = [pass N a s] := by simpa using h.symm
      subst htr
      refine ⟨fun x hx => by simpa using (List.mem_singleton.mp hx) ▸ hs', ?_⟩
      refine ⟨pass N a s, by simp, hs', hc, ?_⟩
      rcases pass_j0 N a s with h0 | h0
      · exfalso
        rw [h0] at hc
        rw [hs'.p_eq] at hc
        exact hp00 hc
      · exact h0.1

/-- Rewiring step: from the exit state of the relaxation loop, the
augmenting loop produces a state whose matching extends the old one by the
newly inserted row. -/
theorem augment_matchInv {N k : ℕ} {p0 : ℕ → ℕ} {se s' : KMState}
    (hse : StructInv N p0 se)
    (hp00 : p0 0 = k + 1)
    (hple : ∀ j, 1 ≤ j → p0 j ≤ k)
    (hple0 : ∀ j, p0 j ≤ k + 1)
    (hpinj : ∀ j j', 1 ≤ j → j ≤ N → 1 ≤ j' → j' ≤ N → p0 j ≠ 0 → p0 j = p0 j' → j = j')
    (hpsurj : ∀ r, 1 ≤ r → r ≤ k → ∃ j, 1 ≤ j ∧ j ≤ N ∧ p0 j = r)
    (hexit : se.p se.j0 = 0) (hj1 : 1 ≤ se.j0)
    (haug : augLoop (N + 2) se = some s') :
    MatchInv N (k + 1) s' ∧ s'.u = se.u ∧ s'.v = se.v ∧ s'.way = se.way ∧
      s'.used = se.used ∧ s'.minv = se.minv := by
  have hj0ne : se.j0 ≠ 0 := by omega
  obtain ⟨T, hT1, hTf, hT0, hmin⟩ := augLoop_some_T (N + 2) se s' haug hj0ne
  obtain ⟨s2, hrun, hu, hv, hw, hm, hus, hj0', hA, hB⟩ :=
    augLoop_run T (N + 2) se hj0ne hT1 hT0 hmin hTf
  rw [haug] at hrun
  obtain rfl := (Option.some.inj hrun).symm
  have hnd := iterate_min_zero_nodup se.way se.j0 T hT0 hmin
  -- chain facts
  have hpe := hse.p_eq
  have hchain_le : ∀ t, t ≤ T → se.way^[t] se.j0 ≤ N := by
    intro t ht
    cases t with
    | zero => simpa using hse.j0_le
    | succ t => rw [Function.iterate_succ_apply']; exact hse.way_le _
  have hchain_matched : ∀ t, 1 ≤ t → t < T → p0 (se.way^[t] se.j0) ≠ 0 := by
    intro t ht1 htT
    obtain ⟨t', rfl⟩ : ∃ t', t = t' + 1 := ⟨t - 1, by omega⟩
    rw [Function.iterate_succ_apply']
    rcases hse.way_matched (se.way^[t'] se.j0) with h0 | h0
    · exfalso
      have := hmin (t' + 1) htT
      rw [Function.iterate_succ_apply'] at this
      exact this h0
    · exact hpe ▸ h0
  have hchain0 : p0 (se.way^[0] se.j0) = 0 := by simpa using (hpe ▸ hexit)
  -- the new matching explicitly
  have hPoff : ∀ j, (∀ t, t < T → se.way^[t] se.j0 ≠ j) → s2.p j = p0 j := by
    intro j hj
    rw [hA j hj, hpe]
  have hPon : ∀ t, t < T → s2.p (se.way^[t] se.j0) = p0 (se.way^[t + 1] se.j0) := by
    intro t ht
    rw [hB t ht, hpe]
  have hzero_off : ∀ t, t < T → se.way^[t] se.j0 ≠ 0 := hmin
  have hchain_ge1 : ∀ t, t < T → 1 ≤ se.way^[t] se.j0 := by
    intro t ht
    exact Nat.one_le_iff_ne_zero.mpr (hzero_off t ht)
  constructor
  · constructor
    · -- p_le
      intro j
      by_cases hon : ∃ t, t < T ∧ se.way^[t] se.j0 = j
      · obtain ⟨t, htT, rfl⟩ := hon
        rw [hPon t htT]
        rcases Nat.lt_or_ge (t + 1) T with h | h
        · exact le_trans (hple _ (Nat.one_le_iff_ne_zero.mpr (hzero_off (t + 1) h)))
            (by omega)
        · have hTt : t + 1 = T := by omega
          rw [hTt, hT0, hp00]
      · push_neg at hon
        rw [hPoff j (fun t ht => hon t ht)]
        exact hple0 j
    · -- p_inj
      intro j j' hj1' hjN hj1'' hjN' hne heq
      by_cases hon : ∃ t, t < T ∧ se.way^[t] se.j0 = j
      · obtain ⟨t, htT, rfl⟩ := hon
        by_cases hon' : ∃ t', t' < T ∧ se.way^[t'] se.j0 = j'
        · obtain ⟨t', htT', rfl⟩ := hon'
          rw [hPon t htT] at hne heq
          rw [hPon t' htT'] at heq
          suffices ht : t = t' by rw [ht]
          rcases Nat.lt_or_ge (t + 1) T with h | h
          · rcases Nat.lt_or_ge (t' + 1) T with h' | h'
            · have := hpinj _ _ (hchain_ge1 (t + 1) h) (hchain_le (t + 1) (by omega))
                (hchain_ge1 (t' + 1) h') (hchain_le (t' + 1) (by omega)) hne heq
              rcases Nat.lt_trichotomy (t + 1) (t' + 1) with hlt | hq | hgt
              · exact absurd this (hnd _ _ hlt (by omega))
              · omega
              · exact absurd this.symm (hnd _ _ hgt (by omega))
            · exfalso
              have hTt : t' + 1 = T := by omega
              rw [hTt, hT0, hp00] at heq
              have := hple _ (hchain_ge1 (t + 1) h)
              omega
          · rcases Nat.lt_or_ge (t' + 1) T with h' | h'
            · exfalso
              have hTt : t + 1 = T := by omega
              rw [hTt, hT0, hp00] at heq
              have := hple _ (hchain_ge1 (t' + 1) h')
              omega
            · omega
        · push_neg at hon'
          exfalso
          rw [hPon t htT] at hne heq
          rw [hPoff j' (fun t' ht' => hon' t' ht')] at heq
          rcases Nat.lt_or_ge (t + 1) T with h | h
          · have := hpinj _ _ (hchain_ge1 (t + 1) h) (hchain_le (t + 1) (by omega))
              hj1'' hjN' hne heq
            exact hon' (t + 1) h this
          · have hTt : t + 1 = T := by omega
            rw [hTt, hT0, hp00] at heq
            have := hple j' hj1''
            omega
      · push_neg at hon
        rw [hPoff j (fun t ht => hon t ht)] at hne heq
        by_cases hon' : ∃ t', t' < T ∧ se.way^[t'] se.j0 = j'
        · obtain ⟨t', htT', rfl⟩ := hon'
          exfalso
          rw [hPon t' htT'] at heq
          rcases Nat.lt_or_ge (t' + 1) T with h' | h'
          · have := hpinj _ _ hj1' hjN (hchain_ge1 (t' + 1) h')
              (hchain_le (t' + 1) (by omega)) hne heq
            exact hon (t' + 1) h' this.symm
          · have hTt : t' + 1 = T := by omega
            rw [hTt, hT0, hp00] at heq
            have := hple j hj1'
            omega
        · push_neg at hon'
          rw [hPoff j' (fun t' ht' => hon' t' ht')] at heq
          exact hpinj j j' hj1' hjN hj1'' hjN' hne heq
    · -- p_surj
      intro r hr1 hrk
      rcases Nat.lt_or_ge r (k + 1) with hrle | hrge
      · -- an old row: its column may have been rewired one step along the chain
        obtain ⟨j, hj1', hjN, hpj⟩ := hpsurj r hr1 (by omega)
        by_cases hon : ∃ t, t < T ∧ se.way^[t] se.j0 = j
        · obtain ⟨t, htT, rfl⟩ := hon
          have ht1 : 1 ≤ t := by
            rcases Nat.eq_zero_or_pos t with rfl | h
            · exfalso; rw [hchain0] at hpj; omega
            · exact h
          refine ⟨se.way^[t - 1] se.j0, hchain_ge1 (t - 1) (by omega),
            hchain_le (t - 1) (by omega), ?_⟩
          have hstep := hPon (t - 1) (by omega)
          rw [show t - 1 + 1 = t by omega] at hstep
          rw [hstep, hpj]
        · push_neg at hon
          exact ⟨j, hj1', hjN, by rw [hPoff j (fun t ht => hon t ht)]; exact hpj⟩
      · -- the new row k+1 sits at the end of the chain
        have hrk1 : r = k + 1 := by omega
        refine ⟨se.way^[T - 1] se.j0, hchain_ge1 (T - 1) (by omega),
          hchain_le (T - 1) (by omega), ?_⟩
        have hstep := hPon (T - 1) (by omega)
        rw [show T - 1 + 1 = T by omega, hT0, hp00] at hstep
        rw [hstep, hrk1]
    · -- way_le
      intro j
      rw [hw]
      exact hse.way_le j
    · -- way_matched
      intro j
      rw [hw]
      rcases hse.way_matched j with h0 | h0
      · exact Or.inl h0
      · right
        by_cases hon : ∃ t, t < T ∧ se.way^[t] se.j0 = se.way j
        · obtain ⟨t, htT, heqc⟩ := hon
          rw [← heqc]
          rw [hPon t htT]
          rcases Nat.lt_or_ge (t + 1) T with h | h
          · exact hchain_matched (t + 1) (by omega) h
          · rw [show t + 1 = T by omega, hT0, hp00]
            omega
        · push_neg at hon
          rw [hPoff _ (fun t ht => hon t ht)]
          exact hpe ▸ h0
  · exact ⟨hu, hv, hw, hus, hm⟩

theorem runAux_struct (N : ℕ) (a : ℕ → ℕ → ℚ) :
    ∀ (cnt k : ℕ) (s : KMState) (res : List (List KMState) × KMState),
    MatchInv N k s →
    runAux N a (List.range' (k + 1) cnt) s = some res →
    MatchInv N (k + cnt) res.2 := by
  intro cnt
  induction cnt with
  | zero =>
    intro k s res hM h
    simp only [List.range'_zero, runAux] at h
    obtain rfl := (Option.some.inj h).symm
    exact hM
  | succ cnt ih =>
    intro k s res hM h
    rw [List.range'_succ, runAux] at h
    cases htr : innerTraj N a (2 * N + 8) (resetFor (k + 1) s) with
    | none => rw [htr] at h; exact absurd h (by simp)
    | some tr =>
      rw [htr, Option.some_bind] at h
      have hstructInit : StructInv N (Function.update s.p 0 (k + 1)) (resetFor (k + 1) s) := by
        refine ⟨rfl, ?_, hM.way_le, ?_, Nat.zero_le N⟩
        · intro j hj
          exact absurd hj (by simp [resetFor])
        · intro j
          rcases hM.way_matched j with h0 | h0
          · exact Or.inl h0
          · right
            show Function.update s.p 0 (k + 1) (s.way j) ≠ 0
            rcases Nat.eq_zero_or_pos (s.way j) with hz | hz
            · rw [hz]; simp
            · rw [Function.update_noteq (by omega)]
              exact h0
      have hp00 : Function.update s.p 0 (k + 1) 0 ≠ 0 := by simp
      obtain ⟨hall, sl, hlast, hslS, hslexit, hslj1⟩ :=
        innerTraj_struct hp00 (2 * N + 8) (resetFor (k + 1) s) tr htr hstructInit
          (Or.inl rfl)
      have hgl : tr.getLastD (resetFor (k + 1) s) = sl := by
        rw [List.getLastD_eq_getLast?, hlast]
        rfl
      rw [hgl] at h
      cases haug : augLoop (N + 2) sl with
      | none => rw [haug] at h; exact absurd h (by simp)
      | some s2 =>
        rw [haug, Option.some_bind] at h
        have hM2 : MatchInv N (k + 1) s2 := by
          refine (augment_matchInv hslS ?_ ?_ ?_ ?_ ?_ hslexit hslj1 haug).1
          · exact Function.update_same _ _ _
          · intro j hj
            rw [Function.update_noteq (by omega)]
            exact hM.p_le j
          · intro j
            rcases Nat.eq_zero_or_pos j with rfl | hj
            · rw [Function.update_same]
            · rw [Function.update_noteq (by omega)]
              exact le_trans (hM.p_le j) (by omega)
          · intro j j' h1 h2 h3 h4 h5 h6
            rw [Function.update_noteq (by omega)] at h5 h6
            rw [Function.update_noteq (by omega)] at h6
            exact hM.p_inj j j' h1 h2 h3 h4 h5 h6
          · intro r h1 h2
            obtain ⟨j, hj1, hjN, hpj⟩ := hM.p_surj r h1 h2
            refine ⟨j, hj1, hjN, ?_⟩
            rw [Function.update_noteq (by omega)]
            exact hpj
        cases hrest : runAux N a (List.range' (k + 1 + 1) cnt) s2 with
        | none => rw [hrest] at h; exact absurd h (by simp)
        | some q =>
          rw [hrest] at h
          simp only [Option.map_some'] at h
          obtain rfl := (Option.some.inj h).symm
          have := ih (k + 1) s2 q hM2 hrest
          show MatchInv N (k + (cnt + 1)) q.2
          have he : k + (cnt + 1) = k + 1 + cnt := by omega
          rw [he]
          exact this

theorem hungarianRun_matchInv {n m : ℤ} {cost : ℕ → ℕ → ℚ}
    {q : List (List KMState) × KMState} (h : hungarianRun n m cost = some q) :
    MatchInv (max n m).toNat (max n m).toNat q.2 := by
  have h0 : MatchInv (max n m).toNat 0 initState := by
    refine ⟨fun j => le_refl 0, ?_, ?_, fun j => Nat.zero_le _, fun j => Or.inl rfl⟩
    · intro j j' _ _ _ _ h5 _
      exact absurd rfl h5
    · intro r h1 h2
      omega
  have := runAux_struct (max n m).toNat (padA n m cost) (max n m).toNat 0 initState q h0
    (by simpa using h)
  simpa using this

theorem matchInv_complete {N : ℕ} {s : KMState} (h : MatchInv N N s) :
    ∀ j, 1 ≤ j → j ≤ N → 1 ≤ s.p j ∧ s.p j ≤ N := by
  classical
  set f : ℕ → ℕ := fun r =>
    if hr : 1 ≤ r ∧ r ≤ N then (h.p_surj r hr.1 hr.2).choose else 0 with hf
  have hfspec : ∀ r, 1 ≤ r → r ≤ N → 1 ≤ f r ∧ f r ≤ N ∧ s.p (f r) = r := by
    intro r h1 h2
    have := (h.p_surj r h1 h2).choose_spec
    rw [hf]
    simp only [dif_pos (And.intro h1 h2)]
    exact this
  have hsub : (Finset.Icc 1 N).filter (fun j => s.p j ≠ 0) ⊆ Finset.Icc 1 N :=
    Finset.filter_subset _ _
  have hcard : (Finset.Icc 1 N).card ≤
      ((Finset.Icc 1 N).filter (fun j => s.p j ≠ 0)).card := by
    apply Finset.card_le_card_of_injOn f
    · intro r hr
      rw [Finset.mem_Icc] at hr
      obtain ⟨h1, h2, h3⟩ := hfspec r hr.1 hr.2
      rw [Finset.mem_filter, Finset.mem_Icc]
      exact ⟨⟨h1, h2⟩, by rw [h3]; omega⟩
    · intro r hr r' hr' heq
      rw [Finset.mem_coe, Finset.mem_Icc] at hr hr'
      have e1 := (hfspec r hr.1 hr.2).2.2
      have e2 := (hfspec r' hr'.1 hr'.2).2.2
      rw [← e1, ← e2, heq]
  have heqset : (Finset.Icc 1 N).filter (fun j => s.p j ≠ 0) = Finset.Icc 1 N :=
    Finset.eq_of_subset_of_card_le hsub hcard
  intro j h1 h2
  have hj : j ∈ (Finset.Icc 1 N).filter (fun j => s.p j ≠ 0) := by
    rw [heqset, Finset.mem_Icc]
    exact ⟨h1, h2⟩
  rw [Finset.mem_filter] at hj
  exact ⟨Nat.one_le_iff_ne_zero.mpr hj.2, h.p_le j⟩

theorem hungarian_some_elim {n m : ℤ} {cost : ℕ → ℕ → ℚ} {r : ℚ × List ℤ}
    (h : hungarian n m cost = some r) :
    ∃ q, hungarianRun n m cost = some q ∧
      r = (totalOf n m cost (max n m).toNat q.2.p, matchOf n m q.2.p) := by
  unfold hungarian at h
  cases hq : hungarianRun n m cost with
  | none => rw [hq] at h; exact absurd h (by simp)
  | some q =>
    rw [hq] at h
    exact ⟨q, rfl, by simpa using h.symm⟩

theorem matchOf_length (n m : ℤ) (p : ℕ → ℕ) : (matchOf n m p).length = m.toNat := by
  simp [matchOf]

theorem matchOf_mem (n m : ℤ) (p : ℕ → ℕ) (e : ℤ) (he : e ∈ matchOf n m p) :
    e = -1 ∨ (0 ≤ e ∧ e < n) := by
  simp only [matchOf, List.mem_map] at he
  obtain ⟨j, -, rfl⟩ := he
  split_ifs with hc
  · right
    constructor
    · omega
    · have := hc.2
      omega
  · left; rfl

theorem matchOf_pairwise {n m : ℤ} {N : ℕ} {s : KMState}
    (hNm : m.toNat ≤ N)
    (hinj : ∀ j j', 1 ≤ j → j ≤ N → 1 ≤ j' → j' ≤ N → s.p j ≠ 0 → s.p j = s.p j' → j = j') :
    (matchOf n m s.p).Pairwise (fun x y => x = -1 ∨ x ≠ y) := by
  unfold matchOf
  rw [List.pairwise_map]
  refine List.Pairwise.imp_of_mem ?_ (List.sorted_lt_range m.toNat)
  intro c d hc hd hcd
  rw [List.mem_range] at hc hd
  by_cases hca : 0 < s.p (c + 1) ∧ (s.p (c + 1) : ℤ) ≤ n
  · rw [if_pos hca]
    by_cases hcb : 0 < s.p (d + 1) ∧ (s.p (d + 1) : ℤ) ≤ n
    · rw [if_pos hcb]
      right
      intro heq
      have hpe : s.p (c + 1) = s.p (d + 1) := by omega
      have := hinj (c + 1) (d + 1) (by omega) (by omega) (by omega) (by omega)
        (by omega) hpe
      omega
    · rw [if_neg hcb]
      have := hca.1
      right
      omega
  · rw [if_neg hca]
    exact Or.inl rfl

/-! ### Full characterization of the scan loop -/

section ScanSpec

variable {a : ℕ → ℕ → ℚ} {u v : ℕ → ℚ} {used : ℕ → Bool} {i0 j0c : ℕ}

theorem scanStep_used_eq (t : Scan) (j : ℕ) (h : used j = true) :
    scanStep a u v used i0 j0c t j = t := by
  unfold scanStep
  rw [if_pos h]

theorem scanStep_other (t : Scan) (j x : ℕ) (hx : x ≠ j) :
    (scanStep a u v used i0 j0c t j).minv x = t.minv x ∧
      (scanStep a u v used i0 j0c t j).way x = t.way x := by
  unfold scanStep
  dsimp only
  split_ifs <;>
    exact ⟨by simp [Function.update_noteq hx], by simp [Function.update_noteq hx]⟩

theorem scanStep_unused (t : Scan) (j : ℕ) (h : used j = false) :
    ((a i0 j - u i0 - v j < t.minv j ∧
        (scanStep a u v used i0 j0c t j).minv j = a i0 j - u i0 - v j ∧
        (scanStep a u v used i0 j0c t j).way j = j0c) ∨
      (t.minv j ≤ a i0 j - u i0 - v j ∧
        (scanStep a u v used i0 j0c t j).minv j = t.minv j ∧
        (scanStep a u v used i0 j0c t j).way j = t.way j)) ∧
    (((scanStep a u v used i0 j0c t j).minv j < t.delta ∧
        (scanStep a u v used i0 j0c t j).delta =
          (scanStep a u v used i0 j0c t j).minv j ∧
        (scanStep a u v used i0 j0c t j).j1 = j) ∨
      (t.delta ≤ (scanStep a u v used i0 j0c t j).minv j ∧
        (scanStep a u v used i0 j0c t j).delta = t.delta ∧
        (scanStep a u v used i0 j0c t j).j1 = t.j1)) := by
  unfold scanStep
  rw [if_neg (by simp [h])]
  dsimp only
  split_ifs with h1 h2 h3
  · exact ⟨Or.inl ⟨h1, Function.update_same _ _ _, Function.update_same _ _ _⟩,
      Or.inl ⟨h2, rfl, rfl⟩⟩
  · exact ⟨Or.inl ⟨h1, Function.update_same _ _ _, Function.update_same _ _ _⟩,
      Or.inr ⟨not_lt.mp h2, rfl, rfl⟩⟩
  · exact ⟨Or.inr ⟨not_lt.mp h1, rfl, rfl⟩, Or.inl ⟨h3, rfl, rfl⟩⟩
  · exact ⟨Or.inr ⟨not_lt.mp h1, rfl, rfl⟩, Or.inr ⟨not_lt.mp h3, rfl, rfl⟩⟩

theorem scan_spec : ∀ (l : List ℕ) (t0 : Scan), l.Nodup →
    (∀ x, x ∉ l → (l.foldl (scanStep a u v used i0 j0c) t0).minv x = t0.minv x ∧
      (l.foldl (scanStep a u v used i0 j0c) t0).way x = t0.way x) ∧
    (∀ j ∈ l, used j = true →
      (l.foldl (scanStep a u v used i0 j0c) t0).minv j = t0.minv j ∧
      (l.foldl (scanStep a u v used i0 j0c) t0).way j = t0.way j) ∧
    (∀ j ∈ l, used j = false →
      ((a i0 j - u i0 - v j < t0.minv j ∧
        (l.foldl (scanStep a u v used i0 j0c) t0).minv j = a i0 j - u i0 - v j ∧
        (l.foldl (scanStep a u v used i0 j0c) t0).way j = j0c) ∨
       (t0.minv j ≤ a i0 j - u i0 - v j ∧
        (l.foldl (scanStep a u v used i0 j0c) t0).minv j = t0.minv j ∧
        (l.foldl (scanStep a u v used i0 j0c) t0).way j = t0.way j))) ∧
    (((l.foldl (scanStep a u v used i0 j0c) t0).delta = t0.delta ∧
      (l.foldl (scanStep a u v used i0 j0c) t0).j1 = t0.j1 ∧
      ∀ j ∈ l, used j = false →
        t0.delta ≤ (l.foldl (scanStep a u v used i0 j0c) t0).minv j) ∨
     ((l.foldl (scanStep a u v used i0 j0c) t0).j1 ∈ l ∧
      used ((l.foldl (scanStep a u v used i0 j0c) t0).j1) = false ∧
      (l.foldl (scanStep a u v used i0 j0c) t0).delta =
        (l.foldl (scanStep a u v used i0 j0c) t0).minv
          ((l.foldl (scanStep a u v used i0 j0c) t0).j1) ∧
      (l.foldl (scanStep a u v used i0 j0c) t0).delta < t0.delta ∧
      ∀ j ∈ l, used j = false →
        (l.foldl (scanStep a u v used i0 j0c) t0).delta ≤
          (l.foldl (scanStep a u v used i0 j0c) t0).minv j)) := by
  intro l
  induction l with
  | nil =>
    intro t0 _
    refine ⟨fun x _ => ⟨rfl, rfl⟩, fun j hj => absurd hj (List.not_mem_nil j),
      fun j hj => absurd hj (List.not_mem_nil j), Or.inl ⟨rfl, rfl, ?_⟩⟩
    intro j hj
    exact absurd hj (List.not_mem_nil j)
  | cons y ys ih =>
    intro t0 hnd
    rw [List.nodup_cons] at hnd
    obtain ⟨hy, hnd'⟩ := hnd
    rw [List.foldl_cons]
    obtain ⟨ih1, ih2, ih3, ih4⟩ := ih (scanStep a u v used i0 j0c t0 y) hnd'
    have hFy := ih1 y hy
    refine ⟨?_, ?_, ?_, ?_⟩
    · -- positions outside the list are untouched
      intro x hx
      rw [List.mem_cons] at hx
      push_neg at hx
      obtain ⟨hm, hw⟩ := ih1 x hx.2
      obtain ⟨hm', hw'⟩ := scanStep_other t0 y x hx.1
      exact ⟨hm.trans hm', hw.trans hw'⟩
    · -- marked columns are untouched
      intro j hj hu
      rcases List.mem_cons.mp hj with rfl | hj'
      · rw [hFy.1, hFy.2, scanStep_used_eq t0 j hu]
        exact ⟨rfl, rfl⟩
      · obtain ⟨hm, hw⟩ := ih2 j hj' hu
        have hne : j ≠ y := fun hc => hy (hc ▸ hj')
        obtain ⟨hm', hw'⟩ := scanStep_other t0 y j hne
        exact ⟨hm.trans hm', hw.trans hw'⟩
    · -- unmarked columns are merged with the reduced cost of the new row
      intro j hj hu
      rcases List.mem_cons.mp hj with rfl | hj'
      · rcases (scanStep_unused t0 j hu).1 with ⟨hc, hm, hw⟩ | ⟨hc, hm, hw⟩
        · exact Or.inl ⟨hc, hFy.1.trans hm, hFy.2.trans hw⟩
        · exact Or.inr ⟨hc, hFy.1.trans hm, hFy.2.trans hw⟩
      · have hne : j ≠ y := fun hc => hy (hc ▸ hj')
        obtain ⟨hm', hw'⟩ := scanStep_other t0 y j hne
        rcases ih3 j hj' hu with ⟨hc, hm, hw⟩ | ⟨hc, hm, hw⟩
        · rw [hm'] at hc
          exact Or.inl ⟨hc, hm, hw⟩
        · rw [hm'] at hc
          exact Or.inr ⟨hc, hm.trans hm', hw.trans hw'⟩
    · -- the running minimum selects an unmarked column of minimal final slack
      by_cases hu : used y = true
      · have hd0 : (scanStep a u v used i0 j0c t0 y).delta = t0.delta := by
          rw [scanStep_used_eq t0 y hu]
        have hj10 : (scanStep a u v used i0 j0c t0 y).j1 = t0.j1 := by
          rw [scanStep_used_eq t0 y hu]
        rcases ih4 with ⟨hd, hj1, hmin⟩ | ⟨hm, hun, heq, hlt, hmin⟩
        · refine Or.inl ⟨hd.trans hd0, hj1.trans hj10, ?_⟩
          intro j hj hju
          rcases List.mem_cons.mp hj with rfl | hj'
          · rw [hu] at hju
            exact absurd hju (by simp)
          · have h5 := hmin j hj' hju
            rw [hd0] at h5
            exact h5
        · refine Or.inr ⟨List.mem_cons_of_mem y hm, hun, heq, ?_, ?_⟩
          · rw [← hd0]
            exact hlt
          · intro j hj hju
            rcases List.mem_cons.mp hj with rfl | hj'
            · rw [hu] at hju
              exact absurd hju (by simp)
            · exact hmin j hj' hju
      · have hu' : used y = false := by simpa using hu
        obtain ⟨-, hdl⟩ := @scanStep_unused a u v used i0 j0c t0 y hu'
        rcases hdl with ⟨hlt1, hd1, hj11⟩ | ⟨hge1, hd1, hj11⟩
        · -- the first step already lowered the running minimum
          rcases ih4 with ⟨hd, hj1, hmin⟩ | ⟨hm, hun, heq, hlt, hmin⟩
          · refine Or.inr ⟨?_, ?_, ?_, ?_, ?_⟩
            · rw [hj1, hj11]
              exact List.mem_cons_self y ys
            · rw [hj1, hj11]
              exact hu'
            · rw [hd, hd1, hj1, hj11, hFy.1]
            · rw [hd, hd1]
              exact hlt1
            · intro j hj hju
              rcases List.mem_cons.mp hj with rfl | hj'
              · rw [hd, hd1, hFy.1]
              · have h5 := hmin j hj' hju
                rw [hd]
                exact h5

          · refine Or.inr ⟨List.mem_cons_of_mem y hm, hun, heq, ?_, ?_⟩
            · calc (ys.foldl (scanStep a u v used i0 j0c)
                    (scanStep a u v used i0 j0c t0 y)).delta
                  < (scanStep a u v used i0 j0c t0 y).delta := hlt
                _ = (scanStep a u v used i0 j0c t0 y).minv y := hd1
                _ < t0.delta := hlt1
            · intro j hj hju
              rcases List.mem_cons.mp hj with rfl | hj'
              · rw [hFy.1]
                exact le_of_lt (lt_of_lt_of_le hlt (le_of_eq hd1))
              · exact hmin j hj' hju
        · -- the first step kept the running minimum
          rcases ih4 with ⟨hd, hj1, hmin⟩ | ⟨hm, hun, heq, hlt, hmin⟩
          · refine Or.inl ⟨hd.trans hd1, hj1.trans hj11, ?_⟩
            intro j hj hju
            rcases List.mem_cons.mp hj with rfl | hj'
            · rw [hFy.1]
              exact le_trans hge1 (le_of_eq rfl)
            · have := hmin j hj' hju
              rw [hd1] at this
              exact this
          · refine Or.inr ⟨List.mem_cons_of_mem y hm, hun, heq,
              lt_of_lt_of_le hlt (le_of_eq hd1), ?_⟩
            intro j hj hju
            rcases List.mem_cons.mp hj with rfl | hj'
            · rw [hFy.1]
              exact le_trans (le_of_lt (lt_of_lt_of_le hlt (le_of_eq hd1))) hge1
            · exact hmin j hj' hju

end ScanSpec

/-! ### Full characterization of the update loop -/

section UpdSpec

variable {p : ℕ → ℕ} {used : ℕ → Bool} {δ : ℚ}

theorem updStep_used_eq (t : Upd) (j : ℕ) (h : used j = true) :
    updStep p used δ t j =
      ⟨Function.update t.u (p j) (t.u (p j) + δ),
       Function.update t.v j (t.v j - δ), t.minv⟩ := by
  unfold updStep
  rw [if_pos h]

theorem updStep_unused_eq (t : Upd) (j : ℕ) (h : used j = false) :
    updStep p used δ t j =
      ⟨t.u, t.v, Function.update t.minv j (t.minv j - δ)⟩ := by
  unfold updStep
  rw [if_neg (by simp [h])]

theorem upd_spec : ∀ (l : List ℕ) (t0 : Upd), l.Nodup →
    (∀ j j', j ∈ l → j' ∈ l → used j = true → used j' = true → p j = p j' → j = j') →
    (∀ r, (l.foldl (updStep p used δ) t0).u r = t0.u r ∨
      ∃ j, j ∈ l ∧ used j = true ∧ p j = r ∧
        (l.foldl (updStep p used δ) t0).u r = t0.u r + δ) ∧
    (∀ j ∈ l, used j = true →
      (l.foldl (updStep p used δ) t0).u (p j) = t0.u (p j) + δ) ∧
    (∀ x, x ∉ l →
      (l.foldl (updStep p used δ) t0).v x = t0.v x ∧
      (l.foldl (updStep p used δ) t0).minv x = t0.minv x) ∧
    (∀ j ∈ l, used j = true →
      (l.foldl (updStep p used δ) t0).v j = t0.v j - δ ∧
      (l.foldl (updStep p used δ) t0).minv j = t0.minv j) ∧
    (∀ j ∈ l, used j = false →
      (l.foldl (updStep p used δ) t0).v j = t0.v j ∧
      (l.foldl (updStep p used δ) t0).minv j = t0.minv j - δ) := by
  intro l
  induction l with
  | nil =>
    intro t0 _ _
    exact ⟨fun r => Or.inl rfl, fun j hj => absurd hj (List.not_mem_nil j),
      fun x _ => ⟨rfl, rfl⟩, fun j hj => absurd hj (List.not_mem_nil j),
      fun j hj => absurd hj (List.not_mem_nil j)⟩
  | cons y ys ih =>
    intro t0 hnd halias
    rw [List.nodup_cons] at hnd
    obtain ⟨hy, hnd'⟩ := hnd
    rw [List.foldl_cons]
    have halias' : ∀ j j', j ∈ ys → j' ∈ ys → used j = true → used j' = true →
        p j = p j' → j = j' := fun j j' h1 h2 => halias j j'
      (List.mem_cons_of_mem y h1) (List.mem_cons_of_mem y h2)
    obtain ⟨ih1, ih2, ih3, ih4, ih5⟩ := ih (updStep p used δ t0 y) hnd' halias'
    by_cases hu : used y = true
    · have hstep := updStep_used_eq (p := p) (δ := δ) t0 y hu
      have hpy : (updStep p used δ t0 y).u (p y) = t0.u (p y) + δ := by
        rw [hstep]
        exact Function.update_same _ _ _
      have hur : ∀ r, r ≠ p y → (updStep p used δ t0 y).u r = t0.u r := by
        intro r hr
        rw [hstep]
        exact Function.update_noteq hr _ _
      have hvy : (updStep p used δ t0 y).v y = t0.v y - δ := by
        rw [hstep]
        exact Function.update_same _ _ _
      have hvx : ∀ x, x ≠ y → (updStep p used δ t0 y).v x = t0.v x := by
        intro x hx
        rw [hstep]
        exact Function.update_noteq hx _ _
      have hmx : ∀ x, (updStep p used δ t0 y).minv x = t0.minv x := by
        intro x
        rw [hstep]
      refine ⟨?_, ?_, ?_, ?_, ?_⟩
      · -- general description of the row potentials
        intro r
        rcases ih1 r with h1 | ⟨j, hj, hju, hpj, h1⟩
        · by_cases hr : r = p y
          · subst hr
            rw [hpy] at h1
            exact Or.inr ⟨y, List.mem_cons_self y ys, hu, rfl, h1⟩
          · rw [hur r hr] at h1
            exact Or.inl h1
        · have hjy : j ≠ y := fun hc => hy (hc ▸ hj)
          have hne : r ≠ p y := fun hc =>
            hjy (halias j y (List.mem_cons_of_mem y hj) (List.mem_cons_self y ys)
              hju hu (hpj.trans hc))
          rw [hur r hne] at h1
          exact Or.inr ⟨j, List.mem_cons_of_mem y hj, hju, hpj, h1⟩
      · -- marked columns get their row lifted by delta exactly once
        intro j hj hju
        rcases List.mem_cons.mp hj with rfl | hj'
        · rcases ih1 (p j) with h1 | ⟨j', hj', hju', hpj', h1⟩
          · rw [hpy] at h1
            exact h1
          · exfalso
            exact hy ((halias j' j (List.mem_cons_of_mem j hj')
              (List.mem_cons_self j ys) hju' hju hpj') ▸ hj')
        · have h1 := ih2 j hj' hju
          have hne : p j ≠ p y := fun hc =>
            hy ((halias j y (List.mem_cons_of_mem y hj')
              (List.mem_cons_self y ys) hju hu hc) ▸ hj')
          rw [hur (p j) hne] at h1
          exact h1
      · -- positions outside the list keep their column data
        intro x hx
        rw [List.mem_cons] at hx
        push_neg at hx
        obtain ⟨h1, h2⟩ := ih3 x hx.2
        rw [hvx x hx.1] at h1
        rw [hmx x] at h2
        exact ⟨h1, h2⟩
      · -- marked columns: column potential lowered, slack kept
        intro j hj hju
        rcases List.mem_cons.mp hj with rfl | hj'
        · obtain ⟨h1, h2⟩ := ih3 j hy
          rw [hvy] at h1
          rw [hmx j] at h2
          exact ⟨h1, h2⟩
        · have hne : j ≠ y := fun hc => hy (hc ▸ hj')
          obtain ⟨h1, h2⟩ := ih4 j hj' hju
          rw [hvx j hne] at h1
          rw [hmx j] at h2
          exact ⟨h1, h2⟩
      · -- unmarked columns: slack lowered, column potential kept
        intro j hj hju
        rcases List.mem_cons.mp hj with rfl | hj'
        · simp [hju] at hu
        · have hne : j ≠ y := fun hc => hy (hc ▸ hj')
          obtain ⟨h1, h2⟩ := ih5 j hj' hju
          rw [hvx j hne] at h1
          rw [hmx j] at h2
          exact ⟨h1, h2⟩
    · have hu' : used y = false := by simpa using hu
      have hstep := updStep_unused_eq (p := p) (δ := δ) t0 y hu'
      have hux : ∀ r, (updStep p used δ t0 y).u r = t0.u r := by
        intro r
        rw [hstep]
      have hvx : ∀ x, (updStep p used δ t0 y).v x = t0.v x := by
        intro x
        rw [hstep]
      have hmy : (updStep p used δ t0 y).minv y = t0.minv y - δ := by
        rw [hstep]
        exact Function.update_same _ _ _
      have hmx : ∀ x, x ≠ y → (updStep p used δ t0 y).minv x = t0.minv x := by
        intro x hx
        rw [hstep]
        exact Function.update_noteq hx _ _
      refine ⟨?_, ?_, ?_, ?_, ?_⟩
      · intro r
        rcases ih1 r with h1 | ⟨j, hj, hju, hpj, h1⟩
        · rw [hux r] at h1
          exact Or.inl h1
        · rw [hux r] at h1
          exact Or.inr ⟨j, List.mem_cons_of_mem y hj, hju, hpj, h1⟩
      · intro j hj hju
        rcases List.mem_cons.mp hj with rfl | hj'
        · exact absurd hju hu
        · have h1 := ih2 j hj' hju
          rw [hux (p j)] at h1
          exact h1
      · intro x hx
        rw [List.mem_cons] at hx
        push_neg at hx
        obtain ⟨h1, h2⟩ := ih3 x hx.2
        rw [hvx x] at h1
        rw [hmx x hx.1] at h2
        exact ⟨h1, h2⟩
      · intro j hj hju
        rcases List.mem_cons.mp hj with rfl | hj'
        · exact absurd hju hu
        · have hne : j ≠ y := fun hc => hy (hc ▸ hj')
          obtain ⟨h1, h2⟩ := ih4 j hj' hju
          rw [hvx j] at h1
          rw [hmx j hne] at h2
          exact ⟨h1, h2⟩
      · intro j hj hju
        rcases List.mem_cons.mp hj with rfl | hj'
        · obtain ⟨h1, h2⟩ := ih3 j hy
          rw [hvx j] at h1
          rw [hmy] at h2
          exact ⟨h1, h2⟩
        · have hne : j ≠ y := fun hc => hy (hc ▸ hj')
          obtain ⟨h1, h2⟩ := ih5 j hj' hju
          rw [hvx j] at h1
          rw [hmx j hne] at h2
          exact ⟨h1, h2⟩

end UpdSpec

/-- The state after one pass, written with the named scan and update
results. -/
theorem pass_eq (N : ℕ) (a : ℕ → ℕ → ℚ) (s : KMState) :
    pass N a s = ⟨(updOf N a s).u, (updOf N a s).v, s.p, (scanOf N a s).way,
      (updOf N a s).minv, Function.update s.used s.j0 true, (scanOf N a s).j1⟩ := rfl

/-- Pointwise description of one pass of the relaxation loop, obtained by
combining the scan and update loop characterizations.  The hypothesis
`halias` states that distinct marked columns sit on distinct rows. -/
theorem pass_char (N : ℕ) (a : ℕ → ℕ → ℚ) (s : KMState)
    (halias : ∀ j j', j ≤ N → j' ≤ N →
      Function.update s.used s.j0 true j = true →
      Function.update s.used s.j0 true j' = true → s.p j = s.p j' → j = j') :
    (∀ x, x < 1 ∨ N < x →
      (scanOf N a s).minv x = s.minv x ∧ (scanOf N a s).way x = s.way x) ∧
    (∀ j, 1 ≤ j → j ≤ N → Function.update s.used s.j0 true j = true →
      (scanOf N a s).minv j = s.minv j ∧ (scanOf N a s).way j = s.way j) ∧
    (∀ j, 1 ≤ j → j ≤ N → Function.update s.used s.j0 true j = false →
      ((a (s.p s.j0) j - s.u (s.p s.j0) - s.v j < s.minv j ∧
        (scanOf N a s).minv j = a (s.p s.j0) j - s.u (s.p s.j0) - s.v j ∧
        (scanOf N a s).way j = s.j0) ∨
       (s.minv j ≤ a (s.p s.j0) j - s.u (s.p s.j0) - s.v j ∧
        (scanOf N a s).minv j = s.minv j ∧
        (scanOf N a s).way j = s.way j))) ∧
    (((scanOf N a s).delta = INF ∧ (scanOf N a s).j1 = 0 ∧
      ∀ j, 1 ≤ j → j ≤ N → Function.update s.used s.j0 true j = false →
        INF ≤ (scanOf N a s).minv j) ∨
     (1 ≤ (scanOf N a s).j1 ∧ (scanOf N a s).j1 ≤ N ∧
      Function.update s.used s.j0 true ((scanOf N a s).j1) = false ∧
      (scanOf N a s).delta = (scanOf N a s).minv ((scanOf N a s).j1) ∧
      (scanOf N a s).delta < INF ∧
      ∀ j, 1 ≤ j → j ≤ N → Function.update s.used s.j0 true j = false →
        (scanOf N a s).delta ≤ (scanOf N a s).minv j)) ∧
    (∀ r, (pass N a s).u r = s.u r ∨
      ∃ j, j ≤ N ∧ Function.update s.used s.j0 true j = true ∧ s.p j = r ∧
        (pass N a s).u r = s.u r + (scanOf N a s).delta) ∧
    (∀ j, j ≤ N → Function.update s.used s.j0 true j = true →
      (pass N a s).u (s.p j) = s.u (s.p j) + (scanOf N a s).delta ∧
      (pass N a s).v j = s.v j - (scanOf N a s).delta ∧
      (pass N a s).minv j = (scanOf N a s).minv j) ∧
    (∀ j, j ≤ N → Function.update s.used s.j0 true j = false →
      (pass N a s).v j = s.v j ∧
      (pass N a s).minv j = (scanOf N a s).minv j - (scanOf N a s).delta) ∧
    (∀ x, N < x → (pass N a s).v x = s.v x ∧
      (pass N a s).minv x = (scanOf N a s).minv x) := by
  obtain ⟨hs1, hs2, hs3, hs4⟩ :=
    @scan_spec a s.u s.v
      (Function.update s.used s.j0 true) (s.p s.j0) s.j0
      (List.range' 1 N) ⟨s.minv, s.way, INF, 0⟩ (by apply List.nodup_range'; norm_num)
  have hsc : (List.range' 1 N).foldl
      (scanStep a s.u s.v (Function.update s.used s.j0 true) (s.p s.j0) s.j0)
      ⟨s.minv, s.way, INF, 0⟩ = scanOf N a s := rfl
  rw [hsc] at hs1 hs2 hs3 hs4
  have hmem : ∀ j, j ∈ List.range' 1 N ↔ 1 ≤ j ∧ j ≤ N := by
    intro j
    rw [List.mem_range'_1]
    omega
  obtain ⟨hu1, hu2, hu3, hu4, hu5⟩ :=
    @upd_spec s.p (Function.update s.used s.j0 true)
      ((scanOf N a s).delta)
      (List.range (N + 1)) ⟨s.u, s.v, (scanOf N a s).minv⟩ (List.nodup_range _)
      (by
        intro j j' hj hj' h1 h2 h3
        rw [List.mem_range] at hj hj'
        exact halias j j' (by omega) (by omega) h1 h2 h3)
  have hup : (List.range (N + 1)).foldl
      (updStep s.p (Function.update s.used s.j0 true) (scanOf N a s).delta)
      ⟨s.u, s.v, (scanOf N a s).minv⟩ = updOf N a s := rfl
  rw [hup] at hu1 hu2 hu3 hu4 hu5
  have hmem2 : ∀ j, j ∈ List.range (N + 1) ↔ j ≤ N := by
    intro j
    rw [List.mem_range]
    omega
  refine ⟨?_, ?_, ?_, ?_, ?_, ?_, ?_, ?_⟩
  · intro x hx
    exact hs1 x (fun hc => by rw [hmem] at hc; omega)
  · intro j h1 h2 h3
    exact hs2 j ((hmem j).mpr ⟨h1, h2⟩) h3
  · intro j h1 h2 h3
    exact hs3 j ((hmem j).mpr ⟨h1, h2⟩) h3
  · rcases hs4 with ⟨hd, hj1, hmin⟩ | ⟨hm, hun, heq, hlt, hmin⟩
    · exact Or.inl ⟨hd, hj1, fun j h1 h2 h3 => hmin j ((hmem j).mpr ⟨h1, h2⟩) h3⟩
    · rw [hmem] at hm
      exact Or.inr ⟨hm.1, hm.2, hun, heq, hlt,
        fun j h1 h2 h3 => hmin j ((hmem j).mpr ⟨h1, h2⟩) h3⟩
  · intro r
    rcases hu1 r with h1 | ⟨j, hj, h2, h3, h4⟩
    · exact Or.inl h1
    · rw [hmem2] at hj
      exact Or.inr ⟨j, hj, h2, h3, h4⟩
  · intro j h1 h2
    exact ⟨hu2 j ((hmem2 j).mpr h1) h2, (hu4 j ((hmem2 j).mpr h1) h2).1,
      (hu4 j ((hmem2 j).mpr h1) h2).2⟩
  · intro j h1 h2
    exact ⟨(hu5 j ((hmem2 j).mpr h1) h2).1, (hu5 j ((hmem2 j).mpr h1) h2).2⟩
  · intro x hx
    exact hu3 x (fun hc => by rw [hmem2] at hc; omega)

/-- Every row of the matching of a `MatchInv` state occupies at most `k`
columns, counted over the real columns. -/
theorem matched_card_le {N k : ℕ} {s : KMState} (hM : MatchInv N k s) :
    ((Finset.Icc 1 N).filter fun j => s.p j ≠ 0).card ≤ k := by
  have hcard : ((Finset.Icc 1 N).filter fun j => s.p j ≠ 0).card ≤
      (Finset.Icc 1 k).card := by
    apply Finset.card_le_card_of_injOn (fun j => s.p j)
    · intro j hj
      rw [Finset.mem_filter, Finset.mem_Icc] at hj
      rw [Finset.mem_Icc]
      have := hM.p_le j
      omega
    · intro j hj j' hj' heq
      rw [Finset.mem_coe, Finset.mem_filter, Finset.mem_Icc] at hj hj'
      exact hM.p_inj j j' hj.1.1 hj.1.2 hj'.1.1 hj'.1.2 hj.2 heq
  rw [Nat.card_Icc] at hcard
  omega

/-- From fewer matched rows than columns, some real column is unmatched. -/
theorem matchInv_unmatched_exists {N k : ℕ} {s : KMState} (hM : MatchInv N k s)
    (hkN : k < N) : ∃ j, 1 ≤ j ∧ j ≤ N ∧ s.p j = 0 := by
  by_contra hc
  push_neg at hc
  have hfull : (Finset.Icc 1 N).filter (fun j => s.p j ≠ 0) = Finset.Icc 1 N := by
    apply Finset.filter_true_of_mem
    intro j hj
    rw [Finset.mem_Icc] at hj
    exact hc j hj.1 hj.2
  have := matched_card_le hM
  rw [hfull, Nat.card_Icc] at this
  omega

/-- The first pass of the outer iteration inserting row `k+1` establishes
the inner dual invariant, and leaves at most `k` matched unabsorbed
columns. -/
theorem pass_establish {N k : ℕ} {a : ℕ → ℕ → ℚ} {A : ℚ} {s : KMState}
    (hb : Bounded N a A) (hkN : k < N)
    (hM : MatchInv N k s) (hD : DualInv N a A k s) :
    InnerInv N a A k (Function.update s.p 0 (k + 1)) s.v
      (pass N a (resetFor (k + 1) s)) ∧
    unmatchedUnused N (Function.update s.p 0 (k + 1))
      (pass N a (resetFor (k + 1) s)) ≤ k := by
  obtain ⟨hA, hINF, habs⟩ := hb
  have e_u : (resetFor (k + 1) s).u = s.u := rfl
  have e_v : (resetFor (k + 1) s).v = s.v := rfl
  have e_p : (resetFor (k + 1) s).p = Function.update s.p 0 (k + 1) := rfl
  have e_w : (resetFor (k + 1) s).way = s.way := rfl
  have e_m : (resetFor (k + 1) s).minv = fun _ => INF := rfl
  have e_us : (resetFor (k + 1) s).used = fun _ => false := rfl
  have e_j0 : (resetFor (k + 1) s).j0 = 0 := rfl
  have e_way : (pass N a (resetFor (k + 1) s)).way =
      (scanOf N a (resetFor (k + 1) s)).way := rfl
  have e_j1 : (pass N a (resetFor (k + 1) s)).j0 =
      (scanOf N a (resetFor (k + 1) s)).j1 := rfl
  have e_used1 : (pass N a (resetFor (k + 1) s)).used =
      Function.update (fun _ : ℕ => false) 0 true := rfl
  have husedT : ∀ x : ℕ,
      Function.update (fun _ : ℕ => false) 0 true x = true ↔ x = 0 := by
    intro x
    rcases eq_or_ne x 0 with rfl | h
    · simp
    · simpa [Function.update_noteq h] using h
  have husedF : ∀ x : ℕ,
      Function.update (fun _ : ℕ => false) 0 true x = false ↔ x ≠ 0 := by
    intro x
    rcases eq_or_ne x 0 with rfl | h
    · simp
    · simpa [Function.update_noteq h] using h
  have halias0 : ∀ j j', j ≤ N → j' ≤ N →
      Function.update (resetFor (k + 1) s).used (resetFor (k + 1) s).j0 true j = true →
      Function.update (resetFor (k + 1) s).used (resetFor (k + 1) s).j0 true j' = true →
      (resetFor (k + 1) s).p j = (resetFor (k + 1) s).p j' → j = j' := by
    intro j j' _ _ hju hj'u _
    rw [e_us, e_j0] at hju hj'u
    rw [(husedT j).mp hju, (husedT j').mp hj'u]
  obtain ⟨hc1, hc2, hc3, hc4, hc5, hc6, hc7, hc8⟩ :=
    pass_char N a (resetFor (k + 1) s) halias0
  simp only [e_u, e_v, e_p, e_w, e_m, e_us, e_j0, Function.update_same]
    at hc1 hc2 hc3 hc4 hc5 hc6 hc7 hc8
  have hNge1 : 1 ≤ N := by omega
  have hkq : (k : ℚ) ≤ (N : ℚ) := by exact_mod_cast Nat.le_of_lt hkN
  have hu0 : s.u (k + 1) = 0 := hD.u_hi (k + 1) (by omega)
  have hcurINF : ∀ j, 1 ≤ j → j ≤ N →
      a (k + 1) j - s.u (k + 1) - s.v j < INF := by
    intro j h1 h2
    have ha1 : a (k + 1) j ≤ A :=
      (abs_le.mp (habs (k + 1) j (by omega) (by omega) h1 h2)).2
    have hv1 : -(2 * A * k) ≤ s.v j := hD.v_lo j h1 h2
    have hAk : 2 * A * (k : ℚ) ≤ 2 * A * (N : ℚ) := by nlinarith
    have hE : A * (2 * (N : ℚ) + 1) = 2 * A * (N : ℚ) + A := by ring
    linarith
  have hscan : ∀ j, 1 ≤ j → j ≤ N →
      (scanOf N a (resetFor (k + 1) s)).minv j = a (k + 1) j - s.u (k + 1) - s.v j ∧
      (scanOf N a (resetFor (k + 1) s)).way j = 0 := by
    intro j h1 h2
    rcases hc3 j h1 h2 ((husedF j).mpr (by omega)) with ⟨-, hm, hw⟩ | ⟨hge, -, -⟩
    · exact ⟨hm, hw⟩
    · exact absurd hge (not_le.mpr (hcurINF j h1 h2))
  rcases hc4 with ⟨hdINF, -, hmin⟩ | ⟨hj1ge, hj1le, hj1un, hdeq, hdlt, hdmin⟩
  · exfalso
    have h5 := hmin 1 le_rfl hNge1 ((husedF 1).mpr (by omega))
    rw [(hscan 1 le_rfl hNge1).1] at h5
    exact absurd h5 (not_le.mpr (hcurINF 1 le_rfl hNge1))
  have hδmin : ∀ j, 1 ≤ j → j ≤ N →
      (scanOf N a (resetFor (k + 1) s)).delta ≤ a (k + 1) j - s.u (k + 1) - s.v j := by
    intro j h1 h2
    have h5 := hdmin j h1 h2 ((husedF j).mpr (by omega))
    rw [(hscan j h1 h2).1] at h5
    exact h5
  have hδeq : (scanOf N a (resetFor (k + 1) s)).delta =
      a (k + 1) ((scanOf N a (resetFor (k + 1) s)).j1) - s.u (k + 1) -
        s.v ((scanOf N a (resetFor (k + 1) s)).j1) := by
    rw [hdeq, (hscan _ hj1ge hj1le).1]
  have hδlo : -A ≤ (scanOf N a (resetFor (k + 1) s)).delta := by
    have ha1 : -A ≤ a (k + 1) ((scanOf N a (resetFor (k + 1) s)).j1) :=
      (abs_le.mp (habs (k + 1) _ (by omega) (by omega) hj1ge hj1le)).1
    have hv1 : s.v ((scanOf N a (resetFor (k + 1) s)).j1) ≤ 0 :=
      hD.v_np _ hj1ge hj1le
    rw [hδeq]
    linarith
  have huk1 : (pass N a (resetFor (k + 1) s)).u (k + 1) =
      s.u (k + 1) + (scanOf N a (resetFor (k + 1) s)).delta := by
    have h5 := (hc6 0 (Nat.zero_le N) ((husedT 0).mpr rfl)).1
    rw [Function.update_same] at h5
    exact h5
  have hur : ∀ r, r ≠ k + 1 → (pass N a (resetFor (k + 1) s)).u r = s.u r := by
    intro r hr
    rcases hc5 r with h5 | ⟨j, hjN, hju, hpj, h5⟩
    · exact h5
    · exfalso
      rw [(husedT j).mp hju, Function.update_same] at hpj
      exact hr hpj.symm
  have hvm : ∀ j, 1 ≤ j → j ≤ N →
      (pass N a (resetFor (k + 1) s)).v j = s.v j ∧
      (pass N a (resetFor (k + 1) s)).minv j =
        (scanOf N a (resetFor (k + 1) s)).minv j -
          (scanOf N a (resetFor (k + 1) s)).delta :=
    fun j h1 h2 => hc7 j h2 ((husedF j).mpr (by omega))
  have hminv : ∀ j, 1 ≤ j → j ≤ N →
      (pass N a (resetFor (k + 1) s)).minv j =
        a (k + 1) j - s.u (k + 1) - s.v j -
          (scanOf N a (resetFor (k + 1) s)).delta := by
    intro j h1 h2
    rw [(hvm j h1 h2).2, (hscan j h1 h2).1]
  have hstruct0 : StructInv N (Function.update s.p 0 (k + 1)) (resetFor (k + 1) s) := by
    refine ⟨rfl, ?_, hM.way_le, ?_, Nat.zero_le N⟩
    · intro j hj
      rw [e_us] at hj
      exact absurd hj (by simp)
    · intro j
      rw [e_w, e_p]
      rcases hM.way_matched j with h0 | h0
      · exact Or.inl h0
      · right
        rcases Nat.eq_zero_or_pos (s.way j) with hz | hz
        · rw [hz, Function.update_same]
          omega
        · rw [Function.update_noteq (by omega)]
          exact h0
  have hbase : StructInv N (Function.update s.p 0 (k + 1))
      (pass N a (resetFor (k + 1) s)) := pass_struct hstruct0 (Or.inl e_j0)
  constructor
  · refine ⟨hbase, ?_, ?_, ?_, ?_, ?_, ?_, ?_, ?_, ?_, ?_, ?_, ?_, ?_, ?_, ?_⟩
    · -- used0
      rw [e_used1]
      exact (husedT 0).mpr rfl
    · -- way0
      rw [e_way, (hc1 0 (Or.inl Nat.one_pos)).2]
      exact hD.way0
    · -- dfeas
      intro r j hr1 hr2 hj1 hj2
      rcases eq_or_ne r (k + 1) with rfl | hne
      · rw [huk1, (hvm j hj1 hj2).1]
        have h5 := hδmin j hj1 hj2
        linarith
      · rw [hur r hne, (hvm j hj1 hj2).1]
        exact hD.dfeas r j hr1 (by omega) hj1 hj2
    · -- u_hi
      intro r hr
      rw [hur r (by omega)]
      exact hD.u_hi r (by omega)
    · -- tight
      intro j hj1 hj2 hp
      rw [Function.update_noteq (by omega : j ≠ 0)] at hp ⊢
      have hple : s.p j ≤ k := hM.p_le j
      rw [hur (s.p j) (by omega), (hvm j hj1 hj2).1]
      exact hD.tight j hj1 hj2 hp
    · -- v_np
      intro j hj1 hj2
      rw [(hvm j hj1 hj2).1]
      exact hD.v_np j hj1 hj2
    · -- minv_nn
      intro j hj1 hj2 _
      rw [hminv j hj1 hj2]
      have h5 := hδmin j hj1 hj2
      linarith
    · -- minv_lb
      intro j hj1 hj2 _ j' hj'N hj'u
      rw [e_used1] at hj'u
      rw [(husedT j').mp hj'u, Function.update_same]
      rw [hminv j hj1 hj2, huk1, (hvm j hj1 hj2).1]
      linarith
    · -- minv_way
      intro j hj1 hj2 _
      rw [e_way, (hscan j hj1 hj2).2, e_used1, Function.update_same]
      refine ⟨rfl, ?_⟩
      rw [Function.update_same, hminv j hj1 hj2, huk1, (hvm j hj1 hj2).1]
      ring
    · -- tight_used
      intro j hj1 hj2 hju
      rw [e_used1] at hju
      exact absurd ((husedT j).mp hju) (by omega)
    · -- j0_mem
      rw [e_j1]
      refine ⟨hj1ge, hj1le, ?_, ?_⟩
      · rw [e_used1]
        exact (husedF _).mpr (by omega)
      · rw [hminv _ hj1ge hj1le]
        linarith
    · -- u_cur_lo
      rw [huk1, hu0]
      linarith
    · -- v_track
      intro j hj1 hj2
      rw [(hvm j hj1 hj2).1, huk1, hu0]
      linarith
    · -- v_frozen
      intro j hj1 hj2 _
      exact (hvm j hj1 hj2).1
    · -- reach
      intro j hjN hju
      rw [e_used1] at hju
      rw [(husedT j).mp hju]
      exact ⟨0, rfl⟩
  · -- measure bound
    unfold unmatchedUnused
    refine le_trans (Finset.card_le_card ?_) (matched_card_le hM)
    intro j hj
    rw [Finset.mem_filter] at hj ⊢
    rcases hj with ⟨hjm, hjp, -⟩
    have hjm' := hjm
    rw [Finset.mem_Icc] at hjm'
    refine ⟨hjm, ?_⟩
    rw [Function.update_noteq (by omega : j ≠ 0)] at hjp
    exact hjp

/-- Iterates of two functions agree along a predicate-stable chain. -/
theorem iterate_agree (f g : ℕ → ℕ) (Q : ℕ → Prop)
    (hstep : ∀ x, Q x → g x = f x ∧ Q (f x)) :
    ∀ (t : ℕ) (x : ℕ), Q x → g^[t] x = f^[t] x ∧ Q (f^[t] x) := by
  intro t
  induction t with
  | zero => exact fun x hx => ⟨rfl, hx⟩
  | succ t ih =>
    intro x hx
    rw [Function.iterate_succ_apply, Function.iterate_succ_apply]
    obtain ⟨he, hq⟩ := hstep x hx
    rw [he]
    exact ih (f x) hq

/-- One further pass of the relaxation loop preserves the inner dual
invariant and strictly decreases the number of matched unabsorbed
columns. -/
theorem pass_preserve {N k : ℕ} {a : ℕ → ℕ → ℚ} {A : ℚ} {p0 : ℕ → ℕ} {v0 : ℕ → ℚ}
    {s : KMState}
    (hb : Bounded N a A) (hkN : k < N)
    (hp00 : p0 0 = k + 1)
    (hple : ∀ j, 1 ≤ j → p0 j ≤ k)
    (hpinj : ∀ j j', 1 ≤ j → j ≤ N → 1 ≤ j' → j' ≤ N → p0 j ≠ 0 → p0 j = p0 j' → j = j')
    (hv0un : ∀ j, 1 ≤ j → j ≤ N → p0 j = 0 → v0 j = 0)
    (hunm : ∃ jh, 1 ≤ jh ∧ jh ≤ N ∧ p0 jh = 0)
    (hs : InnerInv N a A k p0 v0 s)
    (hcont : p0 s.j0 ≠ 0) :
    InnerInv N a A k p0 v0 (pass N a s) ∧
      unmatchedUnused N p0 (pass N a s) < unmatchedUnused N p0 s := by
  obtain ⟨hA, hINF, habs⟩ := hb
  obtain ⟨hj01, hj0N, hj0un, hj0m0⟩ := hs.j0_mem
  have hpe : s.p = p0 := hs.base.p_eq
  have hr0le : p0 s.j0 ≤ k := hple s.j0 hj01
  have hused_ok : ∀ j, s.used j = true → j = 0 ∨ (1 ≤ j ∧ j ≤ N ∧ p0 j ≠ 0) := by
    intro j hj
    rcases hs.base.used_ok j hj with h | h
    · exact Or.inl h
    · refine Or.inr ⟨h.1, h.2.1, ?_⟩
      have h5 := h.2.2
      rw [hpe] at h5
      exact h5
  have e_way : (pass N a s).way = (scanOf N a s).way := rfl
  have e_j1 : (pass N a s).j0 = (scanOf N a s).j1 := rfl
  have e_used1 : (pass N a s).used = Function.update s.used s.j0 true := rfl
  have husedT' : ∀ x, Function.update s.used s.j0 true x = true ↔
      (x = s.j0 ∨ s.used x = true) := by
    intro x
    rcases eq_or_ne x s.j0 with rfl | h
    · simp
    · simp [Function.update_noteq h, h]
  have husedF' : ∀ x, Function.update s.used s.j0 true x = false ↔
      (x ≠ s.j0 ∧ s.used x = false) := by
    intro x
    rcases eq_or_ne x s.j0 with rfl | h
    · simp
    · simp [Function.update_noteq h, h]
  have halias : ∀ j j', j ≤ N → j' ≤ N →
      Function.update s.used s.j0 true j = true →
      Function.update s.used s.j0 true j' = true → s.p j = s.p j' → j = j' := by
    intro j j' hjN hj'N hju hj'u heq
    rw [hpe] at heq
    have hfact : ∀ x, (x = s.j0 ∨ s.used x = true) → x = 0 ∨ (1 ≤ x ∧ p0 x ≠ 0) := by
      intro x hx
      rcases hx with rfl | hx
      · exact Or.inr ⟨hj01, hcont⟩
      · rcases hused_ok x hx with h | h
        · exact Or.inl h
        · exact Or.inr ⟨h.1, h.2.2⟩
    rcases hfact j ((husedT' j).mp hju) with rfl | ⟨hj1, hjp⟩
    · rcases hfact j' ((husedT' j').mp hj'u) with rfl | ⟨hj'1, hj'p⟩
      · rfl
      · exfalso
        rw [hp00] at heq
        have h5 := hple j' hj'1
        omega
    · rcases hfact j' ((husedT' j').mp hj'u) with rfl | ⟨hj'1, hj'p⟩
      · exfalso
        rw [hp00] at heq
        have h5 := hple j hj1
        omega
      · exact hpinj j j' hj1 hjN hj'1 hj'N hjp heq
  obtain ⟨hc1, hc2, hc3, hc4, hc5, hc6, hc7, hc8⟩ := pass_char N a s halias
  simp only [hpe] at hc1 hc2 hc3 hc4 hc5 hc6 hc7 hc8
  obtain ⟨jh, hjh1, hjhN, hjhp⟩ := hunm
  have hjh_unused : s.used jh = false := by
    cases hcase : s.used jh
    · rfl
    · rcases hused_ok jh hcase with h | h
      · omega
      · exact absurd hjhp h.2.2
  have hjh_ne : jh ≠ s.j0 := fun hc => hcont (hc ▸ hjhp)
  have hjh_unused' : Function.update s.used s.j0 true jh = false :=
    (husedF' jh).mpr ⟨hjh_ne, hjh_unused⟩
  have hvjh : s.v jh = 0 := by
    rw [hs.v_frozen jh hjh1 hjhN hjh_unused]
    exact hv0un jh hjh1 hjhN hjhp
  have hminvjh : s.minv jh ≤ 2 * A := by
    have h5 := hs.minv_lb jh hjh1 hjhN hjh_unused 0 (Nat.zero_le N) hs.used0
    rw [hp00] at h5
    have ha1 : a (k + 1) jh ≤ A :=
      (abs_le.mp (habs (k + 1) jh (by omega) (by omega) hjh1 hjhN)).2
    have hu1 : -A ≤ s.u (k + 1) := hs.u_cur_lo
    rw [hvjh] at h5
    linarith
  have h2A : 2 * A < INF := by
    have hNq : (1 : ℚ) ≤ (N : ℚ) := by
      have : 1 ≤ N := by omega
      exact_mod_cast this
    nlinarith
  have hscminjh : (scanOf N a s).minv jh ≤ s.minv jh := by
    rcases hc3 jh hjh1 hjhN hjh_unused' with ⟨hlt, hm, -⟩ | ⟨-, hm, -⟩
    · rw [hm]; exact le_of_lt hlt
    · rw [hm]
  rcases hc4 with ⟨hdINF, -, hmin⟩ | ⟨hj1ge, hj1le, hj1un, hdeq, hdlt, hdmin⟩
  · exfalso
    have h5 := hmin jh hjh1 hjhN hjh_unused'
    linarith
  have hmerge : ∀ j, 1 ≤ j → j ≤ N → Function.update s.used s.j0 true j = false →
      (scanOf N a s).minv j ≤ s.minv j ∧
      (scanOf N a s).minv j ≤ a (p0 s.j0) j - s.u (p0 s.j0) - s.v j := by
    intro j h1 h2 h3
    rcases hc3 j h1 h2 h3 with ⟨hlt, hm, -⟩ | ⟨hge, hm, -⟩
    · rw [hm]; exact ⟨le_of_lt hlt, le_refl _⟩
    · rw [hm]; exact ⟨le_refl _, hge⟩
  have hδnn : 0 ≤ (scanOf N a s).delta := by
    rw [hdeq]
    rcases hc3 _ hj1ge hj1le hj1un with ⟨-, hm, -⟩ | ⟨-, hm, -⟩
    · rw [hm]
      have h5 := hs.dfeas (p0 s.j0) _ (by omega) (by omega) hj1ge hj1le
      linarith
    · rw [hm]
      exact hs.minv_nn _ hj1ge hj1le ((husedF' _).mp hj1un).2
  have hu_tree : ∀ j, j ≤ N → Function.update s.used s.j0 true j = true →
      (pass N a s).u (p0 j) = s.u (p0 j) + (scanOf N a s).delta :=
    fun j h1 h2 => (hc6 j h1 h2).1
  have hu_off : ∀ r,
      (∀ j, j ≤ N → Function.update s.used s.j0 true j = true → p0 j ≠ r) →
      (pass N a s).u r = s.u r := by
    intro r hr
    rcases hc5 r with h5 | ⟨j, hjN, hju, hpj, h5⟩
    · exact h5
    · exact absurd hpj (hr j hjN hju)
  have hused'0 : Function.update s.used s.j0 true 0 = true :=
    (husedT' 0).mpr (Or.inr hs.used0)
  have huk1 : (pass N a s).u (k + 1) = s.u (k + 1) + (scanOf N a s).delta := by
    have h5 := hu_tree 0 (Nat.zero_le N) hused'0
    rw [hp00] at h5
    exact h5
  have hu_hi' : ∀ r, k + 1 < r → (pass N a s).u r = s.u r := by
    intro r hr
    apply hu_off
    intro j hjN hju hpj
    rcases (husedT' j).mp hju with rfl | hjus
    · omega
    · rcases hused_ok j hjus with rfl | ⟨hj1, -, -⟩
      · rw [hp00] at hpj
        omega
      · have h5 := hple j hj1
        omega
  have hv_used : ∀ j, j ≤ N → Function.update s.used s.j0 true j = true →
      (pass N a s).v j = s.v j - (scanOf N a s).delta ∧
      (pass N a s).minv j = (scanOf N a s).minv j :=
    fun j h1 h2 => ⟨(hc6 j h1 h2).2.1, (hc6 j h1 h2).2.2⟩
  have hkey : ∀ j, 1 ≤ j → j ≤ N → Function.update s.used s.j0 true j = false →
      ∀ j', j' ≤ N → Function.update s.used s.j0 true j' = true →
      (scanOf N a s).minv j ≤ a (p0 j') j - s.u (p0 j') - s.v j := by
    intro j h1 h2 h3 j' h1' h2'
    obtain ⟨hm1, hm2⟩ := hmerge j h1 h2 h3
    rcases (husedT' j').mp h2' with rfl | hjus
    · exact hm2
    · have h5 := hs.minv_lb j h1 h2 ((husedF' j).mp h3).2 j' h1' hjus
      linarith
  constructor
  · refine ⟨pass_struct hs.base (Or.inr (by rw [hpe]; exact hcont)),
      ?_, ?_, ?_, ?_, ?_, ?_, ?_, ?_, ?_, ?_, ?_, ?_, ?_, ?_, ?_⟩
    · -- used0
      rw [e_used1]
      exact hused'0
    · -- way0
      rw [e_way, (hc1 0 (Or.inl Nat.one_pos)).2]
      exact hs.way0
    · -- dfeas
      intro r j hr1 hr2 hj1 hj2
      by_cases hjth : Function.update s.used s.j0 true j = true
      · have hv5 := (hv_used j (by omega) hjth).1
        rcases hc5 r with h5 | ⟨j', hj'N, hj'u, hpj', h5⟩
        · rw [h5, hv5]
          have h6 := hs.dfeas r j hr1 hr2 hj1 hj2
          linarith
        · rw [h5, hv5]
          have h6 := hs.dfeas r j hr1 hr2 hj1 hj2
          linarith
      · have hjf : Function.update s.used s.j0 true j = false := by
          cases hcase : Function.update s.used s.j0 true j
          · rfl
          · exact absurd hcase hjth
        have hv5 := (hc7 j (by omega) hjf).1
        rcases hc5 r with h5 | ⟨j', hj'N, hj'u, hpj', h5⟩
        · rw [h5, hv5]
          exact hs.dfeas r j hr1 hr2 hj1 hj2
        · rw [h5, hv5]
          have h6 := hkey j hj1 hj2 hjf j' hj'N hj'u
          rw [hpj'] at h6
          have h7 := hdmin j hj1 hj2 hjf
          linarith
    · -- u_hi
      intro r hr
      rw [hu_hi' r hr]
      exact hs.u_hi r hr
    · -- tight
      intro j hj1 hj2 hp
      by_cases hjth : Function.update s.used s.j0 true j = true
      · have h5 := hu_tree j (by omega) hjth
        have hv5 := (hv_used j (by omega) hjth).1
        rw [h5, hv5]
        have h6 := hs.tight j hj1 hj2 hp
        linarith
      · have hjf : Function.update s.used s.j0 true j = false := by
          cases hcase : Function.update s.used s.j0 true j
          · rfl
          · exact absurd hcase hjth
        have hv5 := (hc7 j (by omega) hjf).1
        have hu5 : (pass N a s).u (p0 j) = s.u (p0 j) := by
          apply hu_off
          intro j'' hj''N hj''u hpj''
          rcases (husedT' j'').mp hj''u with rfl | hj''us
          · have h7 := hpinj s.j0 j hj01 hj0N hj1 hj2 hcont hpj''
            rw [← h7] at hjf
            simp at hjf
          · rcases hused_ok j'' hj''us with rfl | ⟨hj''1, hj''N2, hj''p⟩
            · rw [hp00] at hpj''
              have h7 := hple j hj1
              omega
            · have h7 := hpinj j'' j hj''1 hj''N2 hj1 hj2 hj''p hpj''
              subst h7
              exact absurd hj''us (by
                have h8 := ((husedF' j'').mp hjf).2
                rw [h8]
                simp)
        rw [hu5, hv5]
        exact hs.tight j hj1 hj2 hp
    · -- v_np
      intro j hj1 hj2
      by_cases hjth : Function.update s.used s.j0 true j = true
      · rw [(hv_used j (by omega) hjth).1]
        have h5 := hs.v_np j hj1 hj2
        linarith
      · have hjf : Function.update s.used s.j0 true j = false := by
          cases hcase : Function.update s.used s.j0 true j
          · rfl
          · exact absurd hcase hjth
        rw [(hc7 j (by omega) hjf).1]
        exact hs.v_np j hj1 hj2
    · -- minv_nn
      intro j hj1 hj2 hjf'
      rw [e_used1] at hjf'
      rw [(hc7 j (by omega) hjf').2]
      have h5 := hdmin j hj1 hj2 hjf'
      linarith
    · -- minv_lb
      intro j hj1 hj2 hjf' j' hj'N hj'u'
      rw [e_used1] at hjf' hj'u'
      rw [(hc7 j (by omega) hjf').2, hu_tree j' hj'N hj'u',
        (hc7 j (by omega) hjf').1]
      have h6 := hkey j hj1 hj2 hjf' j' hj'N hj'u'
      linarith
    · -- minv_way
      intro j hj1 hj2 hjf'
      rw [e_used1] at hjf'
      rw [e_way]
      rcases hc3 j hj1 hj2 hjf' with ⟨hlt, hm, hw⟩ | ⟨hge, hm, hw⟩
      · rw [hw]
        constructor
        · rw [e_used1]
          exact (husedT' s.j0).mpr (Or.inl rfl)
        · rw [(hc7 j (by omega) hjf').2, hm,
            hu_tree s.j0 (by omega) ((husedT' s.j0).mpr (Or.inl rfl)),
            (hc7 j (by omega) hjf').1]
          ring
      · rw [hw]
        have hjfs : s.used j = false := ((husedF' j).mp hjf').2
        obtain ⟨hwu, hweq⟩ := hs.minv_way j hj1 hj2 hjfs
        constructor
        · rw [e_used1]
          exact (husedT' (s.way j)).mpr (Or.inr hwu)
        · have hwN : s.way j ≤ N := hs.base.way_le j
          rw [(hc7 j (by omega) hjf').2, hm,
            hu_tree (s.way j) hwN ((husedT' (s.way j)).mpr (Or.inr hwu)),
            (hc7 j (by omega) hjf').1, hweq]
          ring
    · -- tight_used
      intro j hj1 hj2 hju'
      rw [e_used1] at hju'
      rcases (husedT' j).mp hju' with rfl | hjus
      · have hw5 := (hc2 s.j0 hj01 hj0N ((husedT' s.j0).mpr (Or.inl rfl))).2
        rw [e_way, hw5]
        obtain ⟨hwu, hweq⟩ := hs.minv_way s.j0 hj01 hj0N hj0un
        constructor
        · rw [e_used1]
          exact (husedT' (s.way s.j0)).mpr (Or.inr hwu)
        · have hwN : s.way s.j0 ≤ N := hs.base.way_le s.j0
          rw [hu_tree (s.way s.j0) hwN ((husedT' (s.way s.j0)).mpr (Or.inr hwu)),
            (hv_used s.j0 (by omega) ((husedT' s.j0).mpr (Or.inl rfl))).1]
          linarith
      · have hw5 := (hc2 j hj1 hj2 hju').2
        rw [e_way, hw5]
        obtain ⟨hwu, hweq⟩ := hs.tight_used j hj1 hj2 hjus
        constructor
        · rw [e_used1]
          exact (husedT' (s.way j)).mpr (Or.inr hwu)
        · have hwN : s.way j ≤ N := hs.base.way_le j
          rw [hu_tree (s.way j) hwN ((husedT' (s.way j)).mpr (Or.inr hwu)),
            (hv_used j (by omega) hju').1]
          linarith
    · -- j0_mem
      rw [e_j1]
      refine ⟨hj1ge, hj1le, ?_, ?_⟩
      · rw [e_used1]
        exact hj1un
      · rw [(hc7 _ (by omega) hj1un).2]
        linarith [hdeq]
    · -- u_cur_lo
      rw [huk1]
      have h5 := hs.u_cur_lo
      linarith
    · -- v_track
      intro j hj1 hj2
      by_cases hjth : Function.update s.used s.j0 true j = true
      · rw [(hv_used j (by omega) hjth).1, huk1]
        have h5 := hs.v_track j hj1 hj2
        linarith
      · have hjf : Function.update s.used s.j0 true j = false := by
          cases hcase : Function.update s.used s.j0 true j
          · rfl
          · exact absurd hcase hjth
        rw [(hc7 j (by omega) hjf).1, huk1]
        have h5 := hs.v_track j hj1 hj2
        linarith
    · -- v_frozen
      intro j hj1 hj2 hjf'
      rw [e_used1] at hjf'
      rw [(hc7 j (by omega) hjf').1]
      exact hs.v_frozen j hj1 hj2 ((husedF' j).mp hjf').2
    · -- reach
      have hQstep : ∀ x, (x = 0 ∨ s.used x = true) →
          (scanOf N a s).way x = s.way x ∧
            (s.way x = 0 ∨ s.used (s.way x) = true) := by
        intro x hx
        rcases hx with rfl | hxu
        · exact ⟨(hc1 0 (Or.inl Nat.one_pos)).2, by rw [hs.way0]; exact Or.inl rfl⟩
        · rcases hused_ok x hxu with rfl | ⟨hx1, hxN, -⟩
          · exact ⟨(hc1 0 (Or.inl Nat.one_pos)).2, by rw [hs.way0]; exact Or.inl rfl⟩
          · exact ⟨(hc2 x hx1 hxN ((husedT' x).mpr (Or.inr hxu))).2,
              Or.inr (hs.tight_used x hx1 hxN hxu).1⟩
      intro j hjN hju'
      rw [e_used1] at hju'
      rw [e_way]
      rcases (husedT' j).mp hju' with rfl | hjus
      · obtain ⟨hwu, -⟩ := hs.minv_way s.j0 hj01 hj0N hj0un
        obtain ⟨t, ht⟩ := hs.reach (s.way s.j0) (hs.base.way_le s.j0) hwu
        have hag := iterate_agree s.way (scanOf N a s).way
          (fun z => z = 0 ∨ s.used z = true) hQstep t (s.way s.j0) (Or.inr hwu)
        refine ⟨t + 1, ?_⟩
        rw [Function.iterate_succ_apply]
        have hw5 := (hc2 s.j0 hj01 hj0N ((husedT' s.j0).mpr (Or.inl rfl))).2
        rw [hw5, hag.1, ht]
      · obtain ⟨t, ht⟩ := hs.reach j hjN hjus
        have hag := iterate_agree s.way (scanOf N a s).way
          (fun z => z = 0 ∨ s.used z = true) hQstep t j (Or.inr hjus)
        exact ⟨t, by rw [hag.1, ht]⟩
  · -- the measure decreases
    have hsub : (Finset.Icc 1 N).filter
        (fun j => p0 j ≠ 0 ∧ (pass N a s).used j = false) ⊆
        (Finset.Icc 1 N).filter (fun j => p0 j ≠ 0 ∧ s.used j = false) := by
      intro x hx
      rw [Finset.mem_filter] at hx ⊢
      obtain ⟨hxm, hxp, hxf⟩ := hx
      rw [e_used1] at hxf
      exact ⟨hxm, hxp, ((husedF' x).mp hxf).2⟩
    apply Finset.card_lt_card
    rw [Finset.ssubset_iff_of_subset hsub]
    refine ⟨s.j0, ?_, ?_⟩
    · rw [Finset.mem_filter]
      exact ⟨Finset.mem_Icc.mpr ⟨hj01, hj0N⟩, hcont, hj0un⟩
    · rw [Finset.mem_filter]
      rintro ⟨-, -, hf⟩
      rw [e_used1] at hf
      exact ((husedF' s.j0).mp hf).1 rfl


/-- Weak feasibility holds at every state satisfying the outer dual
invariant. -/
theorem dualInv_feas2 {N k : ℕ} {a : ℕ → ℕ → ℚ} {A : ℚ} {s : KMState}
    (hD : DualInv N a A k s) : Feas2 N a s := by
  constructor
  · intro i j h1 h2 h3 h4
    rcases Nat.lt_or_ge k i with h5 | h5
    · exact Or.inr (hD.u_hi i h5)
    · exact Or.inl (hD.dfeas i j h1 h5 h3 h4)
  · exact hD.v_np

/-- Under bounded costs the relaxation loop runs to completion, all its
check points satisfy the inner dual invariant, and the number of passes is
bounded by the measure at the first check point plus one. -/
theorem innerTraj_dual {N k : ℕ} {a : ℕ → ℕ → ℚ} {A : ℚ} {p0 : ℕ → ℕ} {v0 : ℕ → ℚ}
    (hb : Bounded N a A) (hkN : k < N)
    (hp00 : p0 0 = k + 1)
    (hple : ∀ j, 1 ≤ j → p0 j ≤ k)
    (hpinj : ∀ j j', 1 ≤ j → j ≤ N → 1 ≤ j' → j' ≤ N → p0 j ≠ 0 → p0 j = p0 j' → j = j')
    (hv0un : ∀ j, 1 ≤ j → j ≤ N → p0 j = 0 → v0 j = 0)
    (hunm : ∃ jh, 1 ≤ jh ∧ jh ≤ N ∧ p0 jh = 0) :
    ∀ (B fuel : ℕ) (s : KMState),
    InnerInv N a A k p0 v0 (pass N a s) →
    unmatchedUnused N p0 (pass N a s) < B → B ≤ fuel →
    ∃ tr, innerTraj N a fuel s = some tr ∧
      tr.length ≤ unmatchedUnused N p0 (pass N a s) + 1 ∧
      (∀ x ∈ tr, InnerInv N a A k p0 v0 x) ∧
      ∃ sl, tr.getLast? = some sl ∧ InnerInv N a A k p0 v0 sl ∧ p0 sl.j0 = 0 := by
  intro B
  induction B with
  | zero =>
    intro fuel s h1 h2 h3
    omega
  | succ B ih =>
    intro fuel s hInv hMB hBf
    obtain ⟨fuel', rfl⟩ : ∃ f', fuel = f' + 1 := ⟨fuel - 1, by omega⟩
    rw [innerTraj]
    by_cases hc : (pass N a s).p ((pass N a s).j0) ≠ 0
    · rw [if_pos hc]
      have hcont : p0 ((pass N a s).j0) ≠ 0 := by
        rw [← hInv.base.p_eq]
        exact hc
      obtain ⟨hInv', hMdec⟩ :=
        pass_preserve hb hkN hp00 hple hpinj hv0un hunm hInv hcont
      obtain ⟨tr', htr', hlen', hall', sl, hlast', hslInv, hslexit⟩ :=
        ih fuel' (pass N a s) hInv' (by omega) (by omega)
      rw [htr']
      refine ⟨pass N a s :: tr', rfl, ?_, ?_, sl, ?_, hslInv, hslexit⟩
      · rw [List.length_cons]
        omega
      · intro x hx
        rcases List.mem_cons.mp hx with rfl | hx'
        · exact hInv
        · exact hall' x hx'
      · rcases tr' with - | ⟨y, ys⟩
        · exact absurd hlast' (by simp)
        · rw [List.getLast?_cons_cons]
          exact hlast'
    · rw [if_neg hc]
      push_neg at hc
      refine ⟨[pass N a s], rfl, ?_, ?_, pass N a s, rfl, hInv, ?_⟩
      · rw [List.length_singleton]
        omega
      · intro x hx
        rw [List.mem_singleton.mp hx]
        exact hInv
      · rw [← hInv.base.p_eq]
        exact hc

/-- One full outer iteration under bounded costs: the relaxation loop
terminates in at most `N` passes through states satisfying weak
feasibility, the augmenting loop terminates, and the resulting state
extends the matching by one and satisfies the dual invariant again. -/
theorem iteration_dual {N k : ℕ} {a : ℕ → ℕ → ℚ} {A : ℚ} {s : KMState}
    (hb : Bounded N a A) (hkN : k < N)
    (hM : MatchInv N k s) (hD : DualInv N a A k s) :
    ∃ tr s2, innerTraj N a (2 * N + 8) (resetFor (k + 1) s) = some tr ∧
      augLoop (N + 2) (tr.getLastD (resetFor (k + 1) s)) = some s2 ∧
      tr.length ≤ N ∧ (∀ x ∈ tr, Feas2 N a x) ∧
      MatchInv N (k + 1) s2 ∧ DualInv N a A (k + 1) s2 := by
  have hA : (0 : ℚ) ≤ A := hb.1
  have habs := hb.2.2
  have hp00 : Function.update s.p 0 (k + 1) 0 = k + 1 := Function.update_same _ _ _
  have hple : ∀ j, 1 ≤ j → Function.update s.p 0 (k + 1) j ≤ k := by
    intro j hj
    rw [Function.update_noteq (by omega)]
    exact hM.p_le j
  have hpinj : ∀ j j', 1 ≤ j → j ≤ N → 1 ≤ j' → j' ≤ N →
      Function.update s.p 0 (k + 1) j ≠ 0 →
      Function.update s.p 0 (k + 1) j = Function.update s.p 0 (k + 1) j' → j = j' := by
    intro j j' h1 h2 h3 h4 h5 h6
    rw [Function.update_noteq (by omega)] at h5 h6
    rw [Function.update_noteq (by omega : j' ≠ 0)] at h6
    exact hM.p_inj j j' h1 h2 h3 h4 h5 h6
  have hv0un : ∀ j, 1 ≤ j → j ≤ N →
      Function.update s.p 0 (k + 1) j = 0 → s.v j = 0 := by
    intro j h1 h2 h3
    rw [Function.update_noteq (by omega)] at h3
    exact hD.v_un j h1 h2 h3
  have hunm : ∃ jh, 1 ≤ jh ∧ jh ≤ N ∧ Function.update s.p 0 (k + 1) jh = 0 := by
    obtain ⟨jh, h1, h2, h3⟩ := matchInv_unmatched_exists hM hkN
    exact ⟨jh, h1, h2, by rw [Function.update_noteq (by omega)]; exact h3⟩
  obtain ⟨hInv1, hMeas⟩ := pass_establish hb hkN hM hD
  obtain ⟨tr, htr, hlen, hall, sl, hlast, hslInv, hslexit⟩ :=
    innerTraj_dual hb hkN hp00 hple hpinj hv0un hunm (k + 1) (2 * N + 8)
      (resetFor (k + 1) s) hInv1 (by omega) (by omega)
  have hgl : tr.getLastD (resetFor (k + 1) s) = sl := by
    rw [List.getLastD_eq_getLast?, hlast]
    rfl
  obtain ⟨hj01, hj0N, hj0un, hj0m0⟩ := hslInv.j0_mem
  have hj0ne : sl.j0 ≠ 0 := by omega
  obtain ⟨hwu, hweq⟩ := hslInv.minv_way sl.j0 hj01 hj0N hj0un
  obtain ⟨t0, ht0⟩ := hslInv.reach (sl.way sl.j0) (hslInv.base.way_le sl.j0) hwu
  have hreach : ∃ t, sl.way^[t] sl.j0 = 0 :=
    ⟨t0 + 1, by rw [Function.iterate_succ_apply]; exact ht0⟩
  have hT0 := Nat.find_spec hreach
  have hchain_ne : ∀ t, t < Nat.find hreach → sl.way^[t] sl.j0 ≠ 0 :=
    fun t ht => Nat.find_min hreach ht
  have hT1 : 1 ≤ Nat.find hreach := by
    rcases Nat.eq_zero_or_pos (Nat.find hreach) with h | h
    · exfalso
      rw [h] at hT0
      exact hj0ne hT0
    · exact h
  have hchain_le : ∀ t, t ≤ Nat.find hreach → sl.way^[t] sl.j0 ≤ N := by
    intro t ht
    cases t with
    | zero => simpa using hj0N
    | succ t =>
      rw [Function.iterate_succ_apply']
      exact hslInv.base.way_le _
  have hnd := iterate_min_zero_nodup sl.way sl.j0 (Nat.find hreach) hT0 hchain_ne
  have hTN : Nat.find hreach ≤ N := by
    have hcard : (Finset.range (Nat.find hreach)).card ≤ (Finset.Icc 1 N).card := by
      apply Finset.card_le_card_of_injOn (fun t => sl.way^[t] sl.j0)
      · intro t ht
        rw [Finset.mem_range] at ht
        rw [Finset.mem_Icc]
        exact ⟨Nat.one_le_iff_ne_zero.mpr (hchain_ne t ht), hchain_le t (by omega)⟩
      · intro c hc d hd heq
        rw [Finset.mem_coe, Finset.mem_range] at hc hd
        by_contra hne
        rcases Nat.lt_or_ge c d with h | h
        · exact hnd c d h (by omega) heq
        · exact hnd d c (by omega) (by omega) heq.symm
    rw [Finset.card_range, Nat.card_Icc] at hcard
    omega
  obtain ⟨s2, haug, hu2, hv2, hw2, hm2, hus2, hj02, hA2, hB2⟩ :=
    augLoop_run (Nat.find hreach) (N + 2) sl hj0ne hT1 hT0 hchain_ne (by omega)
  have hple0 : ∀ j, Function.update s.p 0 (k + 1) j ≤ k + 1 := by
    intro j
    rcases Nat.eq_zero_or_pos j with rfl | hj
    · rw [hp00]
    · rw [Function.update_noteq (by omega)]
      exact le_trans (hM.p_le j) (by omega)
  have hpsurj : ∀ r, 1 ≤ r → r ≤ k →
      ∃ j, 1 ≤ j ∧ j ≤ N ∧ Function.update s.p 0 (k + 1) j = r := by
    intro r h1 h2
    obtain ⟨j, hj1, hjN, hpj⟩ := hM.p_surj r h1 h2
    exact ⟨j, hj1, hjN, by rw [Function.update_noteq (by omega)]; exact hpj⟩
  have hexit : sl.p sl.j0 = 0 := by
    rw [hslInv.base.p_eq]
    exact hslexit
  obtain ⟨hMatch2, -, -, -, -, -⟩ :=
    augment_matchInv hslInv.base hp00 hple hple0 hpinj hpsurj hexit hj01 haug
  -- tightness along the augmenting chain
  have hchain_used : ∀ t, 1 ≤ t → t < Nat.find hreach →
      sl.used (sl.way^[t] sl.j0) = true := by
    intro t h1 h2
    induction t with
    | zero => omega
    | succ t ihc =>
      rcases Nat.eq_zero_or_pos t with rfl | ht
      · simpa using hwu
      · have hu5 := ihc (by omega) (by omega)
        rw [Function.iterate_succ_apply']
        exact (hslInv.tight_used _ (Nat.one_le_iff_ne_zero.mpr (hchain_ne t (by omega)))
          (hchain_le t (by omega)) hu5).1
  have hchain_tight : ∀ t, t < Nat.find hreach →
      a (Function.update s.p 0 (k + 1) (sl.way (sl.way^[t] sl.j0)))
          (sl.way^[t] sl.j0) -
        sl.u (Function.update s.p 0 (k + 1) (sl.way (sl.way^[t] sl.j0))) -
        sl.v (sl.way^[t] sl.j0) = 0 := by
    intro t ht
    rcases Nat.eq_zero_or_pos t with rfl | h1
    · simp only [Function.iterate_zero_apply]
      rw [← hweq]
      exact hj0m0
    · exact (hslInv.tight_used (sl.way^[t] sl.j0)
        (Nat.one_le_iff_ne_zero.mpr (hchain_ne t ht))
        (hchain_le t (by omega)) (hchain_used t h1 ht)).2
  have hukA : sl.u (k + 1) ≤ A := by
    have h5 := hslInv.minv_lb sl.j0 hj01 hj0N hj0un 0 (Nat.zero_le N) hslInv.used0
    rw [hp00] at h5
    have hvj0 : sl.v sl.j0 = 0 := by
      rw [hslInv.v_frozen sl.j0 hj01 hj0N hj0un]
      exact hv0un sl.j0 hj01 hj0N hslexit
    have ha1 : a (k + 1) sl.j0 ≤ A :=
      (abs_le.mp (habs (k + 1) sl.j0 (by omega) (by omega) hj01 hj0N)).2
    rw [hj0m0, hvj0] at h5
    linarith
  refine ⟨tr, s2, htr, by rw [hgl]; exact haug, by omega, ?_, hMatch2, ?_⟩
  · intro x hx
    have hx5 := hall x hx
    constructor
    · intro i j h1 h2 h3 h4
      rcases Nat.lt_or_ge (k + 1) i with h5 | h5
      · exact Or.inr (hx5.u_hi i h5)
      · exact Or.inl (hx5.dfeas i j h1 h5 h3 h4)
    · exact hx5.v_np
  · -- the dual invariant after the augmentation
    refine ⟨?_, ?_, ?_, ?_, ?_, ?_, ?_⟩
    · -- dfeas
      intro r j h1 h2 h3 h4
      rw [hu2, hv2]
      exact hslInv.dfeas r j h1 h2 h3 h4
    · -- tight
      intro j h1 h2 hp
      rw [hu2, hv2]
      by_cases hon : ∃ t, t < Nat.find hreach ∧ sl.way^[t] sl.j0 = j
      · obtain ⟨t, htT, rfl⟩ := hon
        have h5 := hB2 t htT
        rw [hslInv.base.p_eq, Function.iterate_succ_apply'] at h5
        rw [h5]
        have h6 := hchain_tight t htT
        linarith
      · push_neg at hon
        have h5 := hA2 j (fun t ht => hon t ht)
        rw [h5, hslInv.base.p_eq]
        rw [h5, hslInv.base.p_eq] at hp
        exact hslInv.tight j h1 h2 hp
    · -- u_hi
      intro r hr
      rw [hu2]
      exact hslInv.u_hi r hr
    · -- v_un
      intro j h1 h2 hp
      rw [hv2]
      have hoff : ∀ t, t < Nat.find hreach → sl.way^[t] sl.j0 ≠ j := by
        intro t ht hc
        rw [← hc] at hp
        have h5 := hB2 t ht
        rw [hslInv.base.p_eq, Function.iterate_succ_apply'] at h5
        rw [h5] at hp
        rcases Nat.lt_or_ge (t + 1) (Nat.find hreach) with h6 | h6
        · have h7 := hchain_used (t + 1) (by omega) h6
          rw [Function.iterate_succ_apply'] at h7
          rcases hslInv.base.used_ok _ h7 with h8 | h8
          · rw [h8, hp00] at hp
            omega
          · rw [hslInv.base.p_eq] at h8
            exact h8.2.2 hp
        · have h7 : t + 1 = Nat.find hreach := by omega
          have h8 := hT0
          rw [← h7, Function.iterate_succ_apply'] at h8
          rw [h8, hp00] at hp
          omega
      have h5 := hA2 j hoff
      rw [h5, hslInv.base.p_eq] at hp
      have hjun : sl.used j = false := by
        cases hcase : sl.used j
        · rfl
        · rcases hslInv.base.used_ok j hcase with h6 | h6
          · omega
          · rw [hslInv.base.p_eq] at h6
            exact absurd hp h6.2.2
      rw [hslInv.v_frozen j h1 h2 hjun]
      exact hv0un j h1 h2 hp
    · -- v_np
      intro j h1 h2
      rw [hv2]
      exact hslInv.v_np j h1 h2
    · -- v_lo
      intro j h1 h2
      rw [hv2]
      have h5 := hslInv.v_track j h1 h2
      have h6 := hD.v_lo j h1 h2
      have hE : -(2 * A * ((k + 1 : ℕ) : ℚ)) = -(2 * A * (k : ℚ)) - 2 * A := by
        push_cast
        ring
      rw [hE]
      linarith
    · -- way0
      rw [hw2]
      exact hslInv.way0

/-- The outer loop under bounded costs: every iteration completes, the
matching and the dual invariant are maintained, every iteration takes at
most `N` relaxation passes, and weak feasibility holds at every recorded
state. -/
theorem runAux_dual {N : ℕ} {a : ℕ → ℕ → ℚ} {A : ℚ} (hb : Bounded N a A) :
    ∀ (cnt k : ℕ) (s : KMState), k + cnt ≤ N → MatchInv N k s → DualInv N a A k s →
    ∃ q, runAux N a (List.range' (k + 1) cnt) s = some q ∧
      MatchInv N (k + cnt) q.2 ∧ DualInv N a A (k + cnt) q.2 ∧
      q.1.length = cnt ∧
      ∀ tr ∈ q.1, tr.length ≤ N ∧ ∀ x ∈ tr, Feas2 N a x := by
  intro cnt
  induction cnt with
  | zero =>
    intro k s hkN hM hD
    refine ⟨([], s), by rw [List.range'_zero]; rfl, by simpa using hM,
      by simpa using hD, rfl, ?_⟩
    intro tr htr
    exact absurd htr (List.not_mem_nil tr)
  | succ cnt ih =>
    intro k s hkN hM hD
    obtain ⟨tr, s2, htr, haug, hlen, hfeas, hM2, hD2⟩ :=
      iteration_dual hb (by omega) hM hD
    obtain ⟨q, hq, hM3, hD3, hqlen, hqfeas⟩ := ih (k + 1) s2 (by omega) hM2 hD2
    rw [List.range'_succ, runAux, htr, Option.some_bind, haug, Option.some_bind,
      hq, Option.map_some']
    refine ⟨(tr :: q.1, q.2), rfl, ?_, ?_, ?_, ?_⟩
    · have he : k + (cnt + 1) = k + 1 + cnt := by omega
      rw [he]
      exact hM3
    · have he : k + (cnt + 1) = k + 1 + cnt := by omega
      rw [he]
      exact hD3
    · rw [List.length_cons, hqlen]
    · intro tr' htr'
      rcases List.mem_cons.mp htr' with rfl | htr''
      · exact ⟨hlen, hfeas⟩
      · exact hqfeas tr' htr''

/-! ### Duality and optimality on the padded square -/

theorem list_range_map_sum (n : ℕ) (f : ℕ → ℚ) :
    ((List.range n).map f).sum = ∑ j ∈ Finset.range n, f j := by
  induction n with
  | zero => simp
  | succ n ih =>
    rw [List.range_succ, List.map_append, List.sum_append, ih, Finset.sum_range_succ]
    simp

theorem list_range'_map_sum (N : ℕ) (f : ℕ → ℚ) :
    ((List.range' 1 N).map f).sum = ∑ j ∈ Finset.Icc 1 N, f j := by
  rw [List.range'_eq_map_range, List.map_map, list_range_map_sum,
    ← Nat.Ico_succ_right, Finset.sum_Ico_eq_sum_range, Nat.succ_sub_one]
  exact Finset.sum_congr rfl fun j _ => rfl

theorem sum_Icc_fin (nn : ℕ) (F : ℕ → ℚ) :
    ∑ j ∈ Finset.Icc 1 nn, F j = ∑ i : Fin nn, F (1 + (i : ℕ)) := by
  rw [← Nat.Ico_succ_right, Finset.sum_Ico_eq_sum_range, Nat.succ_sub_one,
    Fin.sum_univ_eq_sum_range (fun i => F (1 + i)) nn]

/-- Reindexing a sum of potentials along an injective self-map of the
columns. -/
theorem sum_inj_potential {N : ℕ} (u : ℕ → ℚ) (g : ℕ → ℕ)
    (hmaps : ∀ j, 1 ≤ j → j ≤ N → 1 ≤ g j ∧ g j ≤ N)
    (hinj : ∀ j j', 1 ≤ j → j ≤ N → 1 ≤ j' → j' ≤ N → g j = g j' → j = j') :
    ∑ j ∈ Finset.Icc 1 N, u (g j) = ∑ r ∈ Finset.Icc 1 N, u r := by
  apply Finset.sum_bij (fun j _ => g j)
  · intro j hj
    rw [Finset.mem_Icc] at hj ⊢
    exact hmaps j hj.1 hj.2
  · intro j1 hj1 j2 hj2 heq
    rw [Finset.mem_Icc] at hj1 hj2
    exact hinj j1 j2 hj1.1 hj1.2 hj2.1 hj2.2 heq
  · intro b hb
    obtain ⟨a1, ha1, hab⟩ := Finset.surj_on_of_inj_on_of_card_le
      (fun j (_ : j ∈ Finset.Icc 1 N) => g j)
      (fun j hj => by rw [Finset.mem_Icc] at hj ⊢; exact hmaps j hj.1 hj.2)
      (fun j1 j2 hj1 hj2 heq => by
        rw [Finset.mem_Icc] at hj1 hj2
        exact hinj j1 j2 hj1.1 hj1.2 hj2.1 hj2.2 heq)
      le_rfl b hb
    exact ⟨a1, ha1, hab.symm⟩
  · intro j hj
    rfl

/-- Linear programming duality at the final state: the matched total equals
the sum of the potentials, and no injective assignment of columns to rows
is cheaper. -/
theorem dual_optimal {N : ℕ} {a : ℕ → ℕ → ℚ} {A : ℚ} {s : KMState}
    (hM : MatchInv N N s) (hD : DualInv N a A N s) :
    ∀ g : ℕ → ℕ, (∀ j, 1 ≤ j → j ≤ N → 1 ≤ g j ∧ g j ≤ N) →
      (∀ j j', 1 ≤ j → j ≤ N → 1 ≤ j' → j' ≤ N → g j = g j' → j = j') →
      ∑ j ∈ Finset.Icc 1 N, a (s.p j) j ≤ ∑ j ∈ Finset.Icc 1 N, a (g j) j := by
  have hcomp := matchInv_complete hM
  intro g hg hginj
  have h1 : ∑ j ∈ Finset.Icc 1 N, a (s.p j) j =
      (∑ j ∈ Finset.Icc 1 N, s.u (s.p j)) + ∑ j ∈ Finset.Icc 1 N, s.v j := by
    rw [← Finset.sum_add_distrib]
    apply Finset.sum_congr rfl
    intro j hj
    rw [Finset.mem_Icc] at hj
    have h5 := hD.tight j hj.1 hj.2 (by have h6 := (hcomp j hj.1 hj.2).1; omega)
    linarith
  have h2 : ∑ j ∈ Finset.Icc 1 N, s.u (s.p j) = ∑ r ∈ Finset.Icc 1 N, s.u r :=
    sum_inj_potential s.u s.p hcomp
      (fun j j' a1 a2 a3 a4 heq => hM.p_inj j j' a1 a2 a3 a4
        (by have h6 := (hcomp j a1 a2).1; omega) heq)
  have h3 : ∑ j ∈ Finset.Icc 1 N, s.u (g j) = ∑ r ∈ Finset.Icc 1 N, s.u r :=
    sum_inj_potential s.u g hg hginj
  have h4 : (∑ j ∈ Finset.Icc 1 N, s.u (g j)) + ∑ j ∈ Finset.Icc 1 N, s.v j ≤
      ∑ j ∈ Finset.Icc 1 N, a (g j) j := by
    rw [← Finset.sum_add_distrib]
    apply Finset.sum_le_sum
    intro j hj
    rw [Finset.mem_Icc] at hj
    exact hD.dfeas (g j) j (hg j hj.1 hj.2).1 (hg j hj.1 hj.2).2 hj.1 hj.2
  linarith

/-- The boundedness hypothesis holds for the padded matrix of a cost matrix
whose entries have absolute value at most `PAD`, for square sizes up to
`10^6`. -/
theorem boundedPad {n m : ℤ} {cost : ℕ → ℕ → ℚ}
    (hn : 0 ≤ n) (hm : 0 ≤ m) (hsize : max n m ≤ 10 ^ 6)
    (hb : ∀ i j, i < n.toNat → j < m.toNat → |cost i j| ≤ PAD) :
    Bounded (max n m).toNat (padA n m cost) PAD := by
  refine ⟨by norm_num [PAD], ?_, ?_⟩
  · have h5 : (max n m).toNat ≤ 10 ^ 6 := by omega
    have hN : ((max n m).toNat : ℚ) ≤ 10 ^ 6 := by exact_mod_cast h5
    have hx0 : (0 : ℚ) ≤ ((max n m).toNat : ℚ) := by positivity
    have h6 := mul_le_mul_of_nonneg_left hN (by norm_num : (0 : ℚ) ≤ 2 * 10 ^ 9)
    rw [show PAD = (10 ^ 9 : ℚ) from rfl, show INF = (10 ^ 18 : ℚ) from rfl]
    nlinarith
  · intro i j h1 h2 h3 h4
    unfold padA
    split_ifs with hcond
    · apply hb
      · have h5 := hcond.2.2.1
        omega
      · have h5 := hcond.2.2.2
        omega
    · rw [abs_of_nonneg (by norm_num [PAD] : (0 : ℚ) ≤ PAD)]

/-- The matching invariant holds vacuously at the zero-initialized state. -/
theorem matchInv_init (N : ℕ) : MatchInv N 0 initState := by
  refine ⟨fun j => le_refl 0, ?_, ?_, fun j => Nat.zero_le _, fun j => Or.inl rfl⟩
  · intro j j' _ _ _ _ h5 _
    exact absurd rfl h5
  · intro r h1 h2
    omega

/-- The dual invariant holds at the zero-initialized state. -/
theorem dualInv_init (N : ℕ) (a : ℕ → ℕ → ℚ) (A : ℚ) : DualInv N a A 0 initState := by
  refine ⟨?_, ?_, ?_, ?_, ?_, ?_, rfl⟩
  · intro r j h1 h2
    omega
  · intro j h1 h2 hp
    exact absurd rfl hp
  · intro r _
    rfl
  · intro j _ _ _
    rfl
  · intro j _ _
    exact le_refl 0
  · intro j _ _
    show -(2 * A * ((0 : ℕ) : ℚ)) ≤ (0 : ℚ)
    norm_num

/-- The complete run of the solver under bounded costs: it returns, the
final matching is complete, the dual invariant holds at the end, there is
one inner trace per outer iteration, each of length at most `N`, and weak
feasibility holds at every recorded state. -/
theorem hungarian_bounded_run {n m : ℤ} {cost : ℕ → ℕ → ℚ}
    (hn : 0 ≤ n) (hm : 0 ≤ m) (hsize : max n m ≤ 10 ^ 6)
    (hb : ∀ i j, i < n.toNat → j < m.toNat → |cost i j| ≤ PAD) :
    ∃ q, hungarianRun n m cost = some q ∧
      MatchInv (max n m).toNat (max n m).toNat q.2 ∧
      DualInv (max n m).toNat (padA n m cost) PAD (max n m).toNat q.2 ∧
      q.1.length = (max n m).toNat ∧
      ∀ tr ∈ q.1, tr.length ≤ (max n m).toNat ∧
        ∀ x ∈ tr, Feas2 (max n m).toNat (padA n m cost) x := by
  have hB := boundedPad hn hm hsize hb
  obtain ⟨q, hq, hM, hD, hlen, hfeas⟩ :=
    runAux_dual hB (max n m).toNat 0 initState (by omega)
      (matchInv_init _) (dualInv_init _ _ _)
  refine ⟨q, ?_, by simpa using hM, by simpa using hD, hlen, hfeas⟩
  show runAux (max n m).toNat (padA n m cost)
    (List.range' 1 (max n m).toNat) initState = some q
  exact hq

/-! ### Optimality on square instances -/

/-- For a complete matching on a square instance, the returned total is the
sum of the padded costs of the matched edges. -/
theorem totalOf_eq_sum {n : ℤ} {cost : ℕ → ℕ → ℚ} {p : ℕ → ℕ}
    (hn : 1 ≤ n)
    (hc : ∀ j, 1 ≤ j → j ≤ n.toNat → 1 ≤ p j ∧ p j ≤ n.toNat) :
    totalOf n n cost n.toNat p = ∑ j ∈ Finset.Icc 1 n.toNat, padA n n cost (p j) j := by
  unfold totalOf
  rw [list_range'_map_sum]
  apply Finset.sum_congr rfl
  intro j hj
  rw [Finset.mem_Icc] at hj
  obtain ⟨hp1, hp2⟩ := hc j hj.1 hj.2
  rw [if_pos ⟨by omega, by omega, by omega⟩]
  unfold padA
  rw [if_pos ⟨by omega, by omega, by omega, by omega⟩]

theorem permExt_fin (nn : ℕ) (σ : Equiv.Perm (Fin nn)) (i : Fin nn) :
    permExt nn σ ((i : ℕ)) = ((σ i : ℕ)) := by
  unfold permExt
  rw [dif_pos i.isLt, Fin.eta]

/-- Squares: the solver returns, its total is the optimum over all perfect
matchings, and the assignment list is an optimal permutation. -/
theorem hungarian_square_core {n : ℤ} {cost : ℕ → ℕ → ℚ}
    (hn : 1 ≤ n) (hsize : n ≤ 10 ^ 6)
    (hb : ∀ i j, i < n.toNat → j < n.toNat → |cost i j| ≤ PAD) :
    ∃ r, hungarian n n cost = some r ∧ r.1 = minPermSum n.toNat cost ∧
      ∃ σ : Equiv.Perm (Fin n.toNat),
        permSum n.toNat cost σ = minPermSum n.toNat cost ∧
        r.2 = List.ofFn fun j => ((σ j : ℕ) : ℤ) := by
  have hmax : max n n = n := max_self n
  obtain ⟨q, hq, hM, hD, -, -⟩ :=
    @hungarian_bounded_run n n cost (by omega) (by omega)
      (by rw [hmax]; exact hsize) hb
  rw [hmax] at hM hD
  have hcomp := matchInv_complete hM
  have hr : hungarian n n cost = some
      (totalOf n n cost (max n n).toNat q.2.p, matchOf n n q.2.p) := by
    unfold hungarian
    rw [hq]
    rfl
  rw [hmax] at hr
  have htot := @totalOf_eq_sum n cost q.2.p hn hcomp
  have hsum1 : ∑ j ∈ Finset.Icc 1 n.toNat, padA n n cost (q.2.p j) j =
      ∑ j ∈ Finset.Icc 1 n.toNat, cost (q.2.p j - 1) (j - 1) := by
    apply Finset.sum_congr rfl
    intro j hj
    rw [Finset.mem_Icc] at hj
    obtain ⟨h1, h2⟩ := hcomp j hj.1 hj.2
    unfold padA
    rw [if_pos ⟨by omega, by omega, by omega, by omega⟩]
  have hbnd : ∀ j : Fin n.toNat, q.2.p ((j : ℕ) + 1) - 1 < n.toNat := by
    intro j
    have h5 := j.isLt
    have h6 := hcomp ((j : ℕ) + 1) (by omega) (by omega)
    omega
  have hfinj : Function.Injective
      (fun j : Fin n.toNat => (⟨q.2.p ((j : ℕ) + 1) - 1, hbnd j⟩ : Fin n.toNat)) := by
    intro j j' heq
    rw [Fin.mk.injEq] at heq
    have h5 := j.isLt
    have h5' := j'.isLt
    have h6 := hcomp ((j : ℕ) + 1) (by omega) (by omega)
    have h6' := hcomp ((j' : ℕ) + 1) (by omega) (by omega)
    have h7 : q.2.p ((j : ℕ) + 1) = q.2.p ((j' : ℕ) + 1) := by omega
    have h8 := hM.p_inj ((j : ℕ) + 1) ((j' : ℕ) + 1) (by omega) (by omega)
      (by omega) (by omega) (by omega) h7
    exact Fin.ext (by omega)
  set σ0 : Equiv.Perm (Fin n.toNat) :=
    Equiv.ofBijective _ (Finite.injective_iff_bijective.mp hfinj) with hσ0
  have hσ0app : ∀ j : Fin n.toNat, (σ0 j : ℕ) = q.2.p ((j : ℕ) + 1) - 1 := by
    intro j
    rw [hσ0]
    rfl
  have htotσ : totalOf n n cost n.toNat q.2.p = permSum n.toNat cost σ0 := by
    rw [htot, hsum1, sum_Icc_fin]
    unfold permSum
    apply Finset.sum_congr rfl
    intro i _
    rw [hσ0app i, Nat.add_comm 1 (i : ℕ), Nat.add_sub_cancel]
  have hpos : 0 < n.toNat := by omega
  have hge : ∀ τ : Equiv.Perm (Fin n.toNat),
      totalOf n n cost n.toNat q.2.p ≤ permSum n.toNat cost τ := by
    intro τ
    set g : ℕ → ℕ :=
      fun j => (τ ⟨(j - 1) % n.toNat, Nat.mod_lt _ hpos⟩ : ℕ) + 1 with hgdef
    have hg : ∀ j, 1 ≤ j → j ≤ n.toNat → 1 ≤ g j ∧ g j ≤ n.toNat := by
      intro j h1 h2
      have h5 := (τ ⟨(j - 1) % n.toNat, Nat.mod_lt _ hpos⟩).isLt
      simp only [hgdef]
      omega
    have hginj : ∀ j j', 1 ≤ j → j ≤ n.toNat → 1 ≤ j' → j' ≤ n.toNat →
        g j = g j' → j = j' := by
      intro j j' h1 h2 h3 h4 heq
      simp only [hgdef] at heq
      have h5 : (τ ⟨(j - 1) % n.toNat, Nat.mod_lt _ hpos⟩ : ℕ) =
          (τ ⟨(j' - 1) % n.toNat, Nat.mod_lt _ hpos⟩ : ℕ) := by omega
      have h6 := τ.injective (Fin.ext h5)
      rw [Fin.mk.injEq, Nat.mod_eq_of_lt (by omega), Nat.mod_eq_of_lt (by omega)] at h6
      omega
    have h9 : ∑ j ∈ Finset.Icc 1 n.toNat, padA n n cost (g j) j =
        permSum n.toNat cost τ := by
      have h10 : ∀ j ∈ Finset.Icc 1 n.toNat,
          padA n n cost (g j) j = cost (g j - 1) (j - 1) := by
        intro j hj
        rw [Finset.mem_Icc] at hj
        obtain ⟨h11, h12⟩ := hg j hj.1 hj.2
        unfold padA
        rw [if_pos ⟨by omega, by omega, by omega, by omega⟩]
      rw [Finset.sum_congr rfl h10, sum_Icc_fin]
      unfold permSum
      apply Finset.sum_congr rfl
      intro i _
      have h11 : g (1 + (i : ℕ)) = (τ i : ℕ) + 1 := by
        simp only [hgdef]
        have h12 : (1 + (i : ℕ) - 1) % n.toNat = (i : ℕ) := by
          rw [Nat.add_comm, Nat.add_sub_cancel, Nat.mod_eq_of_lt i.isLt]
        have h13 : (⟨(1 + (i : ℕ) - 1) % n.toNat, Nat.mod_lt _ hpos⟩ : Fin n.toNat) = i :=
          Fin.ext h12
        rw [h13]
      rw [h11, Nat.add_sub_cancel, Nat.add_comm 1 (i : ℕ), Nat.add_sub_cancel]
    have h14 := dual_optimal hM hD g hg hginj
    rw [htot]
    rw [h9] at h14
    exact h14
  have hminle : minPermSum n.toNat cost ≤ totalOf n n cost n.toNat q.2.p := by
    rw [htotσ]
    exact Finset.inf'_le _ (Finset.mem_univ σ0)
  have hlemin : totalOf n n cost n.toNat q.2.p ≤ minPermSum n.toNat cost := by
    apply Finset.le_inf'
    intro τ _
    exact hge τ
  have htoteq : totalOf n n cost n.toNat q.2.p = minPermSum n.toNat cost :=
    le_antisymm hlemin hminle
  refine ⟨_, hr, htoteq, σ0, by rw [← htotσ]; exact htoteq, ?_⟩
  apply List.ext_getElem
  · rw [matchOf_length, List.length_ofFn]
  · intro i h1 h2
    have hi : i < n.toNat := by
      rw [matchOf_length] at h1
      exact h1
    rw [List.getElem_ofFn]
    unfold matchOf
    rw [List.getElem_map, List.getElem_range]
    obtain ⟨h5, h6⟩ := hcomp (i + 1) (by omega) (by omega)
    rw [if_pos ⟨by omega, by omega⟩]
    rw [hσ0app]
    simp only [Fin.val_mk]
    omega

/-- Cost of a matching after relabeling rows and columns. -/
theorem permSum_permute (nn : ℕ) (cost : ℕ → ℕ → ℚ) (σ τ ρ : Equiv.Perm (Fin nn)) :
    permSum nn (permuteMat (permExt nn σ) (permExt nn τ) cost) ρ =
      permSum nn cost ((τ.symm.trans ρ).trans σ) := by
  unfold permSum permuteMat
  have h1 : ∀ j : Fin nn,
      cost (permExt nn σ ((ρ j : ℕ))) (permExt nn τ ((j : ℕ))) =
        cost ((σ (ρ j) : ℕ)) ((τ j : ℕ)) := by
    intro j
    rw [permExt_fin, permExt_fin]
  rw [Finset.sum_congr rfl fun j _ => h1 j]
  have h2 := Equiv.sum_comp τ
    (fun j' : Fin nn => cost ((σ (ρ (τ.symm j')) : ℕ)) ((j' : ℕ)))
  simp only [Equiv.symm_apply_apply] at h2
  simp only [Equiv.trans_apply]
  exact h2

/-- The optimum over perfect matchings is invariant under relabeling. -/
theorem minPermSum_permute (nn : ℕ) (cost : ℕ → ℕ → ℚ) (σ τ : Equiv.Perm (Fin nn)) :
    minPermSum nn (permuteMat (permExt nn σ) (permExt nn τ) cost) =
      minPermSum nn cost := by
  apply le_antisymm
  · apply Finset.le_inf'
    intro ρ _
    have h1 := permSum_permute nn cost σ τ ((τ.trans ρ).trans σ.symm)
    have h2 : ((τ.symm.trans ((τ.trans ρ).trans σ.symm)).trans σ) = ρ := by
      ext x
      simp [Equiv.trans_apply]
    rw [h2] at h1
    calc minPermSum nn (permuteMat (permExt nn σ) (permExt nn τ) cost) ≤
        permSum nn (permuteMat (permExt nn σ) (permExt nn τ) cost)
          ((τ.trans ρ).trans σ.symm) := Finset.inf'_le _ (Finset.mem_univ _)
      _ = permSum nn cost ρ := h1
  · apply Finset.le_inf'
    intro ρ _
    rw [permSum_permute]
    exact Finset.inf'_le _ (Finset.mem_univ _)

/-! ### Relabeling of the padded square -/

theorem permPad_low (nn : ℕ) (σ : Equiv.Perm (Fin nn)) (i : ℕ)
    (h : 1 ≤ i ∧ i ≤ nn) :
    permPad nn σ i = (σ ⟨i - 1, by omega⟩ : ℕ) + 1 := by
  unfold permPad
  rw [dif_pos h]

theorem permPad_range (nn : ℕ) (σ : Equiv.Perm (Fin nn)) (i : ℕ) :
    (1 ≤ i ∧ i ≤ nn → 1 ≤ permPad nn σ i ∧ permPad nn σ i ≤ nn) ∧
      (¬(1 ≤ i ∧ i ≤ nn) → permPad nn σ i = i) := by
  constructor
  · intro h
    rw [permPad_low nn σ i h]
    have h2 := (σ ⟨i - 1, by omega⟩).isLt
    omega
  · intro h
    unfold permPad
    rw [dif_neg h]

theorem permPad_mem {nn N : ℕ} (hle : nn ≤ N) (σ : Equiv.Perm (Fin nn)) (i : ℕ)
    (h1 : 1 ≤ i) (h2 : i ≤ N) : 1 ≤ permPad nn σ i ∧ permPad nn σ i ≤ N := by
  by_cases h : 1 ≤ i ∧ i ≤ nn
  · have h3 := (permPad_range nn σ i).1 h
    omega
  · rw [(permPad_range nn σ i).2 h]
    omega

theorem permPad_leftInv (nn : ℕ) (σ : Equiv.Perm (Fin nn)) (i : ℕ) :
    permPad nn σ.symm (permPad nn σ i) = i := by
  by_cases h : 1 ≤ i ∧ i ≤ nn
  · have h1 : i - 1 < nn := by omega
    have h2 := (σ ⟨i - 1, h1⟩).isLt
    have h3 : permPad nn σ i = (σ ⟨i - 1, h1⟩ : ℕ) + 1 := permPad_low nn σ i h
    rw [h3, permPad_low nn σ.symm _ (by omega)]
    have h6 : (⟨(σ ⟨i - 1, h1⟩ : ℕ) + 1 - 1, by omega⟩ : Fin nn) = σ ⟨i - 1, h1⟩ :=
      Fin.ext (by simp)
    rw [h6, Equiv.symm_apply_apply]
    show i - 1 + 1 = i
    omega
  · rw [(permPad_range nn σ i).2 h, (permPad_range nn σ.symm i).2 h]

theorem permPad_injective (nn : ℕ) (σ : Equiv.Perm (Fin nn)) {i i' : ℕ}
    (h : permPad nn σ i = permPad nn σ i') : i = i' := by
  have h1 := permPad_leftInv nn σ i
  have h2 := permPad_leftInv nn σ i'
  rw [← h1, ← h2, h]

theorem sum_permPad_reindex {nn N : ℕ} (hle : nn ≤ N) (τ : Equiv.Perm (Fin nn))
    (F : ℕ → ℚ) :
    ∑ j ∈ Finset.Icc 1 N, F (permPad nn τ j) = ∑ j ∈ Finset.Icc 1 N, F j := by
  refine Finset.sum_nbij' (permPad nn τ) (permPad nn τ.symm) ?_ ?_ ?_ ?_ ?_
  · intro a ha
    rw [Finset.mem_Icc] at ha ⊢
    exact permPad_mem hle τ a ha.1 ha.2
  · intro a ha
    rw [Finset.mem_Icc] at ha ⊢
    exact permPad_mem hle τ.symm a ha.1 ha.2
  · intro a _
    exact permPad_leftInv nn τ a
  · intro a _
    have h1 := permPad_leftInv nn τ.symm a
    rwa [Equiv.symm_symm] at h1
  · intro a _
    rfl

/-- Relabeling the real rows and columns of `cost` relabels the padded
matrix by the induced permutations of the padded indices, which fix the
virtual index `0` and the padding rows and columns. -/
theorem padA_permute (n m : ℤ) (cost : ℕ → ℕ → ℚ)
    (σ : Equiv.Perm (Fin n.toNat)) (τ : Equiv.Perm (Fin m.toNat)) (i j : ℕ) :
    padA n m (permuteMat (permExt n.toNat σ) (permExt m.toNat τ) cost) i j =
      padA n m cost (permPad n.toNat σ i) (permPad m.toNat τ j) := by
  by_cases hc : 0 < i ∧ 0 < j ∧ (i : ℤ) ≤ n ∧ (j : ℤ) ≤ m
  · obtain ⟨h1, h2, h3, h4⟩ := hc
    have hi : 1 ≤ i ∧ i ≤ n.toNat := by omega
    have hj : 1 ≤ j ∧ j ≤ m.toNat := by omega
    have hi1 : i - 1 < n.toNat := by omega
    have hj1 : j - 1 < m.toNat := by omega
    have h5 := (σ ⟨i - 1, hi1⟩).isLt
    have h6 := (τ ⟨j - 1, hj1⟩).isLt
    rw [permPad_low n.toNat σ i hi, permPad_low m.toNat τ j hj]
    have hL : padA n m (permuteMat (permExt n.toNat σ) (permExt m.toNat τ) cost) i j =
        cost (permExt n.toNat σ (i - 1)) (permExt m.toNat τ (j - 1)) := by
      unfold padA
      rw [if_pos ⟨h1, h2, h3, h4⟩]
      rfl
    have hR : padA n m cost ((σ ⟨i - 1, hi1⟩ : ℕ) + 1) ((τ ⟨j - 1, hj1⟩ : ℕ) + 1) =
        cost ((σ ⟨i - 1, hi1⟩ : ℕ) + 1 - 1) ((τ ⟨j - 1, hj1⟩ : ℕ) + 1 - 1) := by
      unfold padA
      split_ifs with h7
      · rfl
      · exfalso
        exact h7 ⟨by omega, by omega, by omega, by omega⟩
    rw [hL, hR]
    unfold permExt
    rw [dif_pos hi1, dif_pos hj1]
    simp
  · have hiff1 : (0 < permPad n.toNat σ i ∧ (permPad n.toNat σ i : ℤ) ≤ n) ↔
        (0 < i ∧ (i : ℤ) ≤ n) := by
      by_cases hi : 1 ≤ i ∧ i ≤ n.toNat
      · have h5 := (permPad_range n.toNat σ i).1 hi
        constructor
        · intro h6
          omega
        · intro h6
          omega
      · rw [(permPad_range n.toNat σ i).2 hi]
    have hiff2 : (0 < permPad m.toNat τ j ∧ (permPad m.toNat τ j : ℤ) ≤ m) ↔
        (0 < j ∧ (j : ℤ) ≤ m) := by
      by_cases hj : 1 ≤ j ∧ j ≤ m.toNat
      · have h5 := (permPad_range m.toNat τ j).1 hj
        constructor
        · intro h6
          omega
        · intro h6
          omega
      · rw [(permPad_range m.toNat τ j).2 hj]
    have hc2 : ¬(0 < permPad n.toNat σ i ∧ 0 < permPad m.toNat τ j ∧
        (permPad n.toNat σ i : ℤ) ≤ n ∧ (permPad m.toNat τ j : ℤ) ≤ m) := by
      intro h5
      apply hc
      obtain ⟨h6, h7, h8, h9⟩ := h5
      obtain ⟨ha, hb2⟩ := hiff1.mp ⟨h6, h8⟩
      obtain ⟨hc3, hd⟩ := hiff2.mp ⟨h7, h9⟩
      exact ⟨ha, hc3, hb2, hd⟩
    unfold padA
    rw [if_neg hc, if_neg hc2]

/-- A complete matching of the padded square selects exactly `min(n,m)`
real cells: with `N = max(n,m)`, one of the two realness constraints is
vacuous and the other pins the count to the smaller dimension. -/
theorem real_cell_count {n m : ℤ} {p : ℕ → ℕ}
    (hn : 0 ≤ n) (hm : 0 ≤ m)
    (hcomp : ∀ j, 1 ≤ j → j ≤ (max n m).toNat →
      1 ≤ p j ∧ p j ≤ (max n m).toNat)
    (hinj : ∀ j j', 1 ≤ j → j ≤ (max n m).toNat → 1 ≤ j' →
      j' ≤ (max n m).toNat → p j = p j' → j = j')
    (hsurj : ∀ r, 1 ≤ r → r ≤ (max n m).toNat →
      ∃ j, 1 ≤ j ∧ j ≤ (max n m).toNat ∧ p j = r) :
    ((Finset.Icc 1 (max n m).toNat).filter
      (fun j => 0 < p j ∧ (p j : ℤ) ≤ n ∧ (j : ℤ) ≤ m)).card = (min n m).toNat := by
  rcases le_total n m with hnm | hnm
  · have himg : ((Finset.Icc 1 (max n m).toNat).filter
        (fun j => 0 < p j ∧ (p j : ℤ) ≤ n ∧ (j : ℤ) ≤ m)).image p =
        Finset.Icc 1 n.toNat := by
      apply Finset.ext
      intro r
      simp only [Finset.mem_image, Finset.mem_filter, Finset.mem_Icc]
      constructor
      · rintro ⟨j, ⟨⟨hj1, hj2⟩, h0, hpn, -⟩, rfl⟩
        omega
      · rintro ⟨hr1, hr2⟩
        obtain ⟨j, hj1, hj2, rfl⟩ := hsurj r hr1 (by omega)
        exact ⟨j, ⟨⟨hj1, hj2⟩, by omega, by omega, by omega⟩, rfl⟩
    have hcard : (((Finset.Icc 1 (max n m).toNat).filter
        (fun j => 0 < p j ∧ (p j : ℤ) ≤ n ∧ (j : ℤ) ≤ m)).image p).card =
        ((Finset.Icc 1 (max n m).toNat).filter
        (fun j => 0 < p j ∧ (p j : ℤ) ≤ n ∧ (j : ℤ) ≤ m)).card := by
      apply Finset.card_image_of_injOn
      intro x hx y hy hxy
      simp only [Finset.coe_filter, Set.mem_setOf_eq, Finset.mem_Icc] at hx hy
      exact hinj x y hx.1.1 hx.1.2 hy.1.1 hy.1.2 hxy
    rw [himg, Nat.card_Icc] at hcard
    omega
  · have hset : (Finset.Icc 1 (max n m).toNat).filter
        (fun j => 0 < p j ∧ (p j : ℤ) ≤ n ∧ (j : ℤ) ≤ m) =
        Finset.Icc 1 m.toNat := by
      apply Finset.ext
      intro j
      simp only [Finset.mem_filter, Finset.mem_Icc]
      constructor
      · rintro ⟨⟨h1, h2⟩, -, -, h3⟩
        omega
      · intro h
        have h4 := hcomp j h.1 (by omega)
        exact ⟨⟨h.1, by omega⟩, by omega, by omega, by omega⟩
    rw [hset, Nat.card_Icc]
    omega

/-- For a complete matching, the padded-square matched sum exceeds the
returned total by exactly `(max(n,m) - min(n,m)) * PAD`: the padded cells
selected are always exactly the excess. -/
theorem paddedSum_eq {n m : ℤ} {cost : ℕ → ℕ → ℚ} {p : ℕ → ℕ}
    (hn : 0 ≤ n) (hm : 0 ≤ m)
    (hcomp : ∀ j, 1 ≤ j → j ≤ (max n m).toNat →
      1 ≤ p j ∧ p j ≤ (max n m).toNat)
    (hinj : ∀ j j', 1 ≤ j → j ≤ (max n m).toNat → 1 ≤ j' →
      j' ≤ (max n m).toNat → p j = p j' → j = j')
    (hsurj : ∀ r, 1 ≤ r → r ≤ (max n m).toNat →
      ∃ j, 1 ≤ j ∧ j ≤ (max n m).toNat ∧ p j = r) :
    ∑ j ∈ Finset.Icc 1 (max n m).toNat, padA n m cost (p j) j =
      totalOf n m cost (max n m).toNat p +
        (((max n m).toNat - (min n m).toNat : ℕ) : ℚ) * PAD := by
  have htot : totalOf n m cost (max n m).toNat p =
      ∑ j ∈ Finset.Icc 1 (max n m).toNat,
        (if 0 < p j ∧ (p j : ℤ) ≤ n ∧ (j : ℤ) ≤ m then cost (p j - 1) (j - 1)
          else 0) := by
    unfold totalOf
    rw [list_range'_map_sum]
  have hsplit : ∀ j ∈ Finset.Icc 1 (max n m).toNat,
      padA n m cost (p j) j =
        (if 0 < p j ∧ (p j : ℤ) ≤ n ∧ (j : ℤ) ≤ m then cost (p j - 1) (j - 1)
          else 0) +
        (if 0 < p j ∧ (p j : ℤ) ≤ n ∧ (j : ℤ) ≤ m then 0 else PAD) := by
    intro j hj
    rw [Finset.mem_Icc] at hj
    by_cases hcnd : 0 < p j ∧ (p j : ℤ) ≤ n ∧ (j : ℤ) ≤ m
    · rw [if_pos hcnd, if_pos hcnd, add_zero]
      unfold padA
      rw [if_pos ⟨hcnd.1, by omega, hcnd.2.1, hcnd.2.2⟩]
    · rw [if_neg hcnd, if_neg hcnd, zero_add]
      unfold padA
      rw [if_neg]
      intro h5
      exact hcnd ⟨h5.1, h5.2.2.1, h5.2.2.2⟩
  rw [Finset.sum_congr rfl hsplit, Finset.sum_add_distrib, ← htot]
  congr 1
  rw [Finset.sum_ite, Finset.sum_const_zero, Finset.sum_const, zero_add,
    nsmul_eq_mul]
  congr 1
  have hcnt := real_cell_count hn hm hcomp hinj hsurj
  have htotalcard := Finset.filter_card_add_filter_neg_card_eq_card
    (s := Finset.Icc 1 (max n m).toNat)
    (fun j => 0 < p j ∧ (p j : ℤ) ≤ n ∧ (j : ℤ) ≤ m)
  rw [Nat.card_Icc, hcnt] at htotalcard
  have h7 : ((Finset.Icc 1 (max n m).toNat).filter
      (fun j => ¬(0 < p j ∧ (p j : ℤ) ≤ n ∧ (j : ℤ) ≤ m))).card =
      (max n m).toNat - (min n m).toNat := by omega
  rw [h7]

/-! ### The degenerate inputs: a constant padded matrix -/

theorem update_used_iff (used : ℕ → Bool) (j0 x : ℕ) :
    (Function.update used j0 true x = true ↔ (x = j0 ∨ used x = true)) ∧
    (Function.update used j0 true x = false ↔ (x ≠ j0 ∧ used x = false)) := by
  rcases eq_or_ne x j0 with rfl | h
  · simp
  · simp [Function.update_noteq h, h]

theorem padA_degenerate {n m : ℤ} (cost : ℕ → ℕ → ℚ) (h : n ≤ 0 ∨ m ≤ 0) :
    ∀ i j, padA n m cost i j = PAD := by
  intro i j
  unfold padA
  rw [if_neg]
  rintro ⟨h1, h2, h3, h4⟩
  rcases h with h | h <;> omega

theorem totalOf_degenerate {n m : ℤ} (cost : ℕ → ℕ → ℚ) (N : ℕ) (p : ℕ → ℕ)
    (h : n ≤ 0 ∨ m ≤ 0) : totalOf n m cost N p = 0 := by
  unfold totalOf
  apply List.sum_eq_zero
  intro x hx
  rw [List.mem_map] at hx
  obtain ⟨j, hj, rfl⟩ := hx
  rw [List.mem_range'_1] at hj
  rw [if_neg]
  rintro ⟨h1, h2, h3⟩
  rcases h with h | h <;> omega

theorem matchOf_zero_n (m : ℤ) (p : ℕ → ℕ) :
    matchOf 0 m p = List.replicate m.toNat (-1) := by
  unfold matchOf
  apply List.eq_replicate_iff.mpr
  constructor
  · simp
  · intro b hb
    rw [List.mem_map] at hb
    obtain ⟨j, hj, rfl⟩ := hb
    rw [if_neg]
    rintro ⟨h2, h3⟩
    omega

/-- The first pass of an outer iteration on the constant-`PAD` matrix. -/
theorem pass_establish_pad {N k : ℕ} {a : ℕ → ℕ → ℚ} {s : KMState}
    (hconst : ∀ i j, a i j = PAD) (hkN : k < N)
    (hM : MatchInv N k s) (hP : PadProf k s) :
    PadInner N k (Function.update s.p 0 (k + 1)) (pass N a (resetFor (k + 1) s)) ∧
    unmatchedUnused N (Function.update s.p 0 (k + 1))
      (pass N a (resetFor (k + 1) s)) ≤ k := by
  have e_u : (resetFor (k + 1) s).u = s.u := rfl
  have e_v : (resetFor (k + 1) s).v = s.v := rfl
  have e_p : (resetFor (k + 1) s).p = Function.update s.p 0 (k + 1) := rfl
  have e_w : (resetFor (k + 1) s).way = s.way := rfl
  have e_m : (resetFor (k + 1) s).minv = fun _ => INF := rfl
  have e_us : (resetFor (k + 1) s).used = fun _ => false := rfl
  have e_j0 : (resetFor (k + 1) s).j0 = 0 := rfl
  have e_way : (pass N a (resetFor (k + 1) s)).way =
      (scanOf N a (resetFor (k + 1) s)).way := rfl
  have e_j1 : (pass N a (resetFor (k + 1) s)).j0 =
      (scanOf N a (resetFor (k + 1) s)).j1 := rfl
  have e_used1 : (pass N a (resetFor (k + 1) s)).used =
      Function.update (fun _ : ℕ => false) 0 true := rfl
  have husedT := fun x => (update_used_iff (fun _ => false) 0 x).1
  have husedF := fun x => (update_used_iff (fun _ => false) 0 x).2
  have halias0 : ∀ j j', j ≤ N → j' ≤ N →
      Function.update (resetFor (k + 1) s).used (resetFor (k + 1) s).j0 true j = true →
      Function.update (resetFor (k + 1) s).used (resetFor (k + 1) s).j0 true j' = true →
      (resetFor (k + 1) s).p j = (resetFor (k + 1) s).p j' → j = j' := by
    intro j j' _ _ hju hj'u _
    rw [e_us, e_j0] at hju hj'u
    rcases (husedT j).mp hju with h | h
    · rcases (husedT j').mp hj'u with h' | h'
      · rw [h, h']
      · exact absurd h' (by simp)
    · exact absurd h (by simp)
  obtain ⟨hc1, hc2, hc3, hc4, hc5, hc6, hc7, hc8⟩ :=
    pass_char N a (resetFor (k + 1) s) halias0
  simp only [e_u, e_v, e_p, e_w, e_m, e_us, e_j0, Function.update_same]
    at hc1 hc2 hc3 hc4 hc5 hc6 hc7 hc8
  have hNge1 : 1 ≤ N := by omega
  have hu0 : s.u (k + 1) = 0 := hP.u_hi (k + 1) (by omega)
  have hPADINF : PAD < INF := by norm_num [PAD, INF]
  have hcur : ∀ j, 1 ≤ j → a (k + 1) j - s.u (k + 1) - s.v j = PAD := by
    intro j h1
    rw [hconst, hu0, hP.v_real j h1]
    ring
  have hscan : ∀ j, 1 ≤ j → j ≤ N →
      (scanOf N a (resetFor (k + 1) s)).minv j = PAD ∧
      (scanOf N a (resetFor (k + 1) s)).way j = 0 := by
    intro j h1 h2
    rcases hc3 j h1 h2 ((husedF j).mpr ⟨by omega, rfl⟩) with ⟨-, hm, hw⟩ | ⟨hge, -, -⟩
    · exact ⟨hm.trans (hcur j h1), hw⟩
    · rw [hcur j h1] at hge
      linarith
  rcases hc4 with ⟨hdINF, -, hmin⟩ | ⟨hj1ge, hj1le, hj1un, hdeq, hdlt, hdmin⟩
  · exfalso
    have h5 := hmin 1 le_rfl hNge1 ((husedF 1).mpr ⟨by omega, rfl⟩)
    rw [(hscan 1 le_rfl hNge1).1] at h5
    linarith
  have hδ : (scanOf N a (resetFor (k + 1) s)).delta = PAD := by
    rw [hdeq, (hscan _ hj1ge hj1le).1]
  have huk1 : (pass N a (resetFor (k + 1) s)).u (k + 1) =
      s.u (k + 1) + (scanOf N a (resetFor (k + 1) s)).delta := by
    have h5 := (hc6 0 (Nat.zero_le N) ((husedT 0).mpr (Or.inl rfl))).1
    rw [Function.update_same] at h5
    exact h5
  have hur : ∀ r, r ≠ k + 1 → (pass N a (resetFor (k + 1) s)).u r = s.u r := by
    intro r hr
    rcases hc5 r with h5 | ⟨j, hjN, hju, hpj, h5⟩
    · exact h5
    · exfalso
      rcases (husedT j).mp hju with h6 | h6
      · rw [h6, Function.update_same] at hpj
        exact hr hpj.symm
      · exact absurd h6 (by simp)
  have hvm : ∀ j, 1 ≤ j → j ≤ N →
      (pass N a (resetFor (k + 1) s)).v j = s.v j ∧
      (pass N a (resetFor (k + 1) s)).minv j =
        (scanOf N a (resetFor (k + 1) s)).minv j -
          (scanOf N a (resetFor (k + 1) s)).delta :=
    fun j h1 h2 => hc7 j h2 ((husedF j).mpr ⟨by omega, rfl⟩)
  have hstruct0 : StructInv N (Function.update s.p 0 (k + 1)) (resetFor (k + 1) s) := by
    refine ⟨rfl, ?_, hM.way_le, ?_, Nat.zero_le N⟩
    · intro j hj
      rw [e_us] at hj
      exact absurd hj (by simp)
    · intro j
      rw [e_w, e_p]
      rcases hM.way_matched j with h0 | h0
      · exact Or.inl h0
      · right
        rcases Nat.eq_zero_or_pos (s.way j) with hz | hz
        · rw [hz, Function.update_same]
          omega
        · rw [Function.update_noteq (by omega)]
          exact h0
  constructor
  · refine ⟨pass_struct hstruct0 (Or.inl e_j0), ?_, ?_, ?_, ?_, ?_, ?_, ?_⟩
    · -- used0
      rw [e_used1]
      exact (husedT 0).mpr (Or.inl rfl)
    · -- u_lo
      intro r h1 h2
      rcases eq_or_ne r (k + 1) with rfl | hne
      · rw [huk1, hu0, hδ]
        ring
      · rw [hur r hne]
        exact hP.u_lo r h1 (by omega)
    · -- u_hi
      intro r hr
      rw [hur r (by omega)]
      exact hP.u_hi r (by omega)
    · -- v_real
      intro j h1
      rcases Nat.lt_or_ge N j with h2 | h2
      · rw [(hc8 j h2).1]
        exact hP.v_real j h1
      · rw [(hvm j h1 h2).1]
        exact hP.v_real j h1
    · -- way_all
      intro j
      rw [e_way]
      rcases Nat.eq_zero_or_pos j with rfl | h1
      · rw [(hc1 0 (Or.inl Nat.one_pos)).2]
        exact hP.way_all 0
      · rcases Nat.lt_or_ge N j with h2 | h2
        · rw [(hc1 j (Or.inr h2)).2]
          exact hP.way_all j
        · exact (hscan j h1 h2).2
    · -- minv0
      intro j h1 h2 _
      rw [(hvm j h1 h2).2, (hscan j h1 h2).1, hδ]
      ring
    · -- j0_mem
      rw [e_j1]
      refine ⟨hj1ge, hj1le, ?_⟩
      rw [e_used1]
      exact hj1un
  · unfold unmatchedUnused
    refine le_trans (Finset.card_le_card ?_) (matched_card_le hM)
    intro j hj
    rw [Finset.mem_filter] at hj ⊢
    rcases hj with ⟨hjm, hjp, -⟩
    have hjm' := hjm
    rw [Finset.mem_Icc] at hjm'
    refine ⟨hjm, ?_⟩
    rw [Function.update_noteq (by omega : j ≠ 0)] at hjp
    exact hjp

/-- Later passes of an outer iteration on the constant-`PAD` matrix have
delta zero and change nothing but the marked set and the frontier. -/
theorem pass_preserve_pad {N k : ℕ} {a : ℕ → ℕ → ℚ} {p0 : ℕ → ℕ} {s : KMState}
    (hconst : ∀ i j, a i j = PAD)
    (hp00 : p0 0 = k + 1)
    (hple : ∀ j, 1 ≤ j → p0 j ≤ k)
    (hpinj : ∀ j j', 1 ≤ j → j ≤ N → 1 ≤ j' → j' ≤ N → p0 j ≠ 0 → p0 j = p0 j' → j = j')
    (hunm : ∃ jh, 1 ≤ jh ∧ jh ≤ N ∧ p0 jh = 0)
    (hs : PadInner N k p0 s)
    (hcont : p0 s.j0 ≠ 0) :
    PadInner N k p0 (pass N a s) ∧
      unmatchedUnused N p0 (pass N a s) < unmatchedUnused N p0 s := by
  obtain ⟨hj01, hj0N, hj0un⟩ := hs.j0_mem
  have hpe : s.p = p0 := hs.base.p_eq
  have hr0le : p0 s.j0 ≤ k := hple s.j0 hj01
  have hused_ok : ∀ j, s.used j = true → j = 0 ∨ (1 ≤ j ∧ j ≤ N ∧ p0 j ≠ 0) := by
    intro j hj
    rcases hs.base.used_ok j hj with h | h
    · exact Or.inl h
    · refine Or.inr ⟨h.1, h.2.1, ?_⟩
      have h5 := h.2.2
      rw [hpe] at h5
      exact h5
  have e_way : (pass N a s).way = (scanOf N a s).way := rfl
  have e_j1 : (pass N a s).j0 = (scanOf N a s).j1 := rfl
  have e_used1 : (pass N a s).used = Function.update s.used s.j0 true := rfl
  have husedT' := fun x => (update_used_iff s.used s.j0 x).1
  have husedF' := fun x => (update_used_iff s.used s.j0 x).2
  have halias : ∀ j j', j ≤ N → j' ≤ N →
      Function.update s.used s.j0 true j = true →
      Function.update s.used s.j0 true j' = true → s.p j = s.p j' → j = j' := by
    intro j j' hjN hj'N hju hj'u heq
    rw [hpe] at heq
    have hfact : ∀ x, (x = s.j0 ∨ s.used x = true) → x = 0 ∨ (1 ≤ x ∧ p0 x ≠ 0) := by
      intro x hx
      rcases hx with rfl | hx
      · exact Or.inr ⟨hj01, hcont⟩
      · rcases hused_ok x hx with h | h
        · exact Or.inl h
        · exact Or.inr ⟨h.1, h.2.2⟩
    rcases hfact j ((husedT' j).mp hju) with rfl | ⟨hj1, hjp⟩
    · rcases hfact j' ((husedT' j').mp hj'u) with rfl | ⟨hj'1, hj'p⟩
      · rfl
      · exfalso
        rw [hp00] at heq
        have h5 := hple j' hj'1
        omega
    · rcases hfact j' ((husedT' j').mp hj'u) with rfl | ⟨hj'1, hj'p⟩
      · exfalso
        rw [hp00] at heq
        have h5 := hple j hj1
        omega
      · exact hpinj j j' hj1 hjN hj'1 hj'N hjp heq
  obtain ⟨hc1, hc2, hc3, hc4, hc5, hc6, hc7, hc8⟩ := pass_char N a s halias
  simp only [hpe] at hc1 hc2 hc3 hc4 hc5 hc6 hc7 hc8
  have hcur : ∀ j, 1 ≤ j → a (p0 s.j0) j - s.u (p0 s.j0) - s.v j = 0 := by
    intro j h1
    rw [hconst, hs.u_lo (p0 s.j0) (by omega) (by omega), hs.v_real j h1]
    ring
  have hscan : ∀ j, 1 ≤ j → j ≤ N → Function.update s.used s.j0 true j = false →
      (scanOf N a s).minv j = s.minv j ∧ (scanOf N a s).way j = s.way j := by
    intro j h1 h2 h3
    rcases hc3 j h1 h2 h3 with ⟨hlt, -, -⟩ | ⟨-, hm, hw⟩
    · exfalso
      rw [hcur j h1, hs.minv0 j h1 h2 ((husedF' j).mp h3).2] at hlt
      linarith
    · exact ⟨hm, hw⟩
  obtain ⟨jh, hjh1, hjhN, hjhp⟩ := hunm
  have hjh_unused : s.used jh = false := by
    cases hcase : s.used jh
    · rfl
    · rcases hused_ok jh hcase with h | h
      · omega
      · exact absurd hjhp h.2.2
  have hjh_ne : jh ≠ s.j0 := fun hc => hcont (hc ▸ hjhp)
  have hjh_unused' : Function.update s.used s.j0 true jh = false :=
    (husedF' jh).mpr ⟨hjh_ne, hjh_unused⟩
  rcases hc4 with ⟨hdINF, -, hmin⟩ | ⟨hj1ge, hj1le, hj1un, hdeq, hdlt, hdmin⟩
  · exfalso
    have h5 := hmin jh hjh1 hjhN hjh_unused'
    rw [(hscan jh hjh1 hjhN hjh_unused').1,
      hs.minv0 jh hjh1 hjhN hjh_unused] at h5
    have h6 : (0 : ℚ) < INF := by norm_num [INF]
    linarith
  have hδ0 : (scanOf N a s).delta = 0 := by
    rw [hdeq, (hscan _ hj1ge hj1le hj1un).1]
    exact hs.minv0 _ hj1ge hj1le ((husedF' _).mp hj1un).2
  have hu_any : ∀ r, (pass N a s).u r = s.u r := by
    intro r
    rcases hc5 r with h5 | ⟨j, hjN, hju, hpj, h5⟩
    · exact h5
    · rw [h5, hδ0, add_zero]
  have hv_any : ∀ j, (pass N a s).v j = s.v j := by
    intro j
    rcases Nat.lt_or_ge N j with h2 | h2
    · exact (hc8 j h2).1
    · by_cases h3 : Function.update s.used s.j0 true j = true
      · rw [(hc6 j h2 h3).2.1, hδ0, sub_zero]
      · have h4 : Function.update s.used s.j0 true j = false := by
          cases hcase : Function.update s.used s.j0 true j
          · rfl
          · exact absurd hcase h3
        exact (hc7 j h2 h4).1
  constructor
  · refine ⟨pass_struct hs.base (Or.inr (by rw [hpe]; exact hcont)),
      ?_, ?_, ?_, ?_, ?_, ?_, ?_⟩
    · -- used0
      rw [e_used1]
      exact (husedT' 0).mpr (Or.inr hs.used0)
    · -- u_lo
      intro r h1 h2
      rw [hu_any r]
      exact hs.u_lo r h1 h2
    · -- u_hi
      intro r hr
      rw [hu_any r]
      exact hs.u_hi r hr
    · -- v_real
      intro j h1
      rw [hv_any j]
      exact hs.v_real j h1
    · -- way_all
      intro j
      rw [e_way]
      rcases Nat.eq_zero_or_pos j with rfl | h1
      · rw [(hc1 0 (Or.inl Nat.one_pos)).2]
        exact hs.way_all 0
      · rcases Nat.lt_or_ge N j with h2 | h2
        · rw [(hc1 j (Or.inr h2)).2]
          exact hs.way_all j
        · by_cases h3 : Function.update s.used s.j0 true j = true
          · rw [(hc2 j h1 h2 h3).2]
            exact hs.way_all j
          · have h4 : Function.update s.used s.j0 true j = false := by
              cases hcase : Function.update s.used s.j0 true j
              · rfl
              · exact absurd hcase h3
            rw [(hscan j h1 h2 h4).2]
            exact hs.way_all j
    · -- minv0
      intro j h1 h2 h3
      rw [e_used1] at h3
      rw [(hc7 j h2 h3).2, (hscan j h1 h2 h3).1, hδ0,
        hs.minv0 j h1 h2 ((husedF' j).mp h3).2]
      ring
    · -- j0_mem
      rw [e_j1]
      refine ⟨hj1ge, hj1le, ?_⟩
      rw [e_used1]
      exact hj1un
  · have hsub : (Finset.Icc 1 N).filter
        (fun j => p0 j ≠ 0 ∧ (pass N a s).used j = false) ⊆
        (Finset.Icc 1 N).filter (fun j => p0 j ≠ 0 ∧ s.used j = false) := by
      intro x hx
      rw [Finset.mem_filter] at hx ⊢
      obtain ⟨hxm, hxp, hxf⟩ := hx
      rw [e_used1] at hxf
      exact ⟨hxm, hxp, ((husedF' x).mp hxf).2⟩
    apply Finset.card_lt_card
    rw [Finset.ssubset_iff_of_subset hsub]
    refine ⟨s.j0, ?_, ?_⟩
    · rw [Finset.mem_filter]
      exact ⟨Finset.mem_Icc.mpr ⟨hj01, hj0N⟩, hcont, hj0un⟩
    · rw [Finset.mem_filter]
      rintro ⟨-, -, hf⟩
      rw [e_used1] at hf
      exact ((husedF' s.j0).mp hf).1 rfl

/-- The relaxation loop on the constant-`PAD` matrix runs to completion. -/
theorem innerTraj_pad {N k : ℕ} {a : ℕ → ℕ → ℚ} {p0 : ℕ → ℕ}
    (hconst : ∀ i j, a i j = PAD)
    (hp00 : p0 0 = k + 1)
    (hple : ∀ j, 1 ≤ j → p0 j ≤ k)
    (hpinj : ∀ j j', 1 ≤ j → j ≤ N → 1 ≤ j' → j' ≤ N → p0 j ≠ 0 → p0 j = p0 j' → j = j')
    (hunm : ∃ jh, 1 ≤ jh ∧ jh ≤ N ∧ p0 jh = 0) :
    ∀ (B fuel : ℕ) (s : KMState),
    PadInner N k p0 (pass N a s) →
    unmatchedUnused N p0 (pass N a s) < B → B ≤ fuel →
    ∃ tr, innerTraj N a fuel s = some tr ∧
      ∃ sl, tr.getLast? = some sl ∧ PadInner N k p0 sl ∧ p0 sl.j0 = 0 := by
  intro B
  induction B with
  | zero =>
    intro fuel s h1 h2 h3
    omega
  | succ B ih =>
    intro fuel s hInv hMB hBf
    obtain ⟨fuel', rfl⟩ : ∃ f', fuel = f' + 1 := ⟨fuel - 1, by omega⟩
    rw [innerTraj]
    by_cases hc : (pass N a s).p ((pass N a s).j0) ≠ 0
    · rw [if_pos hc]
      have hcont : p0 ((pass N a s).j0) ≠ 0 := by
        rw [← hInv.base.p_eq]
        exact hc
      obtain ⟨hInv', hMdec⟩ :=
        pass_preserve_pad hconst hp00 hple hpinj hunm hInv hcont
      obtain ⟨tr', htr', sl, hlast', hslInv, hslexit⟩ :=
        ih fuel' (pass N a s) hInv' (by omega) (by omega)
      rw [htr']
      refine ⟨pass N a s :: tr', rfl, sl, ?_, hslInv, hslexit⟩
      rcases tr' with - | ⟨y, ys⟩
      · exact absurd hlast' (by simp)
      · rw [List.getLast?_cons_cons]
        exact hlast'
    · rw [if_neg hc]
      push_neg at hc
      refine ⟨[pass N a s], rfl, pass N a s, rfl, hInv, ?_⟩
      rw [← hInv.base.p_eq]
      exact hc

/-- One full outer iteration on the constant-`PAD` matrix. -/
theorem iteration_pad {N k : ℕ} {a : ℕ → ℕ → ℚ} {s : KMState}
    (hconst : ∀ i j, a i j = PAD) (hkN : k < N)
    (hM : MatchInv N k s) (hP : PadProf k s) :
    ∃ tr s2, innerTraj N a (2 * N + 8) (resetFor (k + 1) s) = some tr ∧
      augLoop (N + 2) (tr.getLastD (resetFor (k + 1) s)) = some s2 ∧
      MatchInv N (k + 1) s2 ∧ PadProf (k + 1) s2 := by
  have hp00 : Function.update s.p 0 (k + 1) 0 = k + 1 := Function.update_same _ _ _
  have hple : ∀ j, 1 ≤ j → Function.update s.p 0 (k + 1) j ≤ k := by
    intro j hj
    rw [Function.update_noteq (by omega)]
    exact hM.p_le j
  have hpinj : ∀ j j', 1 ≤ j → j ≤ N → 1 ≤ j' → j' ≤ N →
      Function.update s.p 0 (k + 1) j ≠ 0 →
      Function.update s.p 0 (k + 1) j = Function.update s.p 0 (k + 1) j' → j = j' := by
    intro j j' h1 h2 h3 h4 h5 h6
    rw [Function.update_noteq (by omega)] at h5 h6
    rw [Function.update_noteq (by omega : j' ≠ 0)] at h6
    exact hM.p_inj j j' h1 h2 h3 h4 h5 h6
  have hunm : ∃ jh, 1 ≤ jh ∧ jh ≤ N ∧ Function.update s.p 0 (k + 1) jh = 0 := by
    obtain ⟨jh, h1, h2, h3⟩ := matchInv_unmatched_exists hM hkN
    exact ⟨jh, h1, h2, by rw [Function.update_noteq (by omega)]; exact h3⟩
  obtain ⟨hInv1, hMeas⟩ := pass_establish_pad hconst hkN hM hP
  obtain ⟨tr, htr, sl, hlast, hslInv, hslexit⟩ :=
    innerTraj_pad hconst hp00 hple hpinj hunm (k + 1) (2 * N + 8)
      (resetFor (k + 1) s) hInv1 (by omega) (by omega)
  have hgl : tr.getLastD (resetFor (k + 1) s) = sl := by
    rw [List.getLastD_eq_getLast?, hlast]
    rfl
  obtain ⟨hj01, hj0N, hj0un⟩ := hslInv.j0_mem
  have hj0ne : sl.j0 ≠ 0 := by omega
  have hT0 : sl.way^[1] sl.j0 = 0 := by
    simpa using hslInv.way_all sl.j0
  have hTmin : ∀ t, t < 1 → sl.way^[t] sl.j0 ≠ 0 := by
    intro t ht
    interval_cases t
    simpa using hj0ne
  obtain ⟨s2, haug, hu2, hv2, hw2, hm2, hus2, hj02, hA2, hB2⟩ :=
    augLoop_run 1 (N + 2) sl hj0ne le_rfl hT0 hTmin (by omega)
  have hple0 : ∀ j, Function.update s.p 0 (k + 1) j ≤ k + 1 := by
    intro j
    rcases Nat.eq_zero_or_pos j with rfl | hj
    · rw [hp00]
    · rw [Function.update_noteq (by omega)]
      exact le_trans (hM.p_le j) (by omega)
  have hpsurj : ∀ r, 1 ≤ r → r ≤ k →
      ∃ j, 1 ≤ j ∧ j ≤ N ∧ Function.update s.p 0 (k + 1) j = r := by
    intro r h1 h2
    obtain ⟨j, hj1, hjN, hpj⟩ := hM.p_surj r h1 h2
    exact ⟨j, hj1, hjN, by rw [Function.update_noteq (by omega)]; exact hpj⟩
  have hexit : sl.p sl.j0 = 0 := by
    rw [hslInv.base.p_eq]
    exact hslexit
  obtain ⟨hMatch2, -, -, -, -, -⟩ :=
    augment_matchInv hslInv.base hp00 hple hple0 hpinj hpsurj hexit hj01 haug
  refine ⟨tr, s2, htr, by rw [hgl]; exact haug, hMatch2, ?_, ?_, ?_, ?_⟩
  · intro r h1 h2
    rw [hu2]
    exact hslInv.u_lo r h1 h2
  · intro r hr
    rw [hu2]
    exact hslInv.u_hi r hr
  · intro j h1
    rw [hv2]
    exact hslInv.v_real j h1
  · intro j
    rw [hw2]
    exact hslInv.way_all j

/-- The outer loop on the constant-`PAD` matrix terminates. -/
theorem runAux_pad {N : ℕ} {a : ℕ → ℕ → ℚ} (hconst : ∀ i j, a i j = PAD) :
    ∀ (cnt k : ℕ) (s : KMState), k + cnt ≤ N → MatchInv N k s → PadProf k s →
    ∃ q, runAux N a (List.range' (k + 1) cnt) s = some q := by
  intro cnt
  induction cnt with
  | zero =>
    intro k s hkN hM hP
    exact ⟨([], s), by rw [List.range'_zero]; rfl⟩
  | succ cnt ih =>
    intro k s hkN hM hP
    obtain ⟨tr, s2, htr, haug, hM2, hP2⟩ := iteration_pad hconst (by omega) hM hP
    obtain ⟨q, hq⟩ := ih (k + 1) s2 (by omega) hM2 hP2
    rw [List.range'_succ, runAux, htr, Option.some_bind, haug, Option.some_bind,
      hq, Option.map_some']
    exact ⟨(tr :: q.1, q.2), rfl⟩

/-- The padding profile holds at the zero-initialized state. -/
theorem padProf_init : PadProf 0 initState := by
  refine ⟨?_, ?_, ?_, ?_⟩
  · intro r h1 h2
    omega
  · intro r _
    rfl
  · intro j _
    rfl
  · intro j
    rfl

/-! ### Claim theorems -/

/-- Claim C2, counterexample: on the repository's own `3 × 4` example the
solver returns total cost `10.2 = 51/5`, not the claimed `9.3`.  (The
assignment part of the claim — job 1 to worker 0 at cost 2.5, job 2 to
worker 2 at cost 1.5, job 3 unassigned — does hold.) -/
theorem hungarian_demo_total_ne_spec :
    hungarian 3 4 exCost = some (51 / 5, [1, 0, 2, -1]) ∧ (51 / 5 : ℚ) ≠ 93 / 10 :=
  ⟨by with_unfolding_all rfl, by norm_num⟩

/-- Claim C2, amended: on the `3 × 4` example matrix the solver returns
total cost `10.2`, with job 0 assigned worker 1 (cost 6.2), job 1 assigned
worker 0 (cost 2.5), job 2 assigned worker 2 (cost 1.5) and job 3
unassigned. -/
theorem hungarian_demo_run :
    hungarian 3 4 exCost = some (51 / 5, [1, 0, 2, -1]) ∧
      exCost 1 0 = 31 / 5 ∧ exCost 0 1 = 5 / 2 ∧ exCost 2 2 = 3 / 2 := by
  refine ⟨by with_unfolding_all rfl, ?_, ?_, ?_⟩ <;> norm_num [exCost]

/-- Claim C1, counterexample: on the square matrix
`[[1.9e18, 1.2e18], [5, 5]]` — finite costs, but above the source's `INF`
threshold — the solver returns total `1.9e18 + 5`, strictly larger than
the optimal perfect matching cost `1.2e18 + 5`. -/
theorem hungarian_suboptimal_on_huge_costs :
    hungarian 2 2 hugeSquare = some (19 * 10 ^ 17 + 5, [0, 1]) ∧
      minPermSum 2 hugeSquare < 19 * 10 ^ 17 + 5 := by
  constructor
  · with_unfolding_all rfl
  · rw [minPermSum_two]
    norm_num [hugeSquare]

/-- Claim C6, counterexample: with the `1 × 1` matrix `[[-1]]` the state
right after initialization of the potentials (`u = v = 0`, the first state
of the run) already violates `u[i] + v[j] ≤ a[i][j]` at `i = j = 1`. -/
theorem dual_feasibility_fails_at_init :
    (allStates 1 1 negOne).isSome = true ∧
      padA 1 1 negOne 1 1 <
        ((allStates 1 1 negOne).getD []).headI.u 1 +
          ((allStates 1 1 negOne).getD []).headI.v 1 := by
  constructor
  · with_unfolding_all rfl
  · have h : ((allStates 1 1 negOne).getD []).headI = initState := by
      with_unfolding_all rfl
    rw [h]
    norm_num [padA, negOne, initState]

/-- Claim C7, counterexample: on the `1 × 1` matrix `[[2e18]]` (finite
cost) the single outer iteration needs `2` relaxation passes to reach an
unmatched job, exceeding the claimed bound `N = max(n,m) = 1`. -/
theorem inner_loop_exceeds_N_passes :
    passCounts 1 1 hugeOne = some [2] ∧ (max (1 : ℤ) 1).toNat < 2 :=
  ⟨by with_unfolding_all rfl, by decide⟩

/-- Claim C8, counterexample.  First part: permuting the columns of
`hugeSquare` with the transposition `swap01` changes the returned total
cost (`1.9e18 + 5` versus `1.2e18 + 5`).  Second part: on the all-zero
`2 × 2` matrix, permuting the rows with `swap01` leaves the matrix — hence
the returned assignment `[0, 1]` — unchanged, while the transported
original assignment would be `[1, 0]`. -/
theorem hungarian_permutation_dependent :
    ((hungarian 2 2 hugeSquare).map Prod.fst = some (19 * 10 ^ 17 + 5) ∧
      (hungarian 2 2 (permuteMat id swap01 hugeSquare)).map Prod.fst =
        some (12 * 10 ^ 17 + 5) ∧
      (19 * 10 ^ 17 + 5 : ℚ) ≠ 12 * 10 ^ 17 + 5) ∧
    (hungarian 2 2 (permuteMat swap01 id zeroC) = some (0, [0, 1]) ∧
      (hungarian 2 2 zeroC).map (fun r => r.2.map fun e => (swap01 e.toNat : ℤ)) =
        some [1, 0] ∧
      ([1, 0] : List ℤ) ≠ [0, 1]) := by
  refine ⟨⟨?_, ?_, by norm_num⟩, ⟨?_, ?_, by decide⟩⟩ <;> with_unfolding_all rfl

/-- Claim C3: whenever the solver returns (with `n, m ≥ 0`), every entry
of the assignment array is the unassigned marker `-1` or a worker index in
`[0, n)`, and no worker index occurs in more than one position. -/
theorem hungarian_match_valid_nodup (n m : ℤ) (cost : ℕ → ℕ → ℚ) (r : ℚ × List ℤ)
    (hn : 0 ≤ n) (hm : 0 ≤ m) (h : hungarian n m cost = some r) :
    (∀ e ∈ r.2, e = -1 ∨ (0 ≤ e ∧ e < n)) ∧
      (r.2.filter (fun e => e ≠ -1)).Nodup := by
  obtain ⟨q, hq, rfl⟩ := hungarian_some_elim h
  refine ⟨fun e he => matchOf_mem n m q.2.p e he, ?_⟩
  have hM := hungarianRun_matchInv hq
  have hNm : m.toNat ≤ (max n m).toNat := Int.toNat_le_toNat (le_max_right n m)
  have hpair := matchOf_pairwise (n := n) (m := m) hNm hM.p_inj
  have hpairf := hpair.filter (fun e => decide (e ≠ -1))
  refine List.Pairwise.imp_of_mem ?_ hpairf
  intro x y hx hy hxy
  rcases hxy with h1 | h1
  · exfalso
    have := List.of_mem_filter hx
    simp only [decide_not, Bool.not_eq_true', decide_eq_false_iff_not] at this
    exact this h1
  · exact h1

/-- Witness for C3, at `n = 3`, `m = 2`, the all-zero matrix. -/
theorem hungarian_match_valid_nodup_witness :
    (∀ e ∈ ((0 : ℚ), ([0, 1] : List ℤ)).2, e = -1 ∨ (0 ≤ e ∧ e < 3)) ∧
      ((((0 : ℚ), ([0, 1] : List ℤ)).2).filter (fun e => e ≠ -1)).Nodup :=
  hungarian_match_valid_nodup 3 2 zeroC (0, [0, 1]) (by decide) (by decide)
    (by with_unfolding_all rfl)

/-- Claim C4: whenever the solver returns (with `n, m ≥ 0`), exactly
`min n m` jobs receive a real worker and the remaining `m - min n m`
positions carry the unassigned marker — no padded row ever appears in the
output, for arbitrary finite costs. -/
theorem hungarian_match_count_min (n m : ℤ) (cost : ℕ → ℕ → ℚ) (r : ℚ × List ℤ)
    (hn : 0 ≤ n) (hm : 0 ≤ m) (h : hungarian n m cost = some r) :
    ((r.2.filter (fun e => e ≠ -1)).length : ℤ) = min n m ∧
      ((r.2.filter (fun e => e = -1)).length : ℤ) = m - min n m := by
  obtain ⟨q, hq, rfl⟩ := hungarian_some_elim h
  have hM := hungarianRun_matchInv hq
  have hcomp := matchInv_complete hM
  have hm' : m.toNat ≤ (max n m).toNat := Int.toNat_le_toNat (le_max_right n m)
  -- the entry at position j is real exactly when (p (j+1) : ℤ) ≤ n
  have hcount1 : (matchOf n m q.2.p).countP (fun e => decide (e ≠ -1)) =
      (List.range m.toNat).countP
        (fun j => decide (0 < q.2.p (j + 1) ∧ (q.2.p (j + 1) : ℤ) ≤ n)) := by
    unfold matchOf
    rw [List.countP_map]
    apply List.countP_congr
    intro j hj
    by_cases hc : 0 < q.2.p (j + 1) ∧ (q.2.p (j + 1) : ℤ) ≤ n
    · simp only [Function.comp_apply, if_pos hc, decide_eq_true_eq]
      constructor
      · intro _; exact hc
      · intro _
        have := hc.1
        omega
    · simp only [Function.comp_apply, if_neg hc, decide_eq_true_eq]
      constructor
      · intro hk; exact absurd rfl hk
      · intro hk; exact absurd hk hc
  have hsplit := List.length_eq_countP_add_countP
    (p := fun e : ℤ => decide (e ≠ -1)) (matchOf n m q.2.p)
  have hc2 : (matchOf n m q.2.p).countP (fun e => decide (e = -1)) =
      (matchOf n m q.2.p).countP (fun e => ¬(decide (e ≠ -1) : Bool)) := by
    apply List.countP_congr
    intro x hx
    by_cases hx1 : x = -1 <;> simp [hx1]
  have hlen : (matchOf n m q.2.p).length = m.toNat := matchOf_length n m q.2.p
  rw [← List.countP_eq_length_filter, ← List.countP_eq_length_filter, hcount1, hc2]
  rcases le_or_lt m n with hnm | hnm
  · -- n ≥ m : every job gets a real worker
    have hNn : (max n m).toNat = n.toNat := by rw [max_eq_left hnm]
    have hall : (List.range m.toNat).countP
        (fun j => decide (0 < q.2.p (j + 1) ∧ (q.2.p (j + 1) : ℤ) ≤ n)) = m.toNat := by
      have h1 : ∀ j ∈ List.range m.toNat,
          (fun j => decide (0 < q.2.p (j + 1) ∧ (q.2.p (j + 1) : ℤ) ≤ n)) j = true := by
        intro j hj
        rw [List.mem_range] at hj
        obtain ⟨h1, h2⟩ := hcomp (j + 1) (by omega) (by omega)
        rw [decide_eq_true_eq]
        refine ⟨h1, ?_⟩
        rw [hNn] at h2
        omega
      calc (List.range m.toNat).countP
            (fun j => decide (0 < q.2.p (j + 1) ∧ (q.2.p (j + 1) : ℤ) ≤ n))
          = (List.range m.toNat).length := List.countP_eq_length.mpr h1
        _ = m.toNat := List.length_range _
    rw [hall]
    have hminm : min n m = m := min_eq_right hnm
    constructor
    · rw [hminm]; omega
    · rw [hminm]
      rw [hcount1] at hsplit
      rw [hall] at hsplit
      rw [hlen] at hsplit
      omega
  · -- n < m : exactly n jobs get a real worker
    have hNm : (max n m).toNat = m.toNat := by rw [max_eq_right hnm.le]
    have hnN : n.toNat ≤ m.toNat := Int.toNat_le_toNat hnm.le
    have hbij : ((Finset.range m.toNat).filter
          (fun j => 0 < q.2.p (j + 1) ∧ (q.2.p (j + 1) : ℤ) ≤ n)).card =
        (Finset.Icc 1 n.toNat).card := by
      apply Finset.card_bij (fun j _ => q.2.p (j + 1))
      · intro c hc
        rw [Finset.mem_filter, Finset.mem_range] at hc
        rw [Finset.mem_Icc]
        have := hc.2.2
        exact ⟨hc.2.1, by omega⟩
      · intro c hc d hd heq
        rw [Finset.mem_filter, Finset.mem_range] at hc hd
        have := hM.p_inj (c + 1) (d + 1) (by omega) (by omega) (by omega) (by omega)
          (by omega) heq
        omega
      · intro w hw
        rw [Finset.mem_Icc] at hw
        obtain ⟨j, hj1, hjN, hpj⟩ := hM.p_surj w hw.1 (by omega)
        refine ⟨j - 1, ?_, ?_⟩
        · rw [Finset.mem_filter, Finset.mem_range]
          rw [show j - 1 + 1 = j by omega, hpj]
          refine ⟨by omega, by omega, by omega⟩
        · rw [show j - 1 + 1 = j by omega, hpj]
    have hcard : (List.range m.toNat).countP
        (fun j => decide (0 < q.2.p (j + 1) ∧ (q.2.p (j + 1) : ℤ) ≤ n)) = n.toNat := by
      rw [List.countP_eq_length_filter]
      have : ((List.range m.toNat).filter
          (fun j => decide (0 < q.2.p (j + 1) ∧ (q.2.p (j + 1) : ℤ) ≤ n))).length =
          ((Finset.range m.toNat).filter
            (fun j => 0 < q.2.p (j + 1) ∧ (q.2.p (j + 1) : ℤ) ≤ n)).card := rfl
      rw [this, hbij, Nat.card_Icc]
      omega
    rw [hcard]
    have hminn : min n m = n := min_eq_left hnm.le
    constructor
    · rw [hminn]; omega
    · rw [hminn]
      rw [hcount1, hcard, hlen] at hsplit
      omega

/-- Witness for C4, at `n = 2`, `m = 3`, the all-zero matrix. -/
theorem hungarian_match_count_min_witness :
    ((((0 : ℚ), ([0, 1, -1] : List ℤ)).2.filter (fun e => e ≠ -1)).length : ℤ) =
        min 2 3 ∧
      ((((0 : ℚ), ([0, 1, -1] : List ℤ)).2.filter (fun e => e = -1)).length : ℤ) =
        3 - min 2 3 :=
  hungarian_match_count_min 2 3 zeroC (0, [0, 1, -1]) (by decide) (by decide)
    (by with_unfolding_all rfl)

/-- Claim C9: the source performs no validation of `n` or `m` at all.
With `n = -1 < 0` the call is not rejected: the algorithm runs to
completion (`N = max(-1, 2) = 2` outer iterations, with `1` and `2`
relaxation passes) and returns total `0` with both jobs unassigned. -/
theorem hungarian_no_dimension_check :
    hungarian (-1) 2 zeroC = some (0, [-1, -1]) ∧
      passCounts (-1) 2 zeroC = some [1, 2] :=
  ⟨by with_unfolding_all rfl, by with_unfolding_all rfl⟩

/-- Claim C10: whenever the solver returns (and `m ≥ 1`), the assignment
array has exactly `m` entries — every position in `[0, m)` was written —
and each entry is either the marker `-1` or a worker index in `[0, n)`. -/
theorem hungarian_match_out_complete (n m : ℤ) (cost : ℕ → ℕ → ℚ) (r : ℚ × List ℤ)
    (hm : 1 ≤ m) (h : hungarian n m cost = some r) :
    r.2.length = m.toNat ∧ ∀ e ∈ r.2, e = -1 ∨ (0 ≤ e ∧ e < n) := by
  obtain ⟨q, -, rfl⟩ := hungarian_some_elim h
  exact ⟨matchOf_length n m q.2.p, fun e he => matchOf_mem n m q.2.p e he⟩

/-- Witness for C10, at `n = 3`, `m = 2`, the all-zero matrix. -/
theorem hungarian_match_out_complete_witness :
    ((0 : ℚ), ([0, 1] : List ℤ)).2.length = (2 : ℤ).toNat ∧
      ∀ e ∈ ((0 : ℚ), ([0, 1] : List ℤ)).2, e = -1 ∨ (0 ≤ e ∧ e < 3) :=
  hungarian_match_out_complete 3 2 zeroC (0, [0, 1]) (by decide)
    (by with_unfolding_all rfl)

/-- Claim C5: when `n = 0` the solver returns total cost `0` with all `m`
jobs carrying the unassigned marker `-1`, and when `m = 0` it returns
total cost `0` with an empty assignment sequence; both degenerate calls
run to completion and produce a well-defined result. -/
theorem hungarian_degenerate (n m : ℤ) (hn : 0 ≤ n) (hm : 0 ≤ m)
    (cost cost' : ℕ → ℕ → ℚ) :
    hungarian 0 m cost = some (0, List.replicate m.toNat (-1)) ∧
      hungarian n 0 cost' = some (0, []) := by
  constructor
  · obtain ⟨q, hq⟩ := @runAux_pad (max (0 : ℤ) m).toNat (padA 0 m cost)
      (padA_degenerate cost (Or.inl le_rfl))
      (max (0 : ℤ) m).toNat 0 initState (by omega) (matchInv_init _) padProf_init
    have hrun : hungarianRun 0 m cost = some q := hq
    unfold hungarian
    rw [hrun, Option.map_some']
    rw [totalOf_degenerate cost _ _ (Or.inl le_rfl), matchOf_zero_n]
  · obtain ⟨q, hq⟩ := @runAux_pad (max n (0 : ℤ)).toNat (padA n 0 cost')
      (padA_degenerate cost' (Or.inr le_rfl))
      (max n (0 : ℤ)).toNat 0 initState (by omega) (matchInv_init _) padProf_init
    have hrun : hungarianRun n 0 cost' = some q := hq
    unfold hungarian
    rw [hrun, Option.map_some']
    rw [totalOf_degenerate cost' _ _ (Or.inr le_rfl)]
    rfl

/-- Witness for C5, at `n = 2`, `m = 3`, the all-zero matrices. -/
theorem hungarian_degenerate_witness :
    (0 : ℤ) ≤ 2 ∧ (0 : ℤ) ≤ 3 ∧
      (hungarian 0 3 zeroC = some (0, List.replicate (3 : ℤ).toNat (-1)) ∧
        hungarian 2 0 zeroC = some (0, [])) :=
  ⟨by decide, by decide, hungarian_degenerate 2 3 (by decide) (by decide) zeroC zeroC⟩

/-- Claim C1, amended: for square matrices whose entries are bounded by the
padding sentinel (`|cost| ≤ 1e9`) and `n ≤ 10^6`, the returned total cost
equals the minimum over all perfect matchings, the returned assignment is
an optimal permutation, and when the optimal permutation is unique the
assignment is exactly that permutation.  (Unbounded finite costs break
this: see the counterexample.) -/
theorem hungarian_square_optimal (n : ℤ) (cost : ℕ → ℕ → ℚ)
    (hn : 1 ≤ n) (hsize : n ≤ 10 ^ 6)
    (hb : ∀ i j, i < n.toNat → j < n.toNat → |cost i j| ≤ PAD) :
    ∃ r, hungarian n n cost = some r ∧ r.1 = minPermSum n.toNat cost ∧
      ∃ σ : Equiv.Perm (Fin n.toNat),
        permSum n.toNat cost σ = minPermSum n.toNat cost ∧
        r.2 = List.ofFn (fun j => ((σ j : ℕ) : ℤ)) ∧
        ∀ σ0 : Equiv.Perm (Fin n.toNat),
          (∀ τ, permSum n.toNat cost τ = minPermSum n.toNat cost → τ = σ0) →
          r.2 = List.ofFn fun j => ((σ0 j : ℕ) : ℤ) := by
  obtain ⟨r, h1, h2, σ, h3, h4⟩ := hungarian_square_core hn hsize hb
  refine ⟨r, h1, h2, σ, h3, h4, ?_⟩
  intro σ0 huniq
  rw [huniq σ h3] at h4
  exact h4

/-- Witness for C1 (amended form), at `n = 2` and the all-zero matrix. -/
theorem hungarian_square_optimal_witness :
    (1 : ℤ) ≤ 2 ∧ (2 : ℤ) ≤ 10 ^ 6 ∧
      (∀ i j, i < (2 : ℤ).toNat → j < (2 : ℤ).toNat → |zeroC i j| ≤ PAD) ∧
      (∃ r, hungarian 2 2 zeroC = some r ∧ r.1 = minPermSum (2 : ℤ).toNat zeroC ∧
        ∃ σ : Equiv.Perm (Fin (2 : ℤ).toNat),
          permSum (2 : ℤ).toNat zeroC σ = minPermSum (2 : ℤ).toNat zeroC ∧
          r.2 = List.ofFn (fun j => ((σ j : ℕ) : ℤ)) ∧
          ∀ σ0 : Equiv.Perm (Fin (2 : ℤ).toNat),
            (∀ τ, permSum (2 : ℤ).toNat zeroC τ = minPermSum (2 : ℤ).toNat zeroC →
              τ = σ0) →
            r.2 = List.ofFn fun j => ((σ0 j : ℕ) : ℤ)) :=
  ⟨by decide, by decide, by intro i j _ _; norm_num [zeroC, PAD],
    hungarian_square_optimal 2 zeroC (by decide) (by decide)
      (by intro i j _ _; norm_num [zeroC, PAD])⟩

/-- Claim C6, amended: for nonnegative costs bounded by the padding
sentinel, the dual feasibility inequality `u[i] + v[j] <= a[i][j]` holds on
the whole padded square at initialization, at every evaluation of the
relaxation-loop exit condition, and at termination; and at termination
every matched edge satisfies it with equality.  (For negative costs it
already fails at initialization: see the counterexample.) -/
theorem hungarian_dual_feasible (n m : ℤ) (cost : ℕ → ℕ → ℚ)
    (hn : 0 ≤ n) (hm : 0 ≤ m) (hsize : max n m ≤ 10 ^ 6)
    (hb : ∀ i j, i < n.toNat → j < m.toNat → 0 ≤ cost i j ∧ cost i j ≤ PAD) :
    ∃ sts, allStates n m cost = some sts ∧
      (∀ s ∈ sts, ∀ i j, 1 ≤ i → i ≤ (max n m).toNat → 1 ≤ j →
        j ≤ (max n m).toNat → s.u i + s.v j ≤ padA n m cost i j) ∧
      ∀ sf, sts.getLast? = some sf →
        ∀ j, 1 ≤ j → j ≤ (max n m).toNat → sf.p j ≠ 0 →
          sf.u (sf.p j) + sf.v j = padA n m cost (sf.p j) j := by
  have hPAD0 : (0 : ℚ) ≤ PAD := by norm_num [PAD]
  have hb' : ∀ i j, i < n.toNat → j < m.toNat → |cost i j| ≤ PAD := by
    intro i j h1 h2
    obtain ⟨h3, h4⟩ := hb i j h1 h2
    rw [abs_le]
    constructor <;> linarith
  obtain ⟨q, hq, -, hD, -, hfeas⟩ := hungarian_bounded_run hn hm hsize hb'
  have hpadnn : ∀ i j, 0 ≤ padA n m cost i j := by
    intro i j
    unfold padA
    split_ifs with h
    · exact (hb _ _ (by omega) (by omega)).1
    · exact hPAD0
  refine ⟨initState :: (q.1.flatten ++ [q.2]), ?_, ?_, ?_⟩
  · unfold allStates
    rw [hq, Option.map_some']
  · intro s hsmem i j h1 h2 h3 h4
    rcases List.mem_cons.mp hsmem with rfl | hsm
    · have h0 : initState.u i + initState.v j = 0 := by norm_num [initState]
      rw [h0]
      exact hpadnn i j
    rcases List.mem_append.mp hsm with hfl | hlast
    · obtain ⟨tr, htr, hstr⟩ := List.mem_flatten.mp hfl
      rcases ((hfeas tr htr).2 s hstr).1 i j h1 h2 h3 h4 with h5 | h5
      · exact h5
      · rw [h5, zero_add]
        exact le_trans (((hfeas tr htr).2 s hstr).2 j h3 h4) (hpadnn i j)
    · rw [List.mem_singleton] at hlast
      subst hlast
      exact hD.dfeas i j h1 h2 h3 h4
  · intro sf hsf j h1 h2 h3
    have hgl : (initState :: (q.1.flatten ++ [q.2])).getLast? = some q.2 := by
      rw [← List.cons_append, List.getLast?_concat]
    rw [hgl] at hsf
    obtain rfl := (Option.some.injEq _ _).mp hsf
    exact hD.tight j h1 h2 h3

/-- Witness for C6 (amended form), at `n = m = 1`, the all-zero matrix. -/
theorem hungarian_dual_feasible_witness :
    (0 : ℤ) ≤ 1 ∧ max (1 : ℤ) 1 ≤ 10 ^ 6 ∧
      (∀ i j, i < (1 : ℤ).toNat → j < (1 : ℤ).toNat →
        0 ≤ zeroC i j ∧ zeroC i j ≤ PAD) ∧
      (∃ sts, allStates 1 1 zeroC = some sts ∧
        (∀ s ∈ sts, ∀ i j, 1 ≤ i → i ≤ (max (1 : ℤ) 1).toNat → 1 ≤ j →
          j ≤ (max (1 : ℤ) 1).toNat → s.u i + s.v j ≤ padA 1 1 zeroC i j) ∧
        ∀ sf, sts.getLast? = some sf →
          ∀ j, 1 ≤ j → j ≤ (max (1 : ℤ) 1).toNat → sf.p j ≠ 0 →
            sf.u (sf.p j) + sf.v j = padA 1 1 zeroC (sf.p j) j) :=
  ⟨by decide, by decide, by intro i j _ _; norm_num [zeroC, PAD],
    hungarian_dual_feasible 1 1 zeroC (by decide) (by decide) (by decide)
      (by intro i j _ _; norm_num [zeroC, PAD])⟩

/-- Claim C7, amended: for costs bounded by the padding sentinel and
`max(n,m) ≤ 10^6`, the modelled run terminates: there are exactly
`N = max(n,m)` outer iterations, each one executes the relaxation-loop body
at most `N` times, and afterwards every padded worker row is matched to a
distinct padded job.  (A finite cost above the source's `INF` makes an
inner loop exceed `N` passes: see the counterexample.) -/
theorem hungarian_terminates (n m : ℤ) (cost : ℕ → ℕ → ℚ)
    (hn : 0 ≤ n) (hm : 0 ≤ m) (hsize : max n m ≤ 10 ^ 6)
    (hb : ∀ i j, i < n.toNat → j < m.toNat → |cost i j| ≤ PAD) :
    ∃ q, hungarianRun n m cost = some q ∧
      ∃ cs, passCounts n m cost = some cs ∧
        cs.length = (max n m).toNat ∧
        (∀ c ∈ cs, c ≤ (max n m).toNat) ∧
        (∀ j, 1 ≤ j → j ≤ (max n m).toNat →
          1 ≤ q.2.p j ∧ q.2.p j ≤ (max n m).toNat) ∧
        ∀ j j', 1 ≤ j → j ≤ (max n m).toNat → 1 ≤ j' → j' ≤ (max n m).toNat →
          q.2.p j = q.2.p j' → j = j' := by
  obtain ⟨q, hq, hM, -, hlen, hfeas⟩ := hungarian_bounded_run hn hm hsize hb
  have hcomp := matchInv_complete hM
  refine ⟨q, hq, q.1.map List.length, ?_, ?_, ?_, hcomp, ?_⟩
  · unfold passCounts
    rw [hq, Option.map_some']
  · rw [List.length_map]
    exact hlen
  · intro c hc
    rw [List.mem_map] at hc
    obtain ⟨tr, htr, rfl⟩ := hc
    exact (hfeas tr htr).1
  · intro j j' h1 h2 h3 h4 h5
    refine hM.p_inj j j' h1 h2 h3 h4 ?_ h5
    have h6 := (hcomp j h1 h2).1
    omega

/-- Witness for C7 (amended form), at `n = m = 1`, the all-zero matrix. -/
theorem hungarian_terminates_witness :
    (0 : ℤ) ≤ 1 ∧ max (1 : ℤ) 1 ≤ 10 ^ 6 ∧
      (∀ i j, i < (1 : ℤ).toNat → j < (1 : ℤ).toNat → |zeroC i j| ≤ PAD) ∧
      (∃ q, hungarianRun 1 1 zeroC = some q ∧
        ∃ cs, passCounts 1 1 zeroC = some cs ∧
          cs.length = (max (1 : ℤ) 1).toNat ∧
          (∀ c ∈ cs, c ≤ (max (1 : ℤ) 1).toNat) ∧
          (∀ j, 1 ≤ j → j ≤ (max (1 : ℤ) 1).toNat →
            1 ≤ q.2.p j ∧ q.2.p j ≤ (max (1 : ℤ) 1).toNat) ∧
          ∀ j j', 1 ≤ j → j ≤ (max (1 : ℤ) 1).toNat → 1 ≤ j' →
            j' ≤ (max (1 : ℤ) 1).toNat → q.2.p j = q.2.p j' → j = j') :=
  ⟨by decide, by decide, by intro i j _ _; norm_num [zeroC, PAD],
    hungarian_terminates 1 1 zeroC (by decide) (by decide) (by decide)
      (by intro i j _ _; norm_num [zeroC, PAD])⟩

/-- Claim C8, amended: for any rectangular matrix with entries bounded by
the padding sentinel and `max(n,m) ≤ 10^6`, relabeling the workers by `σ`
and the jobs by `τ` leaves the returned total cost unchanged.  The
returned assignment is *not* transported by the relabeling in general
(ties may resolve differently), and for unbounded finite costs even the
total changes: see the counterexample for both failures. -/
theorem hungarian_total_permutation_invariant (n m : ℤ) (cost : ℕ → ℕ → ℚ)
    (σ : Equiv.Perm (Fin n.toNat)) (τ : Equiv.Perm (Fin m.toNat))
    (hn : 0 ≤ n) (hm : 0 ≤ m) (hsize : max n m ≤ 10 ^ 6)
    (hb : ∀ i j, i < n.toNat → j < m.toNat → |cost i j| ≤ PAD) :
    (hungarian n m (permuteMat (permExt n.toNat σ) (permExt m.toNat τ) cost)).map
        Prod.fst = (hungarian n m cost).map Prod.fst := by
  have hb' : ∀ i j, i < n.toNat → j < m.toNat →
      |permuteMat (permExt n.toNat σ) (permExt m.toNat τ) cost i j| ≤ PAD := by
    intro i j hi hj
    unfold permuteMat permExt
    rw [dif_pos hi, dif_pos hj]
    exact hb _ _ (σ ⟨i, hi⟩).isLt (τ ⟨j, hj⟩).isLt
  obtain ⟨q1, hq1, hM1, hD1, -, -⟩ := hungarian_bounded_run hn hm hsize hb
  obtain ⟨q2, hq2, hM2, hD2, -, -⟩ := hungarian_bounded_run hn hm hsize hb'
  have hnN : n.toNat ≤ (max n m).toNat := Int.toNat_le_toNat (le_max_left n m)
  have hmN : m.toNat ≤ (max n m).toNat := Int.toNat_le_toNat (le_max_right n m)
  have hcomp1 := matchInv_complete hM1
  have hcomp2 := matchInv_complete hM2
  have hinj1 : ∀ j j', 1 ≤ j → j ≤ (max n m).toNat → 1 ≤ j' →
      j' ≤ (max n m).toNat → q1.2.p j = q1.2.p j' → j = j' := by
    intro j j' h1 h2 h3 h4 h5
    refine hM1.p_inj j j' h1 h2 h3 h4 ?_ h5
    have h6 := (hcomp1 j h1 h2).1
    omega
  have hinj2 : ∀ j j', 1 ≤ j → j ≤ (max n m).toNat → 1 ≤ j' →
      j' ≤ (max n m).toNat → q2.2.p j = q2.2.p j' → j = j' := by
    intro j j' h1 h2 h3 h4 h5
    refine hM2.p_inj j j' h1 h2 h3 h4 ?_ h5
    have h6 := (hcomp2 j h1 h2).1
    omega
  have hA := padA_permute n m cost σ τ
  have hPS2 : ∑ j ∈ Finset.Icc 1 (max n m).toNat,
      padA n m (permuteMat (permExt n.toNat σ) (permExt m.toNat τ) cost)
        (q2.2.p j) j =
      ∑ j ∈ Finset.Icc 1 (max n m).toNat,
        padA n m cost
          (permPad n.toNat σ (q2.2.p (permPad m.toNat τ.symm j))) j := by
    rw [← sum_permPad_reindex hmN τ (fun k =>
      padA n m cost (permPad n.toNat σ (q2.2.p (permPad m.toNat τ.symm k))) k)]
    apply Finset.sum_congr rfl
    intro j _
    rw [hA, permPad_leftInv m.toNat τ j]
  have hle1 : ∑ j ∈ Finset.Icc 1 (max n m).toNat, padA n m cost (q1.2.p j) j ≤
      ∑ j ∈ Finset.Icc 1 (max n m).toNat,
        padA n m cost
          (permPad n.toNat σ (q2.2.p (permPad m.toNat τ.symm j))) j := by
    refine dual_optimal hM1 hD1
      (fun k => permPad n.toNat σ (q2.2.p (permPad m.toNat τ.symm k))) ?_ ?_
    · intro j h1 h2
      have h3 := permPad_mem hmN τ.symm j h1 h2
      have h4 := hcomp2 _ h3.1 h3.2
      exact permPad_mem hnN σ _ h4.1 h4.2
    · intro j j' h1 h2 h3 h4 h5
      have h6 := permPad_mem hmN τ.symm j h1 h2
      have h7 := permPad_mem hmN τ.symm j' h3 h4
      have h8 := permPad_injective n.toNat σ h5
      have h9 := hinj2 _ _ h6.1 h6.2 h7.1 h7.2 h8
      exact permPad_injective m.toNat τ.symm h9
  have hPS1 : ∑ j ∈ Finset.Icc 1 (max n m).toNat, padA n m cost (q1.2.p j) j =
      ∑ j ∈ Finset.Icc 1 (max n m).toNat,
        padA n m (permuteMat (permExt n.toNat σ) (permExt m.toNat τ) cost)
          (permPad n.toNat σ.symm (q1.2.p (permPad m.toNat τ j))) j := by
    rw [← sum_permPad_reindex hmN τ (fun k => padA n m cost (q1.2.p k) k)]
    apply Finset.sum_congr rfl
    intro j _
    rw [hA]
    have h5 := permPad_leftInv n.toNat σ.symm (q1.2.p (permPad m.toNat τ j))
    rw [Equiv.symm_symm] at h5
    rw [h5]
  have hle2 : ∑ j ∈ Finset.Icc 1 (max n m).toNat,
      padA n m (permuteMat (permExt n.toNat σ) (permExt m.toNat τ) cost)
        (q2.2.p j) j ≤
      ∑ j ∈ Finset.Icc 1 (max n m).toNat,
        padA n m (permuteMat (permExt n.toNat σ) (permExt m.toNat τ) cost)
          (permPad n.toNat σ.symm (q1.2.p (permPad m.toNat τ j))) j := by
    refine dual_optimal hM2 hD2
      (fun k => permPad n.toNat σ.symm (q1.2.p (permPad m.toNat τ k))) ?_ ?_
    · intro j h1 h2
      have h3 := permPad_mem hmN τ j h1 h2
      have h4 := hcomp1 _ h3.1 h3.2
      exact permPad_mem hnN σ.symm _ h4.1 h4.2
    · intro j j' h1 h2 h3 h4 h5
      have h6 := permPad_mem hmN τ j h1 h2
      have h7 := permPad_mem hmN τ j' h3 h4
      have h8 := permPad_injective n.toNat σ.symm h5
      have h9 := hinj1 _ _ h6.1 h6.2 h7.1 h7.2 h8
      exact permPad_injective m.toNat τ h9
  have hPSeq : ∑ j ∈ Finset.Icc 1 (max n m).toNat, padA n m cost (q1.2.p j) j =
      ∑ j ∈ Finset.Icc 1 (max n m).toNat,
        padA n m (permuteMat (permExt n.toNat σ) (permExt m.toNat τ) cost)
          (q2.2.p j) j := by
    apply le_antisymm
    · rw [hPS2]
      exact hle1
    · rw [hPS1]
      exact hle2
  have hE1 := @paddedSum_eq n m cost q1.2.p hn hm hcomp1 hinj1 hM1.p_surj
  have hE2 := @paddedSum_eq n m
    (permuteMat (permExt n.toNat σ) (permExt m.toNat τ) cost) q2.2.p
    hn hm hcomp2 hinj2 hM2.p_surj
  have hTeq : totalOf n m (permuteMat (permExt n.toNat σ) (permExt m.toNat τ) cost)
      (max n m).toNat q2.2.p = totalOf n m cost (max n m).toNat q1.2.p := by
    rw [hPSeq, hE2] at hE1
    linarith
  unfold hungarian
  rw [hq1, hq2]
  show some (totalOf n m (permuteMat (permExt n.toNat σ) (permExt m.toNat τ) cost)
      (max n m).toNat q2.2.p) = some (totalOf n m cost (max n m).toNat q1.2.p)
  rw [hTeq]

/-- Witness for C8 (amended form), at the rectangular instance `n = 1`,
`m = 2`, the all-zero matrix and the identity relabelings. -/
theorem hungarian_total_permutation_invariant_witness :
    (0 : ℤ) ≤ 1 ∧ (0 : ℤ) ≤ 2 ∧ max (1 : ℤ) 2 ≤ 10 ^ 6 ∧
      (hungarian 1 2 (permuteMat
          (permExt (1 : ℤ).toNat (Equiv.refl (Fin (1 : ℤ).toNat)))
          (permExt (2 : ℤ).toNat (Equiv.refl (Fin (2 : ℤ).toNat))) zeroC)).map
        Prod.fst = (hungarian 1 2 zeroC).map Prod.fst :=
  ⟨by decide, by decide, by decide,
    hungarian_total_permutation_invariant 1 2 zeroC (Equiv.refl _) (Equiv.refl _)
      (by decide) (by decide) (by decide)
      (by intro i j _ _; norm_num [zeroC, PAD])⟩

end Hungarian
